import Mathlib

/-!
# Robin Hood hash table (`robin_hood_hash_1.h`, `robin_hood_hash_2.h`)

Shallow embedding of the probing engine shared by `RobinHoodHash1` and
`RobinHoodHash2`.  Both classes run the same statements over a slot array; the
embedding follows the record semantics of `RobinHoodHash2`, where every slot is
a `psl` field followed by the bytes of a value and the bytes of a slot stay in
memory when the slot is marked empty.  `RobinHoodHash1` behaves identically for
trivially copyable values (the `RobinHoodHashSet<int>` of `tests/test_1.cpp`).

* `uint32_t` fields are natural numbers; the two increments of the source
  (`++key_num`, `++tmp_node.psl`) are taken modulo `2 ^ 32`.
* A `Value*` is the index of the slot it points into, `none` is `nullptr`.
* `x % table_size` with `table_size = 0` has no defined result in C++; the
  operations report it as `Fault.DivideByZero`.  A read outside the slot array
  is `Fault.OutOfBounds`.
* `while` loops are run with a fuel argument; exhausting it is
  `Fault.OutOfFuel`.
* `Init` is taken on a fresh object with a successful allocation.  The
  quotient `max_key_num / max_load_factor` is computed as the source does, in
  IEEE 754 binary32 arithmetic with rounding to nearest, ties to even
  (`roundFloat`), and then truncated; a load factor is the rational value of a
  `float`.  The bytes `malloc` returns for the values are a parameter (`raw`).
-/

namespace RobinHoodHash

/-- The sentinel `UINT32_MAX` of `<stdint.h>`. -/
abbrev UINT32_MAX : Nat := 4294967295

/-- Reasons for an operation not to produce a result. -/
inductive Fault where
  | DivideByZero
  | OutOfBounds
  | OutOfFuel
deriving DecidableEq, Repr

/-- Outcome of running an operation. -/
inductive Exec (α : Type) where
  | ok : α → Exec α
  | fault : Fault → Exec α
deriving DecidableEq, Repr

/-- One pass through a loop body: go round again, leave the function with a
result, or stop on a fault. -/
inductive Step (σ ρ : Type) where
  | next : σ → Step σ ρ
  | done : ρ → Step σ ρ
  | fault : Fault → Step σ ρ

/-- A `while (true)` loop whose body is `body`, run for at most `fuel` passes. -/
def whileLoop {σ ρ : Type} (body : σ → Step σ ρ) : Nat → σ → Exec ρ
  | 0, _ => Exec.fault Fault.OutOfFuel
  | fuel + 1, s =>
    match body s with
    | Step.next s' => whileLoop body fuel s'
    | Step.done r => Exec.ok r
    | Step.fault f => Exec.fault f

/-- The `struct HashNode`: the probe sequence length and the stored value. -/
structure HashNode (Value : Type) where
  psl : Nat
  value : Value
deriving DecidableEq, Repr

/-- The `struct HashTableInfo`. -/
structure HashTableInfo where
  key_num : Nat
  lpsl : Nat
  max_key_num : Nat
  table_size : Nat
deriving DecidableEq, Repr

/-- The three functors `GetKeyFromValue`, `KeyHash`, `KeyEqual` held by a
table (`m_get_key_from_value`, `m_hash`, `m_equal`). -/
structure Policy (Key Value : Type) where
  m_get_key_from_value : Value → Key
  m_hash : Key → Nat
  m_equal : Key → Key → Bool

/-- The data members of an initialised table. -/
structure Table (Value : Type) where
  m_table_info : HashTableInfo
  m_table : List (HashNode Value)
deriving DecidableEq, Repr

variable {Key Value : Type}

/-- The test `SlotIsEmpty(slot)`, applied to the node read at `slot`. -/
def SlotIsEmpty (node : HashNode Value) : Bool :=
  node.psl == UINT32_MAX

/-- The call `MarkSlotEmpty(slot)`: only the `psl` field of the slot is written. -/
def MarkSlotEmpty (t : Table Value) (slot : Nat) : Table Value :=
  match t.m_table[slot]? with
  | some node => { t with m_table := t.m_table.set slot { node with psl := UINT32_MAX } }
  | none => t

/-- Rounding of a rational number to the nearest integer, a tie going to the
even one. -/
def roundHalfEven (x : ℚ) : ℤ :=
  if x - ⌊x⌋ < 1 / 2 then ⌊x⌋
  else if 1 / 2 < x - ⌊x⌋ then ⌊x⌋ + 1
  else if ⌊x⌋ % 2 = 0 then ⌊x⌋ else ⌊x⌋ + 1

/-- The value of the IEEE 754 binary32 number (`float`) nearest to `x`, a tie
going to the even significand: 24 significant bits, least exponent `-126`,
below which the spacing stays `2 ^ (-149)`.  A result beyond the largest
finite `float` is left as it is: the source converts to `uint32_t` next, and
that conversion has no defined result from `2 ^ 32` on. -/
def roundFloat (x : ℚ) : ℚ :=
  if x = 0 then 0
  else (roundHalfEven (x / 2 ^ (max (Int.log 2 |x|) (-126) - 23)) : ℚ) *
    2 ^ (max (Int.log 2 |x|) (-126) - 23)

/-- The constant `DEFAULT_MAX_LOAD_FACTOR`, a `float` initialised with `0.9`:
the binary32 number nearest to nine tenths. -/
def DEFAULT_MAX_LOAD_FACTOR : ℚ := 7549747 / 8388608

/-- The expression `max_key_num / max_load_factor` converted to `uint32_t`:
`max_key_num` is converted to `float`, divided in single precision by the load
factor (the value of a `float`), and the quotient is truncated.  The source
has a defined result only for a positive load factor and a quotient below
`2 ^ 32`. -/
def tableSizeOf (max_key_num : Nat) (max_load_factor : ℚ) : Nat :=
  Int.toNat ⌊roundFloat (roundFloat ((max_key_num % 2 ^ 32 : Nat) : ℚ) / max_load_factor)⌋ %
    2 ^ 32

/-- The state `Init` leaves behind once `table_size` is computed: the header
fields are set and every slot is marked empty.  `raw i` is the content of the
freshly allocated, uninitialised value bytes of slot `i`. -/
def InitWith (max_key_num table_size : Nat) (raw : Nat → Value) : Table Value :=
  { m_table_info :=
      { key_num := 0, lpsl := 0, max_key_num := max_key_num, table_size := table_size },
    m_table := (List.range table_size).map fun i => { psl := UINT32_MAX, value := raw i } }

/-- The call `Init(max_key_num, max_load_factor)` with a successful allocation. -/
def Init (max_key_num : Nat) (max_load_factor : ℚ) (raw : Nat → Value) : Table Value :=
  InitWith (max_key_num % 2 ^ 32) (tableSizeOf max_key_num max_load_factor) raw

/-- Body of the `for` loop of `InternalLookup`, with `remaining` passes left
before `psl` reaches `lpsl`. -/
def InternalLookup.loop (P : Policy Key Value) (t : Table Value) (key : Key) :
    Nat → Nat → Nat → Exec Nat
  | 0, _, _ => Exec.ok UINT32_MAX
  | remaining + 1, psl, slot =>
    match t.m_table[slot]? with
    | none => Exec.fault Fault.OutOfBounds
    | some node =>
      if P.m_equal key (P.m_get_key_from_value node.value) then Exec.ok slot
      else
        match t.m_table[(slot + 1) % t.m_table_info.table_size]? with
        | none => Exec.fault Fault.OutOfBounds
        | some nxt =>
          if SlotIsEmpty nxt || decide (psl > nxt.psl) then Exec.ok UINT32_MAX
          else InternalLookup.loop P t key remaining (psl + 1)
            ((slot + 1) % t.m_table_info.table_size)

/-- The call `InternalLookup(key)`: the slot holding `key`, or `UINT32_MAX`. -/
def InternalLookup (P : Policy Key Value) (t : Table Value) (key : Key) : Exec Nat :=
  if t.m_table_info.table_size = 0 then Exec.fault Fault.DivideByZero
  else InternalLookup.loop P t key t.m_table_info.lpsl 0
    (P.m_hash key % t.m_table_info.table_size)

/-- The call `Lookup(key)`: pointer to the value found, `none` for `nullptr`. -/
def Lookup (P : Policy Key Value) (t : Table Value) (key : Key) : Exec (Option Nat) :=
  match InternalLookup P t key with
  | Exec.fault f => Exec.fault f
  | Exec.ok slot => if slot = UINT32_MAX then Exec.ok none else Exec.ok (some slot)

/-- Variables of the loop of `InternalInsert`. -/
structure InsertState (Value : Type) where
  t : Table Value
  tmp_node : HashNode Value
  slot : Nat
deriving DecidableEq, Repr

/-- Body of the `while (true)` loop of `InternalInsert`. -/
def InternalInsert.body (P : Policy Key Value) (s : InsertState Value) :
    Step (InsertState Value) (Table Value × Option Nat × Bool) :=
  match s.t.m_table[s.slot]? with
  | none => Step.fault Fault.OutOfBounds
  | some node =>
    if SlotIsEmpty node then
      if s.t.m_table_info.key_num ≥ s.t.m_table_info.max_key_num then
        Step.done (s.t, none, false)
      else
        Step.done
          ({ m_table := s.t.m_table.set s.slot s.tmp_node,
             m_table_info :=
               { s.t.m_table_info with
                 key_num := (s.t.m_table_info.key_num + 1) % 2 ^ 32,
                 lpsl := if s.tmp_node.psl > s.t.m_table_info.lpsl then s.tmp_node.psl
                         else s.t.m_table_info.lpsl } },
           some s.slot, true)
    else if P.m_equal (P.m_get_key_from_value node.value)
        (P.m_get_key_from_value s.tmp_node.value) then
      Step.done (s.t, some s.slot, false)
    else if s.tmp_node.psl > node.psl then
      Step.next
        { t :=
            { m_table := s.t.m_table.set s.slot s.tmp_node,
              m_table_info :=
                { s.t.m_table_info with
                  lpsl := if s.tmp_node.psl > s.t.m_table_info.lpsl then s.tmp_node.psl
                          else s.t.m_table_info.lpsl } },
          tmp_node := { node with psl := (node.psl + 1) % 2 ^ 32 },
          slot := (s.slot + 1) % s.t.m_table_info.table_size }
    else
      Step.next
        { t := s.t,
          tmp_node := { s.tmp_node with psl := (s.tmp_node.psl + 1) % 2 ^ 32 },
          slot := (s.slot + 1) % s.t.m_table_info.table_size }

/-- The call `InternalInsert(tmp_node)`: the table afterwards and the returned pair. -/
def InternalInsert (P : Policy Key Value) (fuel : Nat) (t : Table Value)
    (tmp_node : HashNode Value) : Exec (Table Value × Option Nat × Bool) :=
  if t.m_table_info.table_size = 0 then Exec.fault Fault.DivideByZero
  else whileLoop (InternalInsert.body P) fuel
    { t := t, tmp_node := tmp_node,
      slot := P.m_hash (P.m_get_key_from_value tmp_node.value) % t.m_table_info.table_size }

/-- The call `Insert(value)`. -/
def Insert (P : Policy Key Value) (fuel : Nat) (t : Table Value) (value : Value) :
    Exec (Table Value × Option Nat × Bool) :=
  InternalInsert P fuel t { psl := 0, value := value }

/-- Variables of the backward shift loop of `Remove`. -/
structure RemoveState (Value : Type) where
  t : Table Value
  slot : Nat
  next_slot : Nat
deriving DecidableEq, Repr

/-- One evaluation of the loop condition of `Remove` followed, when it holds,
by the loop body; when it fails the statements after the loop are run. -/
def Remove.body (s : RemoveState Value) : Step (RemoveState Value) (Table Value) :=
  match s.t.m_table[s.next_slot]? with
  | none => Step.fault Fault.OutOfBounds
  | some nxt =>
    if !SlotIsEmpty nxt && decide (nxt.psl > 0) then
      if s.slot < s.t.m_table.length then
        Step.next
          { t := { s.t with
                   m_table := s.t.m_table.set s.slot { psl := nxt.psl - 1, value := nxt.value } },
            slot := s.next_slot,
            next_slot := (s.next_slot + 1) % s.t.m_table_info.table_size }
      else Step.fault Fault.OutOfBounds
    else Step.done (MarkSlotEmpty s.t s.slot)

/-- The call `Remove(key)`. -/
def Remove (P : Policy Key Value) (fuel : Nat) (t : Table Value) (key : Key) :
    Exec (Table Value) :=
  match InternalLookup P t key with
  | Exec.fault f => Exec.fault f
  | Exec.ok slot =>
    if slot = UINT32_MAX then Exec.ok t
    else whileLoop Remove.body fuel
      { t := t, slot := slot, next_slot := (slot + 1) % t.m_table_info.table_size }

/-- The loop of `ForEach` from index `i`, with `remaining` indices left below
`table_size`; the result is the list of calls made to `f`. -/
def ForEach.loop (t : Table Value) (f : Nat → Nat → Value → Bool) :
    Nat → Nat → Exec (List (Nat × Nat × Value))
  | 0, _ => Exec.ok []
  | remaining + 1, i =>
    match t.m_table[i]? with
    | none => Exec.fault Fault.OutOfBounds
    | some node =>
      if SlotIsEmpty node then ForEach.loop t f remaining (i + 1)
      else if f i node.psl node.value then
        match ForEach.loop t f remaining (i + 1) with
        | Exec.ok calls => Exec.ok ((i, node.psl, node.value) :: calls)
        | Exec.fault e => Exec.fault e
      else Exec.ok [(i, node.psl, node.value)]

/-- The call `ForEach(f)` on an initialised table: the calls made to `f`, in order. -/
def ForEach (t : Table Value) (f : Nat → Nat → Value → Bool) :
    Exec (List (Nat × Nat × Value)) :=
  ForEach.loop t f t.m_table_info.table_size 0

/-- The key policy of the two test drivers: the value is its own key, the hash
of an `int` is the integer itself, keys are compared with `==`. -/
def intSet : Policy Nat Nat :=
  { m_get_key_from_value := fun v => v, m_hash := fun k => k, m_equal := fun a b => a == b }

/-- Run a list of `Insert` calls, collecting the returned pairs. -/
def insertAll (P : Policy Key Value) (fuel : Nat) :
    Table Value → List Value → Exec (Table Value × List (Option Nat × Bool))
  | t, [] => Exec.ok (t, [])
  | t, v :: vs =>
    match Insert P fuel t v with
    | Exec.fault f => Exec.fault f
    | Exec.ok (t', r) =>
      match insertAll P fuel t' vs with
      | Exec.fault f => Exec.fault f
      | Exec.ok (t'', rs) => Exec.ok (t'', r :: rs)

/-- Run a list of `Remove` calls. -/
def removeAll (P : Policy Key Value) (fuel : Nat) : Table Value → List Key → Exec (Table Value)
  | t, [] => Exec.ok t
  | t, k :: ks =>
    match Remove P fuel t k with
    | Exec.fault f => Exec.fault f
    | Exec.ok t' => removeAll P fuel t' ks

/-- The slots that are not empty, with their index. -/
def occupied (t : Table Value) : List (Nat × HashNode Value) :=
  (t.m_table.enum).filter fun p => !SlotIsEmpty p.2

/-- Sequencing of two operations: the second runs on the result of the first. -/
def Exec.bind {α β : Type} (x : Exec α) (f : α → Exec β) : Exec β :=
  match x with
  | Exec.ok a => f a
  | Exec.fault e => Exec.fault e

/-- The table left by a list of `Insert` calls on `t`. -/
def tableAfterInserts (P : Policy Key Value) (fuel : Nat) (t : Table Value) (vs : List Value) :
    Exec (Table Value) :=
  (insertAll P fuel t vs).bind fun r => Exec.ok r.1

/-- Content of freshly allocated memory used in the concrete runs: all zero. -/
def zeroMem : Nat → Nat := fun _ => 0

/-- The table of the test drivers: `Init(10)` with the default load factor. -/
def testTable : Table Nat := Init 10 DEFAULT_MAX_LOAD_FACTOR zeroMem

/-- What the specification asks of a key policy: equality is an equivalence
and equal keys have the same hash. -/
structure Policy.Lawful (P : Policy Key Value) : Prop where
  equal_refl : ∀ a, P.m_equal a a = true
  equal_symm : ∀ a b, P.m_equal a b = true → P.m_equal b a = true
  equal_trans : ∀ a b c, P.m_equal a b = true → P.m_equal b c = true → P.m_equal a c = true
  hash_eq : ∀ a b, P.m_equal a b = true → P.m_hash a = P.m_hash b

/-- Slot `i` exists, holds `node`, and is not empty. -/
def Occ (t : Table Value) (i : Nat) (node : HashNode Value) : Prop :=
  t.m_table[i]? = some node ∧ node.psl ≠ UINT32_MAX

/-- Number of slots that are not empty. -/
def occCount (t : Table Value) : Nat :=
  t.m_table.countP fun node => !SlotIsEmpty node

/-- The key stored in a node. -/
def Policy.keyOf (P : Policy Key Value) (node : HashNode Value) : Key :=
  P.m_get_key_from_value node.value

/-- The table states reachable from `t0` by calls of `Insert` and `Remove`
that return. -/
inductive Reachable (P : Policy Key Value) (t0 : Table Value) : Table Value → Prop where
  | init : Reachable P t0 t0
  | insert {t t' : Table Value} {v : Value} {fuel : Nat} {r : Option Nat × Bool} :
      Reachable P t0 t → Insert P fuel t v = Exec.ok (t', r) → Reachable P t0 t'
  | remove {t t' : Table Value} {k : Key} {fuel : Nat} :
      Reachable P t0 t → Remove P fuel t k = Exec.ok t' → Reachable P t0 t'

/-- Invariant of a table whose slot array is larger than its capacity
(`max_key_num < table_size`). -/
structure WF (P : Policy Key Value) (t : Table Value) : Prop where
  length_eq : t.m_table.length = t.m_table_info.table_size
  size_lt : t.m_table_info.table_size < 2 ^ 32
  cap_lt : t.m_table_info.max_key_num < t.m_table_info.table_size
  key_num_le : t.m_table_info.key_num ≤ t.m_table_info.max_key_num
  occ_le : occCount t ≤ t.m_table_info.key_num
  lpsl_ge : ∀ i node, Occ t i node → node.psl ≤ t.m_table_info.lpsl
  disp : ∀ i node, Occ t i node →
    node.psl < t.m_table_info.table_size ∧
      (P.m_hash (P.keyOf node) % t.m_table_info.table_size + node.psl) %
        t.m_table_info.table_size = i
  chain : ∀ i node, i < t.m_table_info.table_size →
    Occ t ((i + 1) % t.m_table_info.table_size) node → 0 < node.psl →
    ∃ node', Occ t i node' ∧ node.psl ≤ node'.psl + 1
  uniq : ∀ i j ni nj, Occ t i ni → Occ t j nj → i ≠ j →
    P.m_equal (P.keyOf ni) (P.keyOf nj) = false

/-- The state after a pass of the insert loop that swaps. -/
def InsertState.swapped (s : InsertState Value) (node : HashNode Value) : InsertState Value :=
  { t :=
      { m_table := s.t.m_table.set s.slot s.tmp_node,
        m_table_info :=
          { s.t.m_table_info with
            lpsl := if s.tmp_node.psl > s.t.m_table_info.lpsl then s.tmp_node.psl
                    else s.t.m_table_info.lpsl } },
    tmp_node := { node with psl := (node.psl + 1) % 2 ^ 32 },
    slot := (s.slot + 1) % s.t.m_table_info.table_size }

/-- The state after a pass of the insert loop that does not swap. -/
def InsertState.advanced (s : InsertState Value) : InsertState Value :=
  { t := s.t,
    tmp_node := { s.tmp_node with psl := (s.tmp_node.psl + 1) % 2 ^ 32 },
    slot := (s.slot + 1) % s.t.m_table_info.table_size }

/-- The table after the carried node is stored in the empty slot reached. -/
def InsertState.placed (s : InsertState Value) : Table Value :=
  { m_table := s.t.m_table.set s.slot s.tmp_node,
    m_table_info :=
      { s.t.m_table_info with
        key_num := (s.t.m_table_info.key_num + 1) % 2 ^ 32,
        lpsl := if s.tmp_node.psl > s.t.m_table_info.lpsl then s.tmp_node.psl
                else s.t.m_table_info.lpsl } }

/-- The state after one backward shift of `Remove`. -/
def RemoveState.shifted (s : RemoveState Value) (nxt : HashNode Value) : RemoveState Value :=
  { t := { s.t with
           m_table := s.t.m_table.set s.slot { psl := nxt.psl - 1, value := nxt.value } },
    slot := s.next_slot,
    next_slot := (s.next_slot + 1) % s.t.m_table_info.table_size }

/-- Invariant of the loop of `InternalInsert` on a table that has the empty
slot `e`, as long as the key of the carried node is in no occupied slot. -/
structure InsertInv (P : Policy Key Value) (e : Nat) (s : InsertState Value) : Prop where
  wf : WF P s.t
  slot_lt : s.slot < s.t.m_table_info.table_size
  tmp_disp : (P.m_hash (P.keyOf s.tmp_node) % s.t.m_table_info.table_size + s.tmp_node.psl) %
    s.t.m_table_info.table_size = s.slot
  e_lt : e < s.t.m_table_info.table_size
  e_empty : ∃ node : HashNode Value, s.t.m_table[e]? = some node ∧ node.psl = UINT32_MAX
  ahead : s.tmp_node.psl + (e + s.t.m_table_info.table_size - s.slot) %
    s.t.m_table_info.table_size < s.t.m_table_info.table_size
  tmp_chain : 0 < s.tmp_node.psl →
    ∃ (i : Nat) (node : HashNode Value), i < s.t.m_table_info.table_size ∧
      (i + 1) % s.t.m_table_info.table_size = s.slot ∧ Occ s.t i node ∧
      s.tmp_node.psl ≤ node.psl + 1
  absent : ∀ i node, Occ s.t i node →
    P.m_equal (P.keyOf node) (P.keyOf s.tmp_node) = false

/-- Invariant of the backward shift loop of `Remove` on a table that has the
empty slot `e`.  The slot `s.slot` still holds the node that is being
overwritten or removed; apart from the keys, the table satisfies the
conditions of `WF` with that node counted as stored, and the keys of all
other occupied slots are pairwise different. -/
structure RemoveInv (P : Policy Key Value) (e : Nat) (s : RemoveState Value) : Prop where
  length_eq : s.t.m_table.length = s.t.m_table_info.table_size
  size_lt : s.t.m_table_info.table_size < 2 ^ 32
  cap_lt : s.t.m_table_info.max_key_num < s.t.m_table_info.table_size
  key_num_le : s.t.m_table_info.key_num ≤ s.t.m_table_info.max_key_num
  occ_le : occCount s.t ≤ s.t.m_table_info.key_num
  lpsl_ge : ∀ i node, Occ s.t i node → node.psl ≤ s.t.m_table_info.lpsl
  disp : ∀ i node, Occ s.t i node →
    node.psl < s.t.m_table_info.table_size ∧
      (P.m_hash (P.keyOf node) % s.t.m_table_info.table_size + node.psl) %
        s.t.m_table_info.table_size = i
  chain : ∀ i node, i < s.t.m_table_info.table_size →
    Occ s.t ((i + 1) % s.t.m_table_info.table_size) node → 0 < node.psl →
    ∃ node', Occ s.t i node' ∧ node.psl ≤ node'.psl + 1
  slot_lt : s.slot < s.t.m_table_info.table_size
  next_eq : s.next_slot = (s.slot + 1) % s.t.m_table_info.table_size
  hole : ∃ hn : HashNode Value, Occ s.t s.slot hn
  e_lt : e < s.t.m_table_info.table_size
  e_empty : ∃ node : HashNode Value, s.t.m_table[e]? = some node ∧ node.psl = UINT32_MAX
  uniq_hole : ∀ i j ni nj, Occ s.t i ni → Occ s.t j nj → i ≠ j → i ≠ s.slot → j ≠ s.slot →
    P.m_equal (P.keyOf ni) (P.keyOf nj) = false

/-- The state of the insert loop with every probe length (of the slots, of
the carried node, and `lpsl`) raised by `d`. -/
def InsertState.shift (d : Nat) (s : InsertState Value) : InsertState Value :=
  { t :=
      { m_table := s.t.m_table.map fun nd => { nd with psl := nd.psl + d },
        m_table_info := { s.t.m_table_info with lpsl := s.t.m_table_info.lpsl + d } },
    tmp_node := { s.tmp_node with psl := s.tmp_node.psl + d },
    slot := s.slot }

/-- The state after `k` passes of the insert loop from `s`, provided each pass
goes round again and reads probe lengths of at most `B`. -/
def runBounded (P : Policy Key Value) (B : Nat) :
    Nat → InsertState Value → Option (InsertState Value)
  | 0, s => some s
  | k + 1, s =>
    match s.t.m_table[s.slot]? with
    | none => none
    | some node =>
      if node.psl ≤ B ∧ s.tmp_node.psl ≤ B then
        match InternalInsert.body P s with
        | Step.next s' => runBounded P B k s'
        | Step.done _ => none
        | Step.fault _ => none
      else none

/-- The table after `Init(3)` with the default load factor (three slots,
capacity three) and `Insert` of 0, 1 and 3. -/
def fullTable : Table Nat :=
  { m_table_info := { key_num := 3, lpsl := 1, max_key_num := 3, table_size := 3 },
    m_table := [{ psl := 0, value := 0 }, { psl := 1, value := 3 }, { psl := 1, value := 1 }] }

/-- The insert loop of `Insert(4)` on `fullTable` after nine passes. -/
def overflowBase : InsertState Nat :=
  { t :=
      { m_table_info := { key_num := 3, lpsl := 3, max_key_num := 3, table_size := 3 },
        m_table := [{ psl := 3, value := 3 }, { psl := 3, value := 1 }, { psl := 2, value := 0 }] },
    tmp_node := { psl := 3, value := 4 },
    slot := 1 }

/-- The table `Insert(4)` leaves behind on `fullTable`: the probe lengths have
run up to `UINT32_MAX`, which marks slots 0 and 1 empty. -/
def overflowTable : Table Nat :=
  { m_table_info :=
      { key_num := 3, lpsl := UINT32_MAX, max_key_num := 3, table_size := 3 },
    m_table := [{ psl := UINT32_MAX, value := 3 }, { psl := UINT32_MAX, value := 1 },
      { psl := UINT32_MAX - 1, value := 0 }] }

/-- Number of passes `Insert(4)` makes on `fullTable`. -/
def overflowFuel : Nat := 9 + 48 * 357913940 + 49

/-- The table after `Init(10)` with the default load factor and `Insert(12)`. -/
def oneKeyTable : Table Nat :=
  { m_table_info := { key_num := 1, lpsl := 0, max_key_num := 10, table_size := 11 },
    m_table := (InitWith 10 11 zeroMem).m_table.set 1 { psl := 0, value := 12 } }

/-- The table `Remove(1)` leaves behind on `overflowTable`. -/
def shiftedTable : Table Nat :=
  { m_table_info := overflowTable.m_table_info,
    m_table := [{ psl := UINT32_MAX, value := 3 }, { psl := UINT32_MAX - 2, value := 0 },
      { psl := UINT32_MAX, value := 0 }] }

/-- The keys of the occupied slots are pairwise different. -/
def DistinctKeys (P : Policy Key Value) (t : Table Value) : Prop :=
  ∀ i j ni nj, Occ t i ni → Occ t j nj → i ≠ j → P.m_equal (P.keyOf ni) (P.keyOf nj) = false

/-- Sum of the `psl` fields of all slots. -/
def pslSum (t : Table Value) : Nat :=
  (t.m_table.map fun node => node.psl).sum

/-- A run of `Insert` calls on `t`, one per value of the list, each of which
returns `inserted = true`; the last argument is the table at the end. -/
def InsertRun (P : Policy Key Value) : Table Value → List Value → Table Value → Prop
  | t, [], t' => t' = t
  | t, v :: vs, t' =>
    ∃ (fuel : Nat) (t1 : Table Value) (p : Option Nat),
      Insert P fuel t v = Exec.ok (t1, p, true) ∧ InsertRun P t1 vs t'

/-- What holds of a table filled by successful `Insert` calls of the values
`S`, whatever the relation between `table_size` and `max_key_num`. -/
structure FillState (P : Policy Key Value) (S : List Value) (t : Table Value) : Prop where
  length_eq : t.m_table.length = t.m_table_info.table_size
  max_lt : t.m_table_info.max_key_num < 2 ^ 32
  psl_le : ∀ (i : Nat) (node : HashNode Value),
    t.m_table[i]? = some node → node.psl ≤ UINT32_MAX
  distinct : DistinctKeys P t
  mem : ∀ i node, Occ t i node → node.value ∈ S
  key_num_eq : t.m_table_info.key_num = S.length

/-- Invariant of the loop of `InternalInsert` while the key of the carried
node is in no occupied slot, whatever the relation between `table_size` and
`max_key_num`; `info` is the header at the start of the call. -/
structure FillInv (P : Policy Key Value) (S : List Value) (info : HashTableInfo)
    (s : InsertState Value) : Prop where
  length_eq : s.t.m_table.length = s.t.m_table_info.table_size
  size_eq : s.t.m_table_info.table_size = info.table_size
  max_eq : s.t.m_table_info.max_key_num = info.max_key_num
  key_eq : s.t.m_table_info.key_num = info.key_num
  slot_lt : s.slot < s.t.m_table_info.table_size
  psl_le : ∀ (i : Nat) (node : HashNode Value),
    s.t.m_table[i]? = some node → node.psl ≤ UINT32_MAX
  tmp_le : s.tmp_node.psl ≤ UINT32_MAX
  distinct : DistinctKeys P s.t
  absent : ∀ i node, Occ s.t i node →
    P.m_equal (P.keyOf node) (P.keyOf s.tmp_node) = false
  mem : ∀ i node, Occ s.t i node → node.value ∈ S
  tmp_mem : s.tmp_node.value ∈ S

/-- The table after `Init(2, 0.5)` (four slots) and `Insert` of 0 and 1. -/
def twoKeyTable : Table Nat :=
  { m_table_info := { key_num := 2, lpsl := 0, max_key_num := 2, table_size := 4 },
    m_table := [{ psl := 0, value := 0 }, { psl := 0, value := 1 },
      { psl := UINT32_MAX, value := 0 }, { psl := UINT32_MAX, value := 0 }] }

/-- What holds of every table reachable from `Init`, whatever the load
factor: the slot array has `table_size` slots, the fields are `uint32_t`
values, `lpsl` bounds the probe length of every occupied slot and that probe
length is the displacement of the stored key from its home slot. -/
structure Basic (P : Policy Key Value) (t : Table Value) : Prop where
  length_eq : t.m_table.length = t.m_table_info.table_size
  max_lt : t.m_table_info.max_key_num < 2 ^ 32
  key_num_le : t.m_table_info.key_num ≤ t.m_table_info.max_key_num
  psl_le : ∀ (i : Nat) (node : HashNode Value),
    t.m_table[i]? = some node → node.psl ≤ UINT32_MAX
  lpsl_ge : ∀ i node, Occ t i node → node.psl ≤ t.m_table_info.lpsl
  disp : ∀ i node, Occ t i node →
    (P.m_hash (P.keyOf node) % t.m_table_info.table_size + node.psl) %
      t.m_table_info.table_size = i

/-- Invariant of the loop of `InternalInsert` that needs no assumption on the
load factor or on the key policy; `info` is the header at the start. -/
structure BasicInsertInv (P : Policy Key Value) (info : HashTableInfo)
    (s : InsertState Value) : Prop where
  basic : Basic P s.t
  size_eq : s.t.m_table_info.table_size = info.table_size
  max_eq : s.t.m_table_info.max_key_num = info.max_key_num
  key_eq : s.t.m_table_info.key_num = info.key_num
  slot_lt : s.slot < s.t.m_table_info.table_size
  tmp_le : s.tmp_node.psl ≤ UINT32_MAX
  tmp_disp : (P.m_hash (P.keyOf s.tmp_node) % s.t.m_table_info.table_size + s.tmp_node.psl) %
    s.t.m_table_info.table_size = s.slot

/-- Invariant of the backward shift loop of `Remove` that needs no assumption
on the load factor or on the key policy. -/
structure BasicRemoveInv (P : Policy Key Value) (info : HashTableInfo)
    (s : RemoveState Value) : Prop where
  basic : Basic P s.t
  info_eq : s.t.m_table_info = info
  slot_lt : s.slot < s.t.m_table_info.table_size
  next_eq : s.next_slot = (s.slot + 1) % s.t.m_table_info.table_size

/-- The calls `ForEach` makes when the callback never returns `false`:
`(i, psl, value)` for the occupied slots, by increasing slot index. -/
def occupiedCalls (t : Table Value) : List (Nat × Nat × Value) :=
  (occupied t).map fun p => (p.1, p.2.psl, p.2.value)

/-- A list of calls cut off right after the first call for which the callback
returns `false`. -/
def cutAfterFalse (f : Nat → Nat → Value → Bool) :
    List (Nat × Nat × Value) → List (Nat × Nat × Value)
  | [] => []
  | c :: cs => if f c.1 c.2.1 c.2.2 then c :: cutAfterFalse f cs else [c]

/-! ### The object of `robin_hood_hash_2.h` and its borrowed buffer -/

/-- Size in bytes of the packed header `HashTableInfo`: four `uint32_t`. -/
def sizeofHashTableInfo : Nat := 16

/-- Size in bytes of the packed `HashNode`: `uint32_t psl` followed by
`char value[ValueSize]`. -/
def sizeofHashNode (ValueSize : Nat) : Nat := 4 + ValueSize

/-- A block of memory handed to `Init(void* data, uint64_t size)`: its address
and the header that its first 16 bytes hold. -/
structure Buffer where
  addr : Nat
  header : HashTableInfo
deriving DecidableEq, Repr

/-- The data members of a `RobinHoodHash2` object; the pointers are addresses,
`none` is `nullptr`. -/
structure RobinHoodHash2 where
  m_is_mapping : Bool
  m_table_info : Option Nat
  m_table : Option Nat
deriving DecidableEq, Repr

/-- The constructor `RobinHoodHash2()`. -/
def RobinHoodHash2.new : RobinHoodHash2 :=
  { m_is_mapping := false, m_table_info := none, m_table := none }

/-- The call `Init(void* data, uint64_t size)`: the object afterwards and the
returned flag.  `size_t` and `uint64_t` are 64 bits wide. -/
def RobinHoodHash2.Init (ValueSize : Nat) (self : RobinHoodHash2) (data : Buffer) (size : Nat) :
    RobinHoodHash2 × Bool :=
  if self.m_table_info.isSome then (self, false)
  else if size < sizeofHashTableInfo then (self, false)
  else
    let size := size - sizeofHashTableInfo
    let self := { self with m_table_info := some data.addr }
    if size < (data.header.table_size * sizeofHashNode ValueSize) % 2 ^ 64 then (self, false)
    else
      ({ self with m_table := some (data.addr + sizeofHashTableInfo), m_is_mapping := true },
        true)

/-- The call `Size()` on an object whose header is `header`. -/
def RobinHoodHash2.Size (ValueSize : Nat) (header : HashTableInfo) : Nat :=
  (sizeofHashTableInfo + header.table_size * sizeofHashNode ValueSize) % 2 ^ 64

/-- The destructor `~RobinHoodHash2()`: the address it passes to `free`, if any. -/
def RobinHoodHash2.destructor (self : RobinHoodHash2) : Option Nat :=
  if !self.m_is_mapping then self.m_table_info else none

/-! ### Multiset of stored values -/

/-- The values of the slots of a slot array that are not empty, by slot index. -/
def occList (l : List (HashNode Value)) : List Value :=
  (l.filter fun nd => !SlotIsEmpty nd).map fun nd => nd.value

/-- The multiset of the values stored in the occupied slots. -/
def occValues (t : Table Value) : Multiset Value :=
  (occList t.m_table : List Value)

/-- The values a node contributes to `occValues`: its value when the slot is
occupied, nothing otherwise. -/
def nodeValues (nd : HashNode Value) : Multiset Value :=
  if SlotIsEmpty nd then 0 else {nd.value}

/-! ### Concrete tables of the runs with a load factor above one -/

/-- The table after `Init(6, 2.0)` (three slots for a capacity of six) and
`Insert` of 0, 1 and 3. -/
def fullTable6 : Table Nat :=
  { m_table_info := { key_num := 3, lpsl := 1, max_key_num := 6, table_size := 3 },
    m_table := [{ psl := 0, value := 0 }, { psl := 1, value := 3 }, { psl := 1, value := 1 }] }

/-- The insert loop of `Insert(4)` on `fullTable6` after nine passes. -/
def overflowBase6 : InsertState Nat :=
  { t :=
      { m_table_info := { key_num := 3, lpsl := 3, max_key_num := 6, table_size := 3 },
        m_table := [{ psl := 3, value := 3 }, { psl := 3, value := 1 }, { psl := 2, value := 0 }] },
    tmp_node := { psl := 3, value := 4 },
    slot := 1 }

/-- The table `Insert(4)` leaves behind on `fullTable6`. -/
def overflowTable6 : Table Nat :=
  { m_table_info :=
      { key_num := 4, lpsl := UINT32_MAX, max_key_num := 6, table_size := 3 },
    m_table := [{ psl := UINT32_MAX, value := 3 }, { psl := UINT32_MAX, value := 4 },
      { psl := UINT32_MAX - 1, value := 0 }] }

/-- The table `Insert(0)` leaves behind on `overflowTable6`. -/
def duplicateTable : Table Nat :=
  { m_table_info :=
      { key_num := 5, lpsl := UINT32_MAX, max_key_num := 6, table_size := 3 },
    m_table := [{ psl := 0, value := 0 }, { psl := UINT32_MAX, value := 4 },
      { psl := UINT32_MAX - 1, value := 0 }] }

/-- The table `Remove(3)` leaves behind on `shiftedTable`. -/
def homeTable : Table Nat :=
  { m_table_info := overflowTable.m_table_info,
    m_table := [{ psl := UINT32_MAX - 3, value := 0 }, { psl := UINT32_MAX, value := 0 },
      { psl := UINT32_MAX, value := 0 }] }

/-- The table after `Init(10)` with the default load factor, `Insert(12)` and
`Insert(1)`: both keys have home slot 1, so 1 sits in slot 2 with `psl = 1`. -/
def collisionTable : Table Nat :=
  { m_table_info := { key_num := 2, lpsl := 1, max_key_num := 10, table_size := 11 },
    m_table := ((InitWith 10 11 zeroMem).m_table.set 1 { psl := 0, value := 12 }).set 2
      { psl := 1, value := 1 } }

/-- The key policy `P` with an equality test that never answers `true`.  The
table invariant stated for it is the part of the invariant that does not
depend on key equality (displacement, probe chain, counts). -/
def Policy.neverEqual (P : Policy Key Value) : Policy Key Value :=
  { P with m_equal := fun _ _ => false }

/-! ### The table invariant when the capacity may equal the table size -/

/-- The slots at probe distance below `p` from the home slot `h` all hold a
`psl` that is at least their distance from `h`; the mark of an empty slot,
`UINT32_MAX`, is the largest `psl` there is, so an empty slot passes.  When
`strict` holds none of these slots is empty. -/
def Covers (strict : Prop) (t : Table Value) (h p : Nat) : Prop :=
  ∀ c, c < p → ∀ x : HashNode Value,
    t.m_table[(h + c) % t.m_table_info.table_size]? = some x →
      c ≤ x.psl ∧ (strict → x.psl ≠ UINT32_MAX)

/-- As `Covers`, with nothing required of the slot `hole`. -/
def CoversExcept (strict : Prop) (t : Table Value) (hole h p : Nat) : Prop :=
  ∀ c, c < p → (h + c) % t.m_table_info.table_size ≠ hole → ∀ x : HashNode Value,
    t.m_table[(h + c) % t.m_table_info.table_size]? = some x →
      c ≤ x.psl ∧ (strict → x.psl ≠ UINT32_MAX)

/-- The table invariant for `max_key_num ≤ table_size`.  It holds also once the
table has been full and an `Insert` has run the probe lengths up to
`UINT32_MAX`: the keys of the occupied slots are pairwise different, and on the
probe path of every stored entry each slot holds a `psl` at least its distance
from the entry's home slot.  While `key_num < max_key_num` no slot on such a
path is empty and at most `key_num` slots are occupied. -/
structure PathWF (P : Policy Key Value) (t : Table Value) : Prop where
  basic : Basic P t
  size_lt : t.m_table_info.table_size < 2 ^ 32
  cap_le : t.m_table_info.max_key_num ≤ t.m_table_info.table_size
  uniq : ∀ i j ni nj, Occ t i ni → Occ t j nj → i ≠ j →
    P.m_equal (P.keyOf ni) (P.keyOf nj) = false
  path : ∀ i node, Occ t i node →
    Covers (t.m_table_info.key_num < t.m_table_info.max_key_num) t
      (P.m_hash (P.keyOf node) % t.m_table_info.table_size) node.psl
  occ_le : t.m_table_info.key_num < t.m_table_info.max_key_num →
    occCount t ≤ t.m_table_info.key_num

/-- Invariant of the loop of `InternalInsert` for `PathWF`, as long as the key
of the carried node is in no occupied slot; `info` is the header at the start
and `V` the multiset of the stored values and the inserted value. -/
structure InsertPathInv (P : Policy Key Value) (info : HashTableInfo) (V : Multiset Value)
    (s : InsertState Value) : Prop where
  basic : BasicInsertInv P info s
  size_lt : s.t.m_table_info.table_size < 2 ^ 32
  cap_le : s.t.m_table_info.max_key_num ≤ s.t.m_table_info.table_size
  uniq : ∀ i j ni nj, Occ s.t i ni → Occ s.t j nj → i ≠ j →
    P.m_equal (P.keyOf ni) (P.keyOf nj) = false
  absent : ∀ i node, Occ s.t i node →
    P.m_equal (P.keyOf node) (P.keyOf s.tmp_node) = false
  path : ∀ i node, Occ s.t i node →
    Covers (s.t.m_table_info.key_num < s.t.m_table_info.max_key_num) s.t
      (P.m_hash (P.keyOf node) % s.t.m_table_info.table_size) node.psl
  tmp_path : Covers (s.t.m_table_info.key_num < s.t.m_table_info.max_key_num) s.t
    (P.m_hash (P.keyOf s.tmp_node) % s.t.m_table_info.table_size) s.tmp_node.psl
  occ_le : s.t.m_table_info.key_num < s.t.m_table_info.max_key_num →
    occCount s.t ≤ s.t.m_table_info.key_num
  vals : s.t.m_table_info.key_num < s.t.m_table_info.max_key_num →
    occValues s.t + {s.tmp_node.value} = V

/-- Invariant of the backward shift loop of `Remove` for `PathWF`: the
conditions on keys and probe paths hold with the slot `s.slot`, which is being
overwritten or removed, left out of account. -/
structure RemovePathInv (P : Policy Key Value) (info : HashTableInfo)
    (s : RemoveState Value) : Prop where
  basic : BasicRemoveInv P info s
  uniq_hole : ∀ i j ni nj, Occ s.t i ni → Occ s.t j nj → i ≠ j → i ≠ s.slot → j ≠ s.slot →
    P.m_equal (P.keyOf ni) (P.keyOf nj) = false
  path_hole : ∀ i node, Occ s.t i node → i ≠ s.slot →
    CoversExcept (s.t.m_table_info.key_num < s.t.m_table_info.max_key_num) s.t s.slot
      (P.m_hash (P.keyOf node) % s.t.m_table_info.table_size) node.psl

/-- The table after `Init(3)` with the default load factor (three slots,
capacity three) and `Insert` of 0 and 1. -/
def pairTable : Table Nat :=
  { m_table_info := { key_num := 2, lpsl := 0, max_key_num := 3, table_size := 3 },
    m_table := [{ psl := 0, value := 0 }, { psl := 0, value := 1 },
      { psl := UINT32_MAX, value := 0 }] }

/-! ## Theorems -/

/-- For a positive `x` between `2 ^ e` and `2 ^ (e + 1)`, with `e` in the
normal range, `roundFloat x` rounds `x` to a multiple of `2 ^ (e - 23)`. -/
theorem roundFloat_eq (x : ℚ) (e : ℤ) (hx : 0 < x) (h1 : (2 : ℚ) ^ e ≤ x)
    (h2 : x < (2 : ℚ) ^ (e + 1)) (he : -126 ≤ e) :
    roundFloat x = (roundHalfEven (x / 2 ^ (e - 23)) : ℚ) * 2 ^ (e - 23) := by
  have hlog : Int.log 2 |x| = e := by
    rw [abs_of_pos hx]
    have ha : e ≤ Int.log 2 x :=
      (Int.zpow_le_iff_le_log (b := 2) (by norm_num) hx (x := e)).mp (by exact_mod_cast h1)
    have hb : Int.log 2 x < e + 1 :=
      (Int.lt_zpow_iff_log_lt (b := 2) (by norm_num) hx (x := e + 1)).mp
        (by exact_mod_cast h2)
    omega
  unfold roundFloat
  rw [if_neg (ne_of_gt hx), hlog, max_eq_left he]

/-- The constant is the `float` nearest to `0.9`. -/
theorem default_max_load_factor_eq : DEFAULT_MAX_LOAD_FACTOR = roundFloat (9 / 10) := by
  rw [roundFloat_eq _ (-1) (by norm_num) (by norm_num) (by norm_num) (by norm_num)]
  norm_num [roundHalfEven, DEFAULT_MAX_LOAD_FACTOR]

theorem tableSizeOf_ten : tableSizeOf 10 DEFAULT_MAX_LOAD_FACTOR = 11 := by
  unfold tableSizeOf DEFAULT_MAX_LOAD_FACTOR
  have h1 : roundFloat ((10 % 2 ^ 32 : Nat) : ℚ) = 10 := by
    rw [roundFloat_eq _ 3 (by norm_num) (by norm_num) (by norm_num) (by norm_num)]
    norm_num [roundHalfEven]
  rw [h1, roundFloat_eq _ 3 (by norm_num) (by norm_num) (by norm_num) (by norm_num)]
  norm_num [roundHalfEven]
  rfl

theorem tableSizeOf_two_half : tableSizeOf 2 (1 / 2) = 4 := by
  unfold tableSizeOf
  have h1 : roundFloat ((2 % 2 ^ 32 : Nat) : ℚ) = 2 := by
    rw [roundFloat_eq _ 1 (by norm_num) (by norm_num) (by norm_num) (by norm_num)]
    norm_num [roundHalfEven]
  rw [h1, roundFloat_eq _ 2 (by norm_num) (by norm_num) (by norm_num) (by norm_num)]
  norm_num [roundHalfEven]
  rfl

theorem testTable_eq : testTable = InitWith 10 11 zeroMem := by
  simp [testTable, Init, tableSizeOf_ten]

/-- C1: after `Init(10)` and the single call `Insert(12)`, which returns a
pointer into slot 1 and `inserted = true`, `Lookup(12)` returns `nullptr`: with
`lpsl = 0` the `for` loop of `InternalLookup` makes no pass at all. -/
theorem C1_lookup_misses_after_single_insert :
    Insert intSet 100 testTable 12 =
        Exec.ok ({ m_table_info := { key_num := 1, lpsl := 0, max_key_num := 10, table_size := 11 },
                   m_table := (InitWith 10 11 zeroMem).m_table.set 1 { psl := 0, value := 12 } },
                 some 1, true) ∧
      ((Insert intSet 100 testTable 12).bind fun r => Lookup intSet r.1 12) = Exec.ok none := by
  rw [testTable_eq]
  decide

/-- C2: after `Init(10)`, `Insert` of 0, 11, 5 and `Remove(5)`, slot 5 is marked
empty yet `Lookup(5)` returns a pointer into slot 5: the first pass of
`InternalLookup` compares the key with the bytes left in the home slot without
testing `SlotIsEmpty`. -/
theorem C2_lookup_finds_removed_key :
    ((tableAfterInserts intSet 100 testTable [0, 11, 5]).bind fun t =>
        (Remove intSet 100 t 5).bind fun t' =>
          (Lookup intSet t' 5).bind fun r =>
            Exec.ok (r, t'.m_table[5]?, (occupied t).map fun p => p.2.value)) =
      Exec.ok (some 5, some { psl := UINT32_MAX, value := 5 }, [0, 11, 5]) := by
  rw [testTable_eq]
  decide

/-- C3: after `Init(10)` and `Insert(0)`, the key 0 is stored in slot 0 but
`Remove(0)` changes nothing: `InternalLookup` does not find the key (`lpsl = 0`),
so slot 0 still holds key 0 and one slot is still occupied. -/
theorem C3_remove_leaves_present_key :
    ((tableAfterInserts intSet 100 testTable [0]).bind fun t =>
        (Remove intSet 100 t 0).bind fun t' =>
          Exec.ok (decide (t' = t), occupied t, occupied t')) =
      Exec.ok (true, [(0, { psl := 0, value := 0 })], [(0, { psl := 0, value := 0 })]) := by
  rw [testTable_eq]
  decide

/-- C5: after `Init(10)`, `Insert(0)` and `Insert(1)`, the call `Insert(11)`
returns `(pointer into slot 2, true)`, but slot 2 holds the displaced value 1
and the new value 11 sits in slot 1; an immediately following `Insert(11)`
returns `(pointer into slot 1, false)`. -/
theorem C5_insert_returns_displaced_slot :
    ((tableAfterInserts intSet 100 testTable [0, 1]).bind fun t =>
        (Insert intSet 100 t 11).bind fun r =>
          (Insert intSet 100 r.1 11).bind fun r' =>
            Exec.ok (r.2, r.1.m_table[2]?, r.1.m_table[1]?, r'.2)) =
      Exec.ok ((some 2, true), some { psl := 1, value := 1 }, some { psl := 1, value := 11 },
        (some 1, false)) := by
  rw [testTable_eq]
  decide

/-- C7: after `Init(2, 0.5)` (four slots) and `Insert` of 0 and 1, `key_num`
equals `max_key_num`; `Insert(4)`, whose key is absent, returns
`(nullptr, false)` but has already swapped 4 into slot 1: the stored value 1 is
lost and `lpsl` went from 0 to 1. -/
theorem C7_failed_insert_mutates :
    ((tableAfterInserts intSet 100 (Init 2 (1 / 2) zeroMem) [0, 1]).bind fun t =>
        Exec.ok (t.m_table_info, (occupied t).map fun p => p.2)) =
      Exec.ok ({ key_num := 2, lpsl := 0, max_key_num := 2, table_size := 4 },
        [{ psl := 0, value := 0 }, { psl := 0, value := 1 }]) ∧
    ((tableAfterInserts intSet 100 (Init 2 (1 / 2) zeroMem) [0, 1]).bind fun t =>
        (Insert intSet 100 t 4).bind fun r =>
          Exec.ok (r.2, r.1.m_table_info, (occupied r.1).map fun p => p.2)) =
      Exec.ok ((none, false), { key_num := 2, lpsl := 1, max_key_num := 2, table_size := 4 },
        [{ psl := 0, value := 0 }, { psl := 1, value := 4 }]) := by
  simp only [Init, tableSizeOf_two_half]
  decide

/-- C8: after `Init(10)`, `Insert(0)`, `Insert(11)` and `Remove(0)`, one slot is
occupied and `ForEach` with an always-continue callback makes one call, but
`key_num` is still 2: `Remove` never writes `key_num`. -/
theorem C8_key_num_not_decremented :
    ((tableAfterInserts intSet 100 testTable [0, 11]).bind fun t =>
        (Remove intSet 100 t 0).bind fun t' =>
          (ForEach t' fun _ _ _ => true).bind fun calls =>
            Exec.ok (t'.m_table_info.key_num, calls)) =
      Exec.ok (2, [(0, 0, 11)]) := by
  rw [testTable_eq]
  decide

/-- C9: the scenario of the test drivers.  All seven `Insert` calls succeed, but
`Lookup(15)` and `Lookup(27)` return `nullptr`; after the three `Remove` calls
`Lookup` of 24, 12 and 36 returns pointers into the emptied slots 2, 1 and 3;
after `Insert(48)` the value of `key_num` is 8 and `Lookup(27)`, `Lookup(48)`
return `nullptr`. -/
theorem C9_test_driver_scenario :
    ((insertAll intSet 100 testTable [12, 24, 37, 36, 15, 27, 0]).bind fun r =>
        Exec.ok (r.2.map (fun x => x.2), [12, 24, 37, 36, 15, 27, 0].map (Lookup intSet r.1))) =
      Exec.ok ([true, true, true, true, true, true, true],
        [Exec.ok (some 1), Exec.ok (some 2), Exec.ok (some 4), Exec.ok (some 3), Exec.ok none,
          Exec.ok none, Exec.ok (some 0)]) ∧
    ((tableAfterInserts intSet 100 testTable [12, 24, 37, 36, 15, 27, 0]).bind fun t =>
        (removeAll intSet 100 t [24, 12, 36]).bind fun t' =>
          Exec.ok ([37, 15, 27, 0, 24, 12, 36].map (Lookup intSet t'))) =
      Exec.ok [Exec.ok (some 4), Exec.ok none, Exec.ok none, Exec.ok (some 0), Exec.ok (some 2),
        Exec.ok (some 1), Exec.ok (some 3)] ∧
    ((tableAfterInserts intSet 100 testTable [12, 24, 37, 36, 15, 27, 0]).bind fun t =>
        (removeAll intSet 100 t [24, 12, 36]).bind fun t' =>
          (Insert intSet 100 t' 48).bind fun r =>
            Exec.ok (r.2, r.1.m_table_info.key_num,
              [37, 15, 27, 0, 48].map (Lookup intSet r.1))) =
      Exec.ok ((some 7, true), 8,
        [Exec.ok (some 4), Exec.ok (some 5), Exec.ok none, Exec.ok (some 0), Exec.ok none]) := by
  rw [testTable_eq]
  decide

/-! ### Loops -/

theorem whileLoop_inv {σ ρ : Type} (body : σ → Step σ ρ) (I : σ → Prop) (Q : ρ → Prop)
    (hnext : ∀ s s', I s → body s = Step.next s' → I s')
    (hdone : ∀ s r, I s → body s = Step.done r → Q r) :
    ∀ fuel s r, I s → whileLoop body fuel s = Exec.ok r → Q r := by
  intro fuel
  induction fuel with
  | zero => intro s r _ h; simp [whileLoop] at h
  | succ fuel ih =>
    intro s r hI h
    rw [whileLoop] at h
    cases hb : body s with
    | next s' => rw [hb] at h; exact ih s' r (hnext s s' hI hb) h
    | done r' =>
      rw [hb] at h
      cases h
      exact hdone s _ hI hb
    | fault f => rw [hb] at h; cases h

theorem whileLoop_term {σ ρ : Type} {body : σ → Step σ ρ} (I : σ → Prop) (μ : σ → Nat)
    (hnext : ∀ s s', I s → body s = Step.next s' → I s' ∧ μ s' < μ s)
    (hfault : ∀ s f, I s → body s ≠ Step.fault f) :
    ∀ fuel s, I s → μ s < fuel → ∃ r, whileLoop body fuel s = Exec.ok r := by
  intro fuel
  induction fuel with
  | zero => intro s _ h; omega
  | succ fuel ih =>
    intro s hI hμ
    rw [whileLoop]
    cases hb : body s with
    | next s' =>
      obtain ⟨hI', hlt⟩ := hnext s s' hI hb
      exact ih s' hI' (by omega)
    | done r' => exact ⟨r', rfl⟩
    | fault f => exact absurd hb (hfault s f hI)

theorem whileLoop_mono {σ ρ : Type} {body : σ → Step σ ρ} :
    ∀ fuel s r, whileLoop body fuel s = Exec.ok r →
      ∀ fuel', fuel ≤ fuel' → whileLoop body fuel' s = Exec.ok r := by
  intro fuel
  induction fuel with
  | zero => intro s r h; simp [whileLoop] at h
  | succ fuel ih =>
    intro s r h fuel' hle
    obtain ⟨k, rfl⟩ : ∃ k, fuel' = k + 1 := ⟨fuel' - 1, by omega⟩
    rw [whileLoop] at h ⊢
    cases hb : body s with
    | next s' => rw [hb] at h; exact ih s' r h k (by omega)
    | done r' => rw [hb] at h; exact h
    | fault f => rw [hb] at h; cases h

/-! ### Arithmetic modulo the table size -/

theorem mod_two_cases (x n : Nat) (hx : x < 2 * n) :
    x % n = if x < n then x else x - n := by
  split
  · exact Nat.mod_eq_of_lt (by assumption)
  · rw [Nat.mod_eq_sub_mod (by omega), Nat.mod_eq_of_lt (by omega)]

theorem succ_mod_lt (i n : Nat) (hn : 0 < n) : (i + 1) % n < n := Nat.mod_lt _ hn

theorem succ_mod_inj {i j n : Nat} (hi : i < n) (hj : j < n)
    (h : (i + 1) % n = (j + 1) % n) : i = j := by
  rw [mod_two_cases (i + 1) n (by omega), mod_two_cases (j + 1) n (by omega)] at h
  split at h <;> split at h <;> omega

theorem disp_succ {h p s n : Nat} (hd : (h % n + p) % n = s) :
    (h % n + (p + 1)) % n = (s + 1) % n := by
  rw [← hd, Nat.mod_add_mod, Nat.mod_add_mod, Nat.add_assoc, Nat.mod_add_mod]

/-- Number of forward steps from slot `s` to slot `e`. -/
theorem dist_succ {s e n : Nat} (hs : s < n) (he : e < n) (hne : s ≠ e) :
    (e + n - (s + 1) % n) % n + 1 = (e + n - s) % n := by
  rw [mod_two_cases (s + 1) n (by omega)]
  split
  · rw [mod_two_cases (e + n - (s + 1)) n (by omega), mod_two_cases (e + n - s) n (by omega)]
    split <;> split <;> omega
  · rw [mod_two_cases (e + n - (s + 1 - n)) n (by omega), mod_two_cases (e + n - s) n (by omega)]
    split <;> split <;> omega

theorem add_mod_ne {a k p n : Nat} (hkp : k < p) (hp : p < n) :
    (a + k) % n ≠ (a + p) % n := by
  intro h
  have h1 : (a + k) ≡ (a + p) [MOD n] := h
  have h2 : k ≡ p [MOD n] := Nat.ModEq.add_left_cancel' a h1
  have h3 : k % n = p % n := h2
  rw [Nat.mod_eq_of_lt (by omega), Nat.mod_eq_of_lt hp] at h3
  omega

/-! ### The loop bodies, case by case -/

theorem slotIsEmpty_iff (node : HashNode Value) :
    SlotIsEmpty node = true ↔ node.psl = UINT32_MAX := by
  simp [SlotIsEmpty]

theorem slotIsEmpty_false_iff (node : HashNode Value) :
    SlotIsEmpty node = false ↔ node.psl ≠ UINT32_MAX := by
  simp [SlotIsEmpty]

theorem insert_body_fault {P : Policy Key Value} {s : InsertState Value} {f : Fault}
    (h : InternalInsert.body P s = Step.fault f) : s.t.m_table[s.slot]? = none := by
  unfold InternalInsert.body at h
  split at h
  · assumption
  · split_ifs at h

theorem insert_body_next {P : Policy Key Value} {s s' : InsertState Value}
    (h : InternalInsert.body P s = Step.next s') :
    ∃ node, s.t.m_table[s.slot]? = some node ∧ node.psl ≠ UINT32_MAX ∧
      P.m_equal (P.keyOf node) (P.keyOf s.tmp_node) = false ∧
      ((node.psl < s.tmp_node.psl ∧ s' = s.swapped node) ∨
        (s.tmp_node.psl ≤ node.psl ∧ s' = s.advanced)) := by
  unfold InternalInsert.body at h
  split at h
  · cases h
  · rename_i node hget
    refine ⟨node, hget, ?_⟩
    by_cases h1 : SlotIsEmpty node = true
    · rw [if_pos h1] at h
      by_cases h2 : s.t.m_table_info.key_num ≥ s.t.m_table_info.max_key_num
      · rw [if_pos h2] at h; cases h
      · rw [if_neg h2] at h; cases h
    · rw [if_neg h1] at h
      by_cases h3 : P.m_equal (P.m_get_key_from_value node.value)
          (P.m_get_key_from_value s.tmp_node.value) = true
      · rw [if_pos h3] at h; cases h
      · rw [if_neg h3] at h
        have hne : node.psl ≠ UINT32_MAX := by simpa [SlotIsEmpty] using h1
        have hk : P.m_equal (P.keyOf node) (P.keyOf s.tmp_node) = false := by
          simpa [Policy.keyOf] using h3
        by_cases h4 : s.tmp_node.psl > node.psl
        · rw [if_pos h4] at h
          cases h
          exact ⟨hne, hk, Or.inl ⟨h4, rfl⟩⟩
        · rw [if_neg h4] at h
          cases h
          exact ⟨hne, hk, Or.inr ⟨by omega, rfl⟩⟩

theorem insert_body_done {P : Policy Key Value} {s : InsertState Value}
    {r : Table Value × Option Nat × Bool} (h : InternalInsert.body P s = Step.done r) :
    ∃ node, s.t.m_table[s.slot]? = some node ∧
      ((node.psl = UINT32_MAX ∧ s.t.m_table_info.max_key_num ≤ s.t.m_table_info.key_num ∧
          r = (s.t, none, false)) ∨
        (node.psl = UINT32_MAX ∧ s.t.m_table_info.key_num < s.t.m_table_info.max_key_num ∧
          r = (s.placed, some s.slot, true)) ∨
        (node.psl ≠ UINT32_MAX ∧ P.m_equal (P.keyOf node) (P.keyOf s.tmp_node) = true ∧
          r = (s.t, some s.slot, false))) := by
  unfold InternalInsert.body at h
  split at h
  · cases h
  · rename_i node hget
    refine ⟨node, hget, ?_⟩
    by_cases h1 : SlotIsEmpty node = true
    · rw [if_pos h1] at h
      have he : node.psl = UINT32_MAX := by simpa [SlotIsEmpty] using h1
      by_cases h2 : s.t.m_table_info.key_num ≥ s.t.m_table_info.max_key_num
      · rw [if_pos h2] at h; cases h
        exact Or.inl ⟨he, h2, rfl⟩
      · rw [if_neg h2] at h; cases h
        exact Or.inr (Or.inl ⟨he, by omega, rfl⟩)
    · rw [if_neg h1] at h
      have hne : node.psl ≠ UINT32_MAX := by simpa [SlotIsEmpty] using h1
      by_cases h3 : P.m_equal (P.m_get_key_from_value node.value)
          (P.m_get_key_from_value s.tmp_node.value) = true
      · rw [if_pos h3] at h; cases h
        exact Or.inr (Or.inr ⟨hne, h3, rfl⟩)
      · rw [if_neg h3] at h
        by_cases h4 : s.tmp_node.psl > node.psl
        · rw [if_pos h4] at h; cases h
        · rw [if_neg h4] at h; cases h

theorem remove_body_fault {s : RemoveState Value} {f : Fault}
    (h : Remove.body s = Step.fault f) :
    s.t.m_table[s.next_slot]? = none ∨ s.t.m_table.length ≤ s.slot := by
  unfold Remove.body at h
  split at h
  · left; assumption
  · split_ifs at h
    right; omega

theorem remove_body_next {s s' : RemoveState Value} (h : Remove.body s = Step.next s') :
    ∃ nxt, s.t.m_table[s.next_slot]? = some nxt ∧ nxt.psl ≠ UINT32_MAX ∧ 0 < nxt.psl ∧
      s.slot < s.t.m_table.length ∧ s' = s.shifted nxt := by
  unfold Remove.body at h
  split at h
  · cases h
  · rename_i nxt hget
    refine ⟨nxt, hget, ?_⟩
    split_ifs at h with h1 h2
    cases h
    simp [SlotIsEmpty] at h1
    exact ⟨h1.1, h1.2, h2, rfl⟩

theorem remove_body_done {s : RemoveState Value} {r : Table Value}
    (h : Remove.body s = Step.done r) :
    ∃ nxt, s.t.m_table[s.next_slot]? = some nxt ∧ (nxt.psl = UINT32_MAX ∨ nxt.psl = 0) ∧
      r = MarkSlotEmpty s.t s.slot := by
  unfold Remove.body at h
  split at h
  · cases h
  · rename_i nxt hget
    refine ⟨nxt, hget, ?_⟩
    split_ifs at h with h1 h2
    cases h
    simp [SlotIsEmpty] at h1
    refine ⟨?_, rfl⟩
    by_cases h3 : nxt.psl = UINT32_MAX
    · exact Or.inl h3
    · exact Or.inr (by have := h1 h3; omega)

/-- What `InternalLookup` can return: `UINT32_MAX`, or a slot whose value has
a key equal to `key`; that slot is not empty unless it is the slot the loop
started from. -/
theorem lookup_loop_result (P : Policy Key Value) (t : Table Value) (key : Key) :
    ∀ remaining psl slot r,
      InternalLookup.loop P t key remaining psl slot = Exec.ok r → r ≠ UINT32_MAX →
      ∃ node, t.m_table[r]? = some node ∧ P.m_equal key (P.keyOf node) = true ∧
        (r = slot ∨ node.psl ≠ UINT32_MAX) := by
  intro remaining
  induction remaining with
  | zero =>
    intro psl slot r h hr
    simp [InternalLookup.loop] at h
    exact absurd h.symm hr
  | succ remaining ih =>
    intro psl slot r h hr
    rw [InternalLookup.loop] at h
    split at h
    · cases h
    · rename_i node hget
      split_ifs at h with h1
      · cases h
        exact ⟨node, hget, h1, Or.inl rfl⟩
      · split at h
        · cases h
        · rename_i nxt hnxt
          split_ifs at h with h2
          · cases h
            exact absurd rfl hr
          · obtain ⟨node', hget', heq', hor⟩ := ih _ _ r h hr
            refine ⟨node', hget', heq', Or.inr ?_⟩
            rcases hor with hrs | hne
            · subst hrs
              rw [hnxt] at hget'
              cases hget'
              simp [SlotIsEmpty] at h2
              exact h2.1
            · exact hne

/-! ### Occupied slots under writes -/

theorem occ_lt {t : Table Value} {i : Nat} {node : HashNode Value} (h : Occ t i node) :
    i < t.m_table.length := by
  obtain ⟨h1, _⟩ := h
  exact (List.getElem?_eq_some.mp h1).1

theorem occ_unique {t : Table Value} {i : Nat} {a b : HashNode Value} (ha : Occ t i a)
    (hb : Occ t i b) : a = b := by
  have := ha.1.symm.trans hb.1
  exact Option.some.inj this

theorem occ_set_iff {t : Table Value} (t' : Table Value) {i : Nat} {x : HashNode Value}
    (ht : t'.m_table = t.m_table.set i x) (hi : i < t.m_table.length) (j : Nat)
    (node : HashNode Value) :
    Occ t' j node ↔ (j = i ∧ node = x ∧ x.psl ≠ UINT32_MAX) ∨ (j ≠ i ∧ Occ t j node) := by
  unfold Occ
  rw [ht, List.getElem?_set]
  by_cases hji : i = j
  · rw [if_pos hji, if_pos hi]
    constructor
    · rintro ⟨h1, h2⟩
      cases h1
      exact Or.inl ⟨hji.symm, rfl, h2⟩
    · rintro (⟨_, h2, h3⟩ | ⟨h1, _⟩)
      · subst h2; exact ⟨rfl, h3⟩
      · exact absurd hji.symm h1
  · rw [if_neg hji]
    constructor
    · intro h; exact Or.inr ⟨fun h' => hji h'.symm, h⟩
    · rintro (⟨h1, _⟩ | ⟨_, h2⟩)
      · exact absurd h1.symm hji
      · exact h2

theorem occCount_set {t : Table Value} (t' : Table Value) {i : Nat} {x old : HashNode Value}
    (ht : t'.m_table = t.m_table.set i x) (hold : t.m_table[i]? = some old) :
    occCount t' + (if old.psl ≠ UINT32_MAX then 1 else 0) =
      occCount t + (if x.psl ≠ UINT32_MAX then 1 else 0) := by
  obtain ⟨hi, hget⟩ := List.getElem?_eq_some.mp hold
  unfold occCount
  rw [ht, List.countP_set _ _ _ _ hi, hget]
  have hpos : old.psl ≠ UINT32_MAX →
      0 < List.countP (fun node => !SlotIsEmpty node) t.m_table := by
    intro hne
    rw [List.countP_pos_iff]
    exact ⟨old, hget ▸ List.getElem_mem _, by simpa [SlotIsEmpty] using hne⟩
  have e1 : ((!SlotIsEmpty old) = true) ↔ old.psl ≠ UINT32_MAX := by simp [SlotIsEmpty]
  have e2 : ((!SlotIsEmpty x) = true) ↔ x.psl ≠ UINT32_MAX := by simp [SlotIsEmpty]
  simp only [e1, e2]
  by_cases h1 : old.psl ≠ UINT32_MAX <;> by_cases h2 : x.psl ≠ UINT32_MAX
  · have := hpos h1
    rw [if_pos h1, if_pos h2]
    omega
  · have := hpos h1
    rw [if_pos h1, if_neg h2]
    omega
  · rw [if_neg h1, if_pos h2]
    omega
  · rw [if_neg h1, if_neg h2]
    omega

/-- A table with fewer occupied slots than slots has an empty slot. -/
theorem exists_empty_slot {t : Table Value} (h : occCount t < t.m_table.length) :
    ∃ (e : Nat) (node : HashNode Value), t.m_table[e]? = some node ∧ node.psl = UINT32_MAX := by
  unfold occCount at h
  have hne : List.countP (fun node => !SlotIsEmpty node) t.m_table ≠ t.m_table.length := by
    omega
  rw [Ne, List.countP_eq_length] at hne
  push_neg at hne
  obtain ⟨a, ha, hp⟩ := hne
  obtain ⟨e, he⟩ := List.mem_iff_getElem?.mp ha
  exact ⟨e, a, he, by simpa [SlotIsEmpty] using hp⟩

/-! ### `InternalInsert` keeps the table invariant -/

theorem Policy.Lawful.ne_symm {P : Policy Key Value} (hP : P.Lawful) {a b : Key}
    (h : P.m_equal a b = false) : P.m_equal b a = false := by
  cases hba : P.m_equal b a with
  | false => rfl
  | true => rw [hP.equal_symm b a hba] at h; cases h

/-- Writing node `x` into slot `slot` keeps the table invariant when `x` fits
there: its displacement is right, its predecessor and successor respect the
chain condition, and its key is new. -/
theorem wf_set {P : Policy Key Value} {t t' : Table Value} {slot : Nat} {x old : HashNode Value}
    (hwf : WF P t) (hslot : slot < t.m_table_info.table_size)
    (hold : t.m_table[slot]? = some old)
    (htab : t'.m_table = t.m_table.set slot x)
    (hsize : t'.m_table_info.table_size = t.m_table_info.table_size)
    (hmax : t'.m_table_info.max_key_num = t.m_table_info.max_key_num)
    (hkey : t'.m_table_info.key_num ≤ t.m_table_info.max_key_num)
    (hcount : occCount t' ≤ t'.m_table_info.key_num)
    (hlpsl : t.m_table_info.lpsl ≤ t'.m_table_info.lpsl ∧ x.psl ≤ t'.m_table_info.lpsl)
    (hxlt : x.psl < t.m_table_info.table_size)
    (hxdisp : (P.m_hash (P.keyOf x) % t.m_table_info.table_size + x.psl) %
      t.m_table_info.table_size = slot)
    (hxchain : 0 < x.psl → ∃ (i : Nat) (node : HashNode Value),
      i < t.m_table_info.table_size ∧ (i + 1) % t.m_table_info.table_size = slot ∧
        Occ t i node ∧ x.psl ≤ node.psl + 1)
    (hsucc : ∀ nd, Occ t ((slot + 1) % t.m_table_info.table_size) nd → 0 < nd.psl →
      nd.psl ≤ x.psl + 1)
    (hnew : ∀ j nd, Occ t j nd → j ≠ slot →
      P.m_equal (P.keyOf nd) (P.keyOf x) = false ∧ P.m_equal (P.keyOf x) (P.keyOf nd) = false) :
    WF P t' := by
  have hlen : slot < t.m_table.length := by rw [hwf.length_eq]; exact hslot
  have hsz := hwf.size_lt
  have hxM : x.psl ≠ UINT32_MAX := by
    have : UINT32_MAX = 4294967295 := rfl
    omega
  have hocc := occ_set_iff t' htab hlen
  have hoccx : Occ t' slot x := (hocc slot x).mpr (Or.inl ⟨rfl, rfl, hxM⟩)
  refine ⟨?_, ?_, ?_, ?_, hcount, ?_, ?_, ?_, ?_⟩
  · rw [htab, List.length_set, hsize]; exact hwf.length_eq
  · rw [hsize]; exact hsz
  · rw [hsize, hmax]; exact hwf.cap_lt
  · rw [hmax]; exact hkey
  · intro i node h
    rcases (hocc i node).mp h with ⟨_, h2, _⟩ | ⟨_, h2⟩
    · subst h2; exact hlpsl.2
    · exact le_trans (hwf.lpsl_ge i node h2) hlpsl.1
  · intro i node h
    rw [hsize]
    rcases (hocc i node).mp h with ⟨h1, h2, _⟩ | ⟨_, h2⟩
    · subst h1; subst h2; exact ⟨hxlt, hxdisp⟩
    · exact hwf.disp i node h2
  · intro i node hi h hpos
    rw [hsize] at hi h
    rcases (hocc _ node).mp h with ⟨h1, h2, _⟩ | ⟨h1, h2⟩
    · subst h2
      obtain ⟨i0, node0, hi0, hs0, hocc0, hle⟩ := hxchain hpos
      have hii : i0 = i := succ_mod_inj hi0 hi (hs0.trans h1.symm)
      subst hii
      by_cases his : i0 = slot
      · subst his
        exact ⟨node, hoccx, by omega⟩
      · exact ⟨node0, (hocc i0 node0).mpr (Or.inr ⟨his, hocc0⟩), hle⟩
    · by_cases his : i = slot
      · subst his
        exact ⟨x, hoccx, hsucc node h2 hpos⟩
      · obtain ⟨node', hocc', hle⟩ := hwf.chain i node hi h2 hpos
        exact ⟨node', (hocc i node').mpr (Or.inr ⟨his, hocc'⟩), hle⟩
  · intro i j ni nj hi hj hij
    rcases (hocc i ni).mp hi with ⟨h1, h2, _⟩ | ⟨h1, h2⟩ <;>
      rcases (hocc j nj).mp hj with ⟨h3, h4, _⟩ | ⟨h3, h4⟩
    · exact absurd (h1.trans h3.symm) hij
    · subst h2; exact (hnew j nj h4 h3).2
    · subst h4; exact (hnew i ni h2 h1).1
    · exact hwf.uniq i j ni nj h2 h4 hij

theorem mod_pow_of_lt {a n : Nat} (h : a < n) (hn : n < 2 ^ 32) : (a + 1) % 2 ^ 32 = a + 1 :=
  Nat.mod_eq_of_lt (by omega)

/-- One pass of the insert loop that goes round again keeps `InsertInv` and
brings the loop one slot closer to the empty slot `e`; of the key equality only
the symmetry of its negative answers is used. -/
theorem insertInv_next_of_symm {P : Policy Key Value}
    (hsym : ∀ a b : Key, P.m_equal a b = false → P.m_equal b a = false) {e : Nat}
    {s s' : InsertState Value} (hI : InsertInv P e s)
    (hb : InternalInsert.body P s = Step.next s') :
    InsertInv P e s' ∧
      (e + s'.t.m_table_info.table_size - s'.slot) % s'.t.m_table_info.table_size <
        (e + s.t.m_table_info.table_size - s.slot) % s.t.m_table_info.table_size := by
  obtain ⟨node, hget, hne, hkeq, hcase⟩ := insert_body_next hb
  have hwf := hI.wf
  have hsz := hwf.size_lt
  have hoccn : Occ s.t s.slot node := ⟨hget, hne⟩
  obtain ⟨enode, heget, heempty⟩ := hI.e_empty
  have hes : s.slot ≠ e := by
    intro h
    rw [h, heget] at hget
    cases hget
    exact hne heempty
  have hdist := dist_succ hI.slot_lt hI.e_lt hes
  have hahead := hI.ahead
  have htlt : s.tmp_node.psl < s.t.m_table_info.table_size := by omega
  have hnpos : 0 < s.t.m_table_info.table_size := by omega
  obtain ⟨hndlt, hnddisp⟩ := hwf.disp s.slot node hoccn
  rcases hcase with ⟨hlt, rfl⟩ | ⟨hle, rfl⟩
  · -- the carried node is swapped with the occupant
    have hwf' : WF P (s.swapped node).t := by
      refine wf_set (x := s.tmp_node) hwf hI.slot_lt hget rfl rfl rfl
        hwf.key_num_le ?_ ?_ htlt hI.tmp_disp hI.tmp_chain ?_ ?_
      · have hc := occCount_set (t := s.t) (s.swapped node).t (x := s.tmp_node) rfl hget
        have hM : UINT32_MAX = 4294967295 := rfl
        have h1 : s.tmp_node.psl ≠ UINT32_MAX := by omega
        rw [if_pos hne, if_pos h1] at hc
        have := hwf.occ_le
        show occCount (s.swapped node).t ≤ s.t.m_table_info.key_num
        omega
      · show s.t.m_table_info.lpsl ≤ (if s.tmp_node.psl > s.t.m_table_info.lpsl then
            s.tmp_node.psl else s.t.m_table_info.lpsl) ∧
          s.tmp_node.psl ≤ (if s.tmp_node.psl > s.t.m_table_info.lpsl then
            s.tmp_node.psl else s.t.m_table_info.lpsl)
        split <;> omega
      · intro nd hnd hpos
        obtain ⟨node', hocc', hle'⟩ := hwf.chain s.slot nd hI.slot_lt hnd hpos
        have := occ_unique hocc' hoccn
        subst this
        omega
      · intro j nd hnd hj
        have h1 := hI.absent j nd hnd
        exact ⟨h1, hsym _ _ h1⟩
    have hpsl : (node.psl + 1) % 2 ^ 32 = node.psl + 1 := mod_pow_of_lt hndlt hsz
    have hlen : s.slot < s.t.m_table.length := by rw [hwf.length_eq]; exact hI.slot_lt
    have hocc := occ_set_iff (t := s.t) (s.swapped node).t (x := s.tmp_node) rfl hlen
    have hM : UINT32_MAX = 4294967295 := rfl
    have htM : s.tmp_node.psl ≠ UINT32_MAX := by omega
    refine ⟨⟨hwf', Nat.mod_lt _ hnpos, ?_, hI.e_lt, ?_, ?_, ?_, ?_⟩, ?_⟩
    · show (P.m_hash (P.keyOf node) % s.t.m_table_info.table_size + (node.psl + 1) % 2 ^ 32) %
        s.t.m_table_info.table_size = (s.slot + 1) % s.t.m_table_info.table_size
      rw [hpsl]
      exact disp_succ hnddisp
    · refine ⟨enode, ?_, heempty⟩
      show (s.t.m_table.set s.slot s.tmp_node)[e]? = some enode
      rw [List.getElem?_set_ne hes]
      exact heget
    · show (node.psl + 1) % 2 ^ 32 + (e + s.t.m_table_info.table_size -
        (s.slot + 1) % s.t.m_table_info.table_size) % s.t.m_table_info.table_size <
        s.t.m_table_info.table_size
      rw [hpsl]
      omega
    · intro _
      refine ⟨s.slot, s.tmp_node, hI.slot_lt, rfl, (hocc _ _).mpr (Or.inl ⟨rfl, rfl, htM⟩), ?_⟩
      show (node.psl + 1) % 2 ^ 32 ≤ s.tmp_node.psl + 1
      rw [hpsl]
      omega
    · intro j nd hnd
      show P.m_equal (P.keyOf nd) (P.keyOf node) = false
      rcases (hocc j nd).mp hnd with ⟨_, h2, _⟩ | ⟨h1, h2⟩
      · subst h2
        exact hsym _ _ hkeq
      · exact hwf.uniq j s.slot nd node h2 hoccn h1
    · show (e + s.t.m_table_info.table_size - (s.slot + 1) % s.t.m_table_info.table_size) %
        s.t.m_table_info.table_size < _
      omega
  · -- the carried node moves on
    have hpsl : (s.tmp_node.psl + 1) % 2 ^ 32 = s.tmp_node.psl + 1 := mod_pow_of_lt htlt hsz
    refine ⟨⟨hwf, Nat.mod_lt _ hnpos, ?_, hI.e_lt, hI.e_empty, ?_, ?_, hI.absent⟩, ?_⟩
    · show (P.m_hash (P.keyOf s.tmp_node) % s.t.m_table_info.table_size +
        (s.tmp_node.psl + 1) % 2 ^ 32) % s.t.m_table_info.table_size =
        (s.slot + 1) % s.t.m_table_info.table_size
      rw [hpsl]
      exact disp_succ hI.tmp_disp
    · show (s.tmp_node.psl + 1) % 2 ^ 32 + (e + s.t.m_table_info.table_size -
        (s.slot + 1) % s.t.m_table_info.table_size) % s.t.m_table_info.table_size <
        s.t.m_table_info.table_size
      rw [hpsl]
      omega
    · intro _
      refine ⟨s.slot, node, hI.slot_lt, rfl, hoccn, ?_⟩
      show (s.tmp_node.psl + 1) % 2 ^ 32 ≤ node.psl + 1
      rw [hpsl]
      omega
    · show (e + s.t.m_table_info.table_size - (s.slot + 1) % s.t.m_table_info.table_size) %
        s.t.m_table_info.table_size < _
      omega

/-- The pass of the insert loop that returns leaves a table satisfying the
invariant; of the key equality only the symmetry of its negative answers is
used. -/
theorem insertInv_done_of_symm {P : Policy Key Value}
    (hsym : ∀ a b : Key, P.m_equal a b = false → P.m_equal b a = false) {e : Nat}
    {s : InsertState Value} (hI : InsertInv P e s) {r : Table Value × Option Nat × Bool}
    (hb : InternalInsert.body P s = Step.done r) :
    WF P r.1 ∧ r.1.m_table_info.table_size = s.t.m_table_info.table_size ∧
      r.1.m_table_info.max_key_num = s.t.m_table_info.max_key_num := by
  obtain ⟨node, hget, hcase⟩ := insert_body_done hb
  have hwf := hI.wf
  have hsz := hwf.size_lt
  have hahead := hI.ahead
  have htlt : s.tmp_node.psl < s.t.m_table_info.table_size := by omega
  rcases hcase with ⟨_, _, rfl⟩ | ⟨hem, hfull, rfl⟩ | ⟨hne, heq, rfl⟩
  · exact ⟨hwf, rfl, rfl⟩
  · have hcap := hwf.cap_lt
    have hk : (s.t.m_table_info.key_num + 1) % 2 ^ 32 = s.t.m_table_info.key_num + 1 :=
      Nat.mod_eq_of_lt (by omega)
    refine ⟨?_, rfl, rfl⟩
    refine wf_set (x := s.tmp_node) hwf hI.slot_lt hget rfl rfl rfl
        ?_ ?_ ?_ htlt hI.tmp_disp hI.tmp_chain ?_ ?_
    · show (s.t.m_table_info.key_num + 1) % 2 ^ 32 ≤ s.t.m_table_info.max_key_num
      rw [hk]; omega
    · have hc := occCount_set (t := s.t) s.placed (x := s.tmp_node) rfl hget
      have hM : UINT32_MAX = 4294967295 := rfl
      have h1 : s.tmp_node.psl ≠ UINT32_MAX := by omega
      rw [if_neg (by simpa using hem), if_pos h1] at hc
      have := hwf.occ_le
      show occCount s.placed ≤ (s.t.m_table_info.key_num + 1) % 2 ^ 32
      rw [hk]; omega
    · show s.t.m_table_info.lpsl ≤ (if s.tmp_node.psl > s.t.m_table_info.lpsl then
          s.tmp_node.psl else s.t.m_table_info.lpsl) ∧
        s.tmp_node.psl ≤ (if s.tmp_node.psl > s.t.m_table_info.lpsl then
          s.tmp_node.psl else s.t.m_table_info.lpsl)
      split <;> omega
    · intro nd hnd hpos
      obtain ⟨node', hocc', _⟩ := hwf.chain s.slot nd hI.slot_lt hnd hpos
      have := hocc'.1.symm.trans hget
      cases this
      exact absurd hem hocc'.2
    · intro j nd hnd _
      have h1 := hI.absent j nd hnd
      exact ⟨h1, hsym _ _ h1⟩
  · have := hI.absent s.slot node ⟨hget, hne⟩
    rw [heq] at this
    cases this

theorem insertInv_next {P : Policy Key Value} (hP : P.Lawful) {e : Nat}
    {s s' : InsertState Value} (hI : InsertInv P e s)
    (hb : InternalInsert.body P s = Step.next s') :
    InsertInv P e s' ∧
      (e + s'.t.m_table_info.table_size - s'.slot) % s'.t.m_table_info.table_size <
        (e + s.t.m_table_info.table_size - s.slot) % s.t.m_table_info.table_size :=
  insertInv_next_of_symm (fun _ _ h => hP.ne_symm h) hI hb

theorem insertInv_done {P : Policy Key Value} (hP : P.Lawful) {e : Nat}
    {s : InsertState Value} (hI : InsertInv P e s) {r : Table Value × Option Nat × Bool}
    (hb : InternalInsert.body P s = Step.done r) :
    WF P r.1 ∧ r.1.m_table_info.table_size = s.t.m_table_info.table_size ∧
      r.1.m_table_info.max_key_num = s.t.m_table_info.max_key_num :=
  insertInv_done_of_symm (fun _ _ h => hP.ne_symm h) hI hb

theorem insertInv_fault {P : Policy Key Value} {e : Nat} {s : InsertState Value}
    (hI : InsertInv P e s) (f : Fault) : InternalInsert.body P s ≠ Step.fault f := by
  intro hb
  have h := insert_body_fault hb
  have hlen : s.slot < s.t.m_table.length := by rw [hI.wf.length_eq]; exact hI.slot_lt
  rw [List.getElem?_eq_getElem hlen] at h
  cases h

/-! ### `Insert` of a key that is already stored -/

theorem insert_body_equal {P : Policy Key Value} {s : InsertState Value} {node : HashNode Value}
    (hget : s.t.m_table[s.slot]? = some node) (hne : node.psl ≠ UINT32_MAX)
    (heq : P.m_equal (P.keyOf node) (P.keyOf s.tmp_node) = true) :
    InternalInsert.body P s = Step.done (s.t, some s.slot, false) := by
  unfold InternalInsert.body
  rw [hget]
  have h1 : ¬ (SlotIsEmpty node = true) := by simpa [SlotIsEmpty] using hne
  simp only [Policy.keyOf] at heq
  simp only [if_neg h1, heq, if_true]

theorem insert_body_advance {P : Policy Key Value} {s : InsertState Value}
    {node : HashNode Value} (hget : s.t.m_table[s.slot]? = some node)
    (hne : node.psl ≠ UINT32_MAX)
    (heq : P.m_equal (P.keyOf node) (P.keyOf s.tmp_node) = false)
    (hle : s.tmp_node.psl ≤ node.psl) :
    InternalInsert.body P s = Step.next s.advanced := by
  unfold InternalInsert.body
  rw [hget]
  have h1 : ¬ (SlotIsEmpty node = true) := by simpa [SlotIsEmpty] using hne
  have h2 : ¬ (s.tmp_node.psl > node.psl) := by omega
  simp only [Policy.keyOf] at heq
  simp only [if_neg h1, heq, if_neg h2]
  rfl

/-- Every slot on the probe path from the home slot of a stored node to the
node is occupied, with a probe length at least its distance from that home. -/
theorem chain_back {P : Policy Key Value} {t : Table Value} (hwf : WF P t) {s0 : Nat}
    {node0 : HashNode Value} (h0 : Occ t s0 node0) :
    ∀ d, d ≤ node0.psl →
      ∃ nd, Occ t ((P.m_hash (P.keyOf node0) % t.m_table_info.table_size + (node0.psl - d)) %
          t.m_table_info.table_size) nd ∧ node0.psl - d ≤ nd.psl := by
  intro d
  induction d with
  | zero =>
    intro _
    refine ⟨node0, ?_, by omega⟩
    rw [Nat.sub_zero, (hwf.disp s0 node0 h0).2]
    exact h0
  | succ d ih =>
    intro hd
    obtain ⟨nd, hocc, hle⟩ := ih (by omega)
    have hnpos : 0 < t.m_table_info.table_size := by
      have := (hwf.disp s0 node0 h0).1
      omega
    have hstep : ((P.m_hash (P.keyOf node0) % t.m_table_info.table_size +
        (node0.psl - (d + 1))) % t.m_table_info.table_size + 1) % t.m_table_info.table_size =
        (P.m_hash (P.keyOf node0) % t.m_table_info.table_size + (node0.psl - d)) %
          t.m_table_info.table_size := by
      have := disp_succ (h := P.m_hash (P.keyOf node0)) (p := node0.psl - (d + 1))
        (n := t.m_table_info.table_size) rfl
      rw [← this]
      congr 2
      omega
    rw [← hstep] at hocc
    obtain ⟨node', hocc', hle'⟩ := hwf.chain _ nd (Nat.mod_lt _ hnpos) hocc (by omega)
    exact ⟨node', hocc', by omega⟩

theorem insert_present_loop {P : Policy Key Value} (hP : P.Lawful) {t : Table Value}
    (hwf : WF P t) {s0 : Nat} {node0 : HashNode Value} (h0 : Occ t s0 node0) (v : Value)
    (heq : P.m_equal (P.keyOf node0) (P.m_get_key_from_value v) = true) :
    ∀ d k, k + d = node0.psl → ∀ fuel, d < fuel →
      whileLoop (InternalInsert.body P) fuel
        { t := t, tmp_node := { psl := k, value := v },
          slot := (P.m_hash (P.m_get_key_from_value v) % t.m_table_info.table_size + k) %
            t.m_table_info.table_size } = Exec.ok (t, some s0, false) := by
  have hhash : P.m_hash (P.m_get_key_from_value v) = P.m_hash (P.keyOf node0) :=
    (hP.hash_eq _ _ heq).symm
  obtain ⟨hplt, hpdisp⟩ := hwf.disp s0 node0 h0
  have hsz := hwf.size_lt
  intro d
  induction d with
  | zero =>
    intro k hk fuel hfuel
    obtain ⟨f, rfl⟩ : ∃ f, fuel = f + 1 := ⟨fuel - 1, by omega⟩
    have hslot : (P.m_hash (P.m_get_key_from_value v) % t.m_table_info.table_size + k) %
        t.m_table_info.table_size = s0 := by
      rw [hhash]
      have : k = node0.psl := by omega
      rw [this]
      exact hpdisp
    rw [whileLoop, hslot, insert_body_equal h0.1 h0.2 heq]
  | succ d ih =>
    intro k hk fuel hfuel
    obtain ⟨f, rfl⟩ : ∃ f, fuel = f + 1 := ⟨fuel - 1, by omega⟩
    obtain ⟨nd, hocc, hle⟩ := chain_back hwf h0 (d + 1) (by omega)
    have hk' : node0.psl - (d + 1) = k := by omega
    rw [hk', ← hhash] at hocc
    rw [hk'] at hle
    have hneq : (P.m_hash (P.m_get_key_from_value v) % t.m_table_info.table_size + k) %
        t.m_table_info.table_size ≠ s0 := by
      rw [← hpdisp, hhash]
      exact add_mod_ne (by omega) hplt
    have hkey : P.m_equal (P.keyOf nd) (P.m_get_key_from_value v) = false := by
      cases hc : P.m_equal (P.keyOf nd) (P.m_get_key_from_value v) with
      | false => rfl
      | true =>
        have h1 := hP.equal_trans _ _ _ hc (hP.equal_symm _ _ heq)
        rw [hwf.uniq _ s0 nd node0 hocc h0 hneq] at h1
        cases h1
    rw [whileLoop, insert_body_advance hocc.1 hocc.2 hkey hle]
    have hnext := ih (k + 1) (by omega) f (by omega)
    have hpsl : (k + 1) % 2 ^ 32 = k + 1 := Nat.mod_eq_of_lt (by omega)
    have hs : ((P.m_hash (P.m_get_key_from_value v) % t.m_table_info.table_size + k) %
        t.m_table_info.table_size + 1) % t.m_table_info.table_size =
        (P.m_hash (P.m_get_key_from_value v) % t.m_table_info.table_size + (k + 1)) %
          t.m_table_info.table_size := (disp_succ rfl).symm
    simp only [InsertState.advanced, hpsl, hs]
    exact hnext

/-- On a table satisfying the invariant, `Insert` of a value whose key is
stored in the occupied slot `s0` returns `(pointer into s0, false)` and leaves
the table as it is. -/
theorem insert_present {P : Policy Key Value} (hP : P.Lawful) {t : Table Value}
    (hwf : WF P t) {s0 : Nat} {node0 : HashNode Value} (h0 : Occ t s0 node0) (v : Value)
    (heq : P.m_equal (P.keyOf node0) (P.m_get_key_from_value v) = true) (fuel : Nat)
    (hfuel : node0.psl < fuel) :
    Insert P fuel t v = Exec.ok (t, some s0, false) := by
  have hnz : t.m_table_info.table_size ≠ 0 := by
    have := (hwf.disp s0 node0 h0).1
    omega
  unfold Insert InternalInsert
  rw [if_neg hnz]
  have := insert_present_loop hP hwf h0 v heq node0.psl 0 (by omega) fuel hfuel
  simpa using this

/-! ### `Insert` on a table satisfying the invariant -/

theorem insertInv_init {P : Policy Key Value} {t : Table Value} (hwf : WF P t) (v : Value)
    (habs : ∀ i node, Occ t i node →
      P.m_equal (P.keyOf node) (P.m_get_key_from_value v) = false) :
    ∃ e, InsertInv P e
      { t := t, tmp_node := { psl := 0, value := v },
        slot := P.m_hash (P.m_get_key_from_value v) % t.m_table_info.table_size } := by
  have hlt : occCount t < t.m_table.length := by
    have h1 := hwf.occ_le
    have h2 := hwf.key_num_le
    have h3 := hwf.cap_lt
    rw [hwf.length_eq]
    omega
  obtain ⟨e, enode, heget, heempty⟩ := exists_empty_slot hlt
  have helt : e < t.m_table_info.table_size := by
    rw [← hwf.length_eq]
    exact (List.getElem?_eq_some.mp heget).1
  have hnpos : 0 < t.m_table_info.table_size := by omega
  refine ⟨e, ⟨hwf, Nat.mod_lt _ hnpos, ?_, helt, ⟨enode, heget, heempty⟩, ?_, ?_, habs⟩⟩
  · show (P.m_hash (P.m_get_key_from_value v) % t.m_table_info.table_size + 0) %
      t.m_table_info.table_size = _
    rw [Nat.add_zero, Nat.mod_mod]
  · show 0 + _ < _
    rw [Nat.zero_add]
    exact Nat.mod_lt _ hnpos
  · intro h
    exact absurd h (Nat.lt_irrefl 0)

theorem present_or_absent (P : Policy Key Value) (t : Table Value) (v : Value) :
    (∃ (s0 : Nat) (node0 : HashNode Value), Occ t s0 node0 ∧
        P.m_equal (P.keyOf node0) (P.m_get_key_from_value v) = true) ∨
      ∀ i node, Occ t i node → P.m_equal (P.keyOf node) (P.m_get_key_from_value v) = false := by
  by_cases h : ∃ (s0 : Nat) (node0 : HashNode Value), Occ t s0 node0 ∧
      P.m_equal (P.keyOf node0) (P.m_get_key_from_value v) = true
  · exact Or.inl h
  · right
    intro i node hocc
    cases hc : P.m_equal (P.keyOf node) (P.m_get_key_from_value v) with
    | false => rfl
    | true => exact absurd ⟨i, node, hocc, hc⟩ h

/-- A call of `Insert` that returns keeps the invariant and the two sizes. -/
theorem insert_wf {P : Policy Key Value} (hP : P.Lawful) {t t' : Table Value} (hwf : WF P t)
    {fuel : Nat} {v : Value} {r : Option Nat × Bool}
    (h : Insert P fuel t v = Exec.ok (t', r)) :
    WF P t' ∧ t'.m_table_info.table_size = t.m_table_info.table_size ∧
      t'.m_table_info.max_key_num = t.m_table_info.max_key_num := by
  rcases present_or_absent P t v with ⟨s0, node0, h0, heq⟩ | habs
  · have h1 := insert_present hP hwf h0 v heq (max fuel (node0.psl + 1)) (by omega)
    have hnz : t.m_table_info.table_size ≠ 0 := by
      have := (hwf.disp s0 node0 h0).1
      omega
    unfold Insert InternalInsert at h h1
    rw [if_neg hnz] at h h1
    have h2 := whileLoop_mono _ _ _ h (max fuel (node0.psl + 1)) (by omega)
    rw [h1] at h2
    cases h2
    exact ⟨hwf, rfl, rfl⟩
  · obtain ⟨e, hI⟩ := insertInv_init hwf v habs
    have hnz : t.m_table_info.table_size ≠ 0 := by
      have := hI.e_lt
      exact fun h0 => by simp [h0] at this
    unfold Insert InternalInsert at h
    rw [if_neg hnz] at h
    have key := whileLoop_inv (InternalInsert.body P)
      (I := fun s => InsertInv P e s ∧
        s.t.m_table_info.table_size = t.m_table_info.table_size ∧
        s.t.m_table_info.max_key_num = t.m_table_info.max_key_num)
      (Q := fun r : Table Value × Option Nat × Bool => WF P r.1 ∧
        r.1.m_table_info.table_size = t.m_table_info.table_size ∧
        r.1.m_table_info.max_key_num = t.m_table_info.max_key_num)
      ?_ ?_ fuel _ _ ⟨hI, rfl, rfl⟩ h
    · exact key
    · intro s s' ⟨hs, h1, h2⟩ hb
      refine ⟨(insertInv_next hP hs hb).1, ?_, ?_⟩
      · obtain ⟨node, _, _, _, hc⟩ := insert_body_next hb
        rcases hc with ⟨_, rfl⟩ | ⟨_, rfl⟩ <;> exact h1
      · obtain ⟨node, _, _, _, hc⟩ := insert_body_next hb
        rcases hc with ⟨_, rfl⟩ | ⟨_, rfl⟩ <;> exact h2
    · intro s r' ⟨hs, h1, h2⟩ hb
      obtain ⟨hw, h3, h4⟩ := insertInv_done hP hs hb
      exact ⟨hw, h3.trans h1, h4.trans h2⟩

/-- On a table satisfying the invariant the loop of `InternalInsert` returns
within `table_size` passes. -/
theorem insert_returns {P : Policy Key Value} (hP : P.Lawful) {t : Table Value} (hwf : WF P t)
    (v : Value) (fuel : Nat) (hfuel : t.m_table_info.table_size ≤ fuel) :
    ∃ r, Insert P fuel t v = Exec.ok r := by
  rcases present_or_absent P t v with ⟨s0, node0, h0, heq⟩ | habs
  · have := (hwf.disp s0 node0 h0).1
    exact ⟨_, insert_present hP hwf h0 v heq fuel (by omega)⟩
  · obtain ⟨e, hI⟩ := insertInv_init hwf v habs
    have hnz : t.m_table_info.table_size ≠ 0 := by
      have := hI.e_lt
      exact fun h0 => by simp [h0] at this
    unfold Insert InternalInsert
    rw [if_neg hnz]
    refine whileLoop_term
      (I := fun s => InsertInv P e s ∧
        s.t.m_table_info.table_size = t.m_table_info.table_size)
      (μ := fun s => (e + s.t.m_table_info.table_size - s.slot) % s.t.m_table_info.table_size)
      ?_ ?_ fuel _ ⟨hI, rfl⟩ ?_
    · intro s s' ⟨hs, h1⟩ hb
      obtain ⟨hs', hlt⟩ := insertInv_next hP hs hb
      refine ⟨⟨hs', ?_⟩, hlt⟩
      obtain ⟨node, _, _, _, hc⟩ := insert_body_next hb
      rcases hc with ⟨_, rfl⟩ | ⟨_, rfl⟩ <;> exact h1
    · intro s f ⟨hs, _⟩
      exact insertInv_fault hs f
    · have : (e + t.m_table_info.table_size -
          P.m_hash (P.m_get_key_from_value v) % t.m_table_info.table_size) %
          t.m_table_info.table_size < t.m_table_info.table_size :=
        Nat.mod_lt _ (Nat.pos_of_ne_zero hnz)
      exact lt_of_lt_of_le this hfuel

/-! ### `Remove` keeps the table invariant -/

theorem set_same {α : Type} (l : List α) (i : Nat) (a : α) (h : l[i]? = some a) :
    l.set i a = l := by
  apply List.ext_getElem?
  intro j
  rw [List.getElem?_set]
  by_cases hij : i = j
  · subst hij
    rw [if_pos rfl, if_pos (List.getElem?_eq_some.mp h).1, h]
  · rw [if_neg hij]

theorem markSlotEmpty_eq {t : Table Value} {slot : Nat} {hn : HashNode Value}
    (h : t.m_table[slot]? = some hn) :
    MarkSlotEmpty t slot =
      { t with m_table := t.m_table.set slot { hn with psl := UINT32_MAX } } := by
  unfold MarkSlotEmpty
  rw [h]

theorem markSlotEmpty_of_empty {t : Table Value} {slot : Nat} {hn : HashNode Value}
    (h : t.m_table[slot]? = some hn) (he : hn.psl = UINT32_MAX) : MarkSlotEmpty t slot = t := by
  rw [markSlotEmpty_eq h]
  have : ({ hn with psl := UINT32_MAX } : HashNode Value) = hn := by
    cases hn
    simp only at he
    subst he
    rfl
  rw [this, set_same _ _ _ h]

theorem succ_mod_self {i n : Nat} (hi : i < n) (h : (i + 1) % n = i) : n = 1 := by
  rw [mod_two_cases (i + 1) n (by omega)] at h
  split at h <;> omega

theorem removeInv_next {P : Policy Key Value} {e : Nat} {s s' : RemoveState Value}
    (hI : RemoveInv P e s) (hb : Remove.body s = Step.next s') :
    RemoveInv P e s' ∧
      (e + s'.t.m_table_info.table_size - s'.next_slot) % s'.t.m_table_info.table_size <
        (e + s.t.m_table_info.table_size - s.next_slot) % s.t.m_table_info.table_size := by
  obtain ⟨nxt, hget, hne, hpos, hslen, rfl⟩ := remove_body_next hb
  obtain ⟨hn, hhole⟩ := hI.hole
  obtain ⟨enode, heget, heempty⟩ := hI.e_empty
  have hsz := hI.size_lt
  have hM : UINT32_MAX = 4294967295 := rfl
  have hnpos : 0 < s.t.m_table_info.table_size := by have := hI.slot_lt; omega
  have hnext_lt : s.next_slot < s.t.m_table_info.table_size := by
    rw [hI.next_eq]; exact Nat.mod_lt _ hnpos
  have hoccnxt : Occ s.t s.next_slot nxt := ⟨hget, hne⟩
  obtain ⟨hqlt, hqdisp⟩ := hI.disp _ _ hoccnxt
  have hns : s.next_slot ≠ s.slot := by
    intro h
    have h1 := succ_mod_self hI.slot_lt (hI.next_eq.symm.trans h)
    omega
  have hchn : nxt.psl ≤ hn.psl + 1 := by
    have hocc' : Occ s.t ((s.slot + 1) % s.t.m_table_info.table_size) nxt := by
      rw [← hI.next_eq]; exact hoccnxt
    obtain ⟨node', hocc'', hle⟩ := hI.chain s.slot nxt hI.slot_lt hocc' hpos
    rw [occ_unique hocc'' hhole] at hle
    exact hle
  have hes : s.slot ≠ e := by
    intro h
    have := hhole.1
    rw [h, heget] at this
    cases this
    exact hhole.2 heempty
  have hen : s.next_slot ≠ e := by
    intro h
    rw [h, heget] at hget
    cases hget
    exact hne heempty
  have hocc := occ_set_iff (t := s.t) (s.shifted nxt).t
    (x := { psl := nxt.psl - 1, value := nxt.value }) rfl hslen
  have hxM : nxt.psl - 1 ≠ UINT32_MAX := by omega
  have hoccx : Occ (s.shifted nxt).t s.slot { psl := nxt.psl - 1, value := nxt.value } :=
    (hocc _ _).mpr (Or.inl ⟨rfl, rfl, hxM⟩)
  have hxdisp : (P.m_hash (P.keyOf nxt) % s.t.m_table_info.table_size + (nxt.psl - 1)) %
      s.t.m_table_info.table_size = s.slot := by
    apply succ_mod_inj (Nat.mod_lt _ hnpos) hI.slot_lt
    rw [← disp_succ rfl, ← hI.next_eq]
    have : nxt.psl - 1 + 1 = nxt.psl := by omega
    rw [this]
    exact hqdisp
  refine ⟨⟨?_, hsz, hI.cap_lt, hI.key_num_le, ?_, ?_, ?_, ?_, hnext_lt, rfl, ?_, hI.e_lt, ?_, ?_⟩,
    ?_⟩
  · show (s.t.m_table.set s.slot _).length = _
    rw [List.length_set]; exact hI.length_eq
  · have hc := occCount_set (t := s.t) (s.shifted nxt).t
      (x := { psl := nxt.psl - 1, value := nxt.value }) rfl hhole.1
    rw [if_pos hhole.2, if_pos hxM] at hc
    have := hI.occ_le
    show occCount (s.shifted nxt).t ≤ s.t.m_table_info.key_num
    omega
  · intro i node h
    show node.psl ≤ s.t.m_table_info.lpsl
    rcases (hocc i node).mp h with ⟨_, h2, _⟩ | ⟨_, h2⟩
    · subst h2
      have := hI.lpsl_ge _ _ hoccnxt
      show nxt.psl - 1 ≤ _
      omega
    · exact hI.lpsl_ge i node h2
  · intro i node h
    show node.psl < s.t.m_table_info.table_size ∧ _ = i
    rcases (hocc i node).mp h with ⟨h1, h2, _⟩ | ⟨_, h2⟩
    · subst h1; subst h2
      exact ⟨by show nxt.psl - 1 < _; omega, hxdisp⟩
    · exact hI.disp i node h2
  · intro i node hi h hpos'
    change i < s.t.m_table_info.table_size at hi
    change Occ (s.shifted nxt).t ((i + 1) % s.t.m_table_info.table_size) node at h
    rcases (hocc _ node).mp h with ⟨h1, h2, _⟩ | ⟨h1, h2⟩
    · subst h2
      change 0 < nxt.psl - 1 at hpos'
      by_cases his : i = s.slot
      · subst his
        exact ⟨_, hoccx, by omega⟩
      · have hocc2 : Occ s.t ((i + 1) % s.t.m_table_info.table_size) hn := by
          rw [h1]; exact hhole
        obtain ⟨node', hocc', hle⟩ := hI.chain i hn hi hocc2 (by omega)
        exact ⟨node', (hocc i node').mpr (Or.inr ⟨his, hocc'⟩), by
          show nxt.psl - 1 ≤ node'.psl + 1
          omega⟩
    · by_cases his : i = s.slot
      · subst his
        have hnd : node = nxt := by
          rw [← hI.next_eq] at h2
          exact occ_unique h2 hoccnxt
        subst hnd
        exact ⟨_, hoccx, by show node.psl ≤ node.psl - 1 + 1; omega⟩
      · obtain ⟨node', hocc', hle⟩ := hI.chain i node hi h2 hpos'
        exact ⟨node', (hocc i node').mpr (Or.inr ⟨his, hocc'⟩), hle⟩
  · exact ⟨nxt, (hocc _ _).mpr (Or.inr ⟨hns, hoccnxt⟩)⟩
  · refine ⟨enode, ?_, heempty⟩
    show (s.t.m_table.set s.slot _)[e]? = some enode
    rw [List.getElem?_set_ne hes]
    exact heget
  · intro i j ni nj hi hj hij hin hjn
    change i ≠ s.next_slot at hin
    change j ≠ s.next_slot at hjn
    rcases (hocc i ni).mp hi with ⟨h1, h2, _⟩ | ⟨h1, h2⟩ <;>
      rcases (hocc j nj).mp hj with ⟨h3, h4, _⟩ | ⟨h3, h4⟩
    · exact absurd (h1.trans h3.symm) hij
    · subst h2
      exact hI.uniq_hole s.next_slot j nxt nj hoccnxt h4 (Ne.symm hjn) hns h3
    · subst h4
      exact hI.uniq_hole i s.next_slot ni nxt h2 hoccnxt hin h1 hns
    · exact hI.uniq_hole i j ni nj h2 h4 hij h1 h3
  · show (e + s.t.m_table_info.table_size - (s.next_slot + 1) % s.t.m_table_info.table_size) %
      s.t.m_table_info.table_size < _
    have := dist_succ hnext_lt hI.e_lt hen
    omega

theorem removeInv_done {P : Policy Key Value} {e : Nat} {s : RemoveState Value}
    (hI : RemoveInv P e s) {r : Table Value} (hb : Remove.body s = Step.done r) :
    WF P r ∧ r.m_table_info = s.t.m_table_info := by
  obtain ⟨nxt, hget, hnxt, rfl⟩ := remove_body_done hb
  obtain ⟨hn, hhole⟩ := hI.hole
  rw [markSlotEmpty_eq hhole.1]
  have hslen : s.slot < s.t.m_table.length := by rw [hI.length_eq]; exact hI.slot_lt
  have hocc := occ_set_iff (t := s.t)
    { s.t with m_table := s.t.m_table.set s.slot { hn with psl := UINT32_MAX } }
    (x := { hn with psl := UINT32_MAX }) rfl hslen
  have hocc' : ∀ j nd,
      Occ { s.t with m_table := s.t.m_table.set s.slot { hn with psl := UINT32_MAX } } j nd →
        j ≠ s.slot ∧ Occ s.t j nd := by
    intro j nd h
    rcases (hocc j nd).mp h with ⟨_, _, h3⟩ | h2
    · exact absurd rfl h3
    · exact h2
  refine ⟨⟨?_, hI.size_lt, hI.cap_lt, hI.key_num_le, ?_, ?_, ?_, ?_, ?_⟩, rfl⟩
  · show (s.t.m_table.set s.slot _).length = _
    rw [List.length_set]; exact hI.length_eq
  · have hc := occCount_set (t := s.t)
      { s.t with m_table := s.t.m_table.set s.slot { hn with psl := UINT32_MAX } }
      (x := { hn with psl := UINT32_MAX }) rfl hhole.1
    rw [if_pos hhole.2, if_neg (by simp)] at hc
    have := hI.occ_le
    show occCount { s.t with m_table := _ } ≤ s.t.m_table_info.key_num
    omega
  · intro i node h
    exact hI.lpsl_ge i node (hocc' i node h).2
  · intro i node h
    exact hI.disp i node (hocc' i node h).2
  · intro i node hi h hpos
    change i < s.t.m_table_info.table_size at hi
    obtain ⟨h1, h2⟩ := hocc' _ node h
    obtain ⟨node', hoccn, hle⟩ := hI.chain i node hi h2 hpos
    by_cases his : i = s.slot
    · subst his
      change Occ s.t ((s.slot + 1) % s.t.m_table_info.table_size) node at h2
      rw [← hI.next_eq] at h2
      have := h2.1.symm.trans hget
      cases this
      rcases hnxt with h3 | h3
      · exact absurd h3 h2.2
      · omega
    · exact ⟨node', (hocc i node').mpr (Or.inr ⟨his, hoccn⟩), hle⟩
  · intro i j ni nj hi hj hij
    obtain ⟨h1, h2⟩ := hocc' i ni hi
    obtain ⟨h3, h4⟩ := hocc' j nj hj
    exact hI.uniq_hole i j ni nj h2 h4 hij h1 h3

theorem removeInv_fault {P : Policy Key Value} {e : Nat} {s : RemoveState Value}
    (hI : RemoveInv P e s) (f : Fault) : Remove.body s ≠ Step.fault f := by
  intro hb
  have hnpos : 0 < s.t.m_table_info.table_size := by have := hI.slot_lt; omega
  rcases remove_body_fault hb with h | h
  · have hlen : s.next_slot < s.t.m_table.length := by
      rw [hI.length_eq, hI.next_eq]; exact Nat.mod_lt _ hnpos
    rw [List.getElem?_eq_getElem hlen] at h
    cases h
  · have := hI.slot_lt
    rw [hI.length_eq] at h
    omega

/-! ### `Remove` on a table satisfying the invariant -/

theorem lookup_loop_ok (P : Policy Key Value) (t : Table Value) (key : Key)
    (hlen : t.m_table.length = t.m_table_info.table_size)
    (hn : 0 < t.m_table_info.table_size) :
    ∀ remaining psl slot, slot < t.m_table_info.table_size →
      ∃ r, InternalLookup.loop P t key remaining psl slot = Exec.ok r := by
  intro remaining
  induction remaining with
  | zero => intro psl slot _; exact ⟨_, rfl⟩
  | succ remaining ih =>
    intro psl slot hslot
    rw [InternalLookup.loop]
    rw [List.getElem?_eq_getElem (by rw [hlen]; exact hslot)]
    simp only
    split
    · exact ⟨_, rfl⟩
    · rw [List.getElem?_eq_getElem (by rw [hlen]; exact Nat.mod_lt _ hn)]
      simp only
      split
      · exact ⟨_, rfl⟩
      · exact ih _ _ (Nat.mod_lt _ hn)

/-- On a table satisfying the invariant, `InternalLookup` returns, and what it
returns is `UINT32_MAX` or a slot whose value bytes match the key. -/
theorem internalLookup_wf {P : Policy Key Value} {t : Table Value} (hwf : WF P t) (key : Key) :
    ∃ r, InternalLookup P t key = Exec.ok r ∧
      (r = UINT32_MAX ∨ ∃ node, t.m_table[r]? = some node ∧
        P.m_equal key (P.keyOf node) = true) := by
  have hnpos : 0 < t.m_table_info.table_size := by have := hwf.cap_lt; omega
  unfold InternalLookup
  rw [if_neg (by omega)]
  obtain ⟨r, hr⟩ := lookup_loop_ok P t key hwf.length_eq hnpos t.m_table_info.lpsl 0 _
    (Nat.mod_lt (P.m_hash key) hnpos)
  refine ⟨r, hr, ?_⟩
  by_cases h : r = UINT32_MAX
  · exact Or.inl h
  · obtain ⟨node, h1, h2, _⟩ := lookup_loop_result P t key _ _ _ r hr h
    exact Or.inr ⟨node, h1, h2⟩

/-- When `InternalLookup` hands `Remove` a slot that is marked empty, the
backward shift loop makes no pass and the table is left as it is. -/
theorem remove_body_stale {P : Policy Key Value} {t : Table Value} (hwf : WF P t) {slot : Nat}
    {node : HashNode Value} (hget : t.m_table[slot]? = some node)
    (hempty : node.psl = UINT32_MAX) :
    Remove.body { t := t, slot := slot, next_slot := (slot + 1) % t.m_table_info.table_size } =
      Step.done t := by
  have hslen : slot < t.m_table.length := (List.getElem?_eq_some.mp hget).1
  have hslot : slot < t.m_table_info.table_size := by rw [← hwf.length_eq]; exact hslen
  have hnpos : 0 < t.m_table_info.table_size := by omega
  cases hb : Remove.body
      { t := t, slot := slot, next_slot := (slot + 1) % t.m_table_info.table_size } with
  | next s' =>
    obtain ⟨nxt, hnget, hne, hpos, _, _⟩ := remove_body_next hb
    obtain ⟨node', hocc', _⟩ := hwf.chain slot nxt hslot ⟨hnget, hne⟩ hpos
    have := hocc'.1.symm.trans hget
    cases this
    exact absurd hempty hocc'.2
  | done r =>
    obtain ⟨nxt, _, _, rfl⟩ := remove_body_done hb
    show Step.done (MarkSlotEmpty t slot) = Step.done t
    rw [markSlotEmpty_of_empty hget hempty]
  | fault f =>
    rcases remove_body_fault hb with h | h
    · change t.m_table[(slot + 1) % t.m_table_info.table_size]? = none at h
      rw [List.getElem?_eq_getElem (by rw [hwf.length_eq]; exact Nat.mod_lt _ hnpos)] at h
      cases h
    · change t.m_table.length ≤ slot at h
      omega

theorem removeInv_init {P : Policy Key Value} {t : Table Value} (hwf : WF P t) {slot : Nat}
    {node : HashNode Value} (hocc : Occ t slot node) :
    ∃ e, RemoveInv P e
      { t := t, slot := slot, next_slot := (slot + 1) % t.m_table_info.table_size } := by
  have hlt : occCount t < t.m_table.length := by
    have h1 := hwf.occ_le
    have h2 := hwf.key_num_le
    have h3 := hwf.cap_lt
    rw [hwf.length_eq]
    omega
  obtain ⟨e, enode, heget, heempty⟩ := exists_empty_slot hlt
  have helt : e < t.m_table_info.table_size := by
    rw [← hwf.length_eq]
    exact (List.getElem?_eq_some.mp heget).1
  have hslot : slot < t.m_table_info.table_size := by
    rw [← hwf.length_eq]; exact occ_lt hocc
  exact ⟨e, ⟨hwf.length_eq, hwf.size_lt, hwf.cap_lt, hwf.key_num_le, hwf.occ_le, hwf.lpsl_ge,
    hwf.disp, hwf.chain, hslot, rfl, ⟨node, hocc⟩, helt, ⟨enode, heget, heempty⟩,
    fun i j ni nj hi hj hij _ _ => hwf.uniq i j ni nj hi hj hij⟩⟩

/-- A call of `Remove` that returns keeps the invariant and the header
fields. -/
theorem remove_wf {P : Policy Key Value} {t t' : Table Value} (hwf : WF P t)
    {fuel : Nat} {k : Key} (h : Remove P fuel t k = Exec.ok t') :
    WF P t' ∧ t'.m_table_info = t.m_table_info := by
  obtain ⟨r, hr, hres⟩ := internalLookup_wf hwf k
  unfold Remove at h
  rw [hr] at h
  simp only at h
  by_cases hrM : r = UINT32_MAX
  · rw [if_pos hrM] at h
    cases h
    exact ⟨hwf, rfl⟩
  · rw [if_neg hrM] at h
    rcases hres with h0 | ⟨node, hget, _⟩
    · exact absurd h0 hrM
    · by_cases hempty : node.psl = UINT32_MAX
      · cases fuel with
        | zero => simp [whileLoop] at h
        | succ f =>
          rw [whileLoop, remove_body_stale hwf hget hempty] at h
          cases h
          exact ⟨hwf, rfl⟩
      · obtain ⟨e, hI⟩ := removeInv_init hwf (show Occ t r node from ⟨hget, hempty⟩)
        exact whileLoop_inv Remove.body
          (I := fun s => RemoveInv P e s ∧ s.t.m_table_info = t.m_table_info)
          (Q := fun r' : Table Value => WF P r' ∧ r'.m_table_info = t.m_table_info)
          (by
            intro s s' ⟨hs, h1⟩ hb
            refine ⟨(removeInv_next hs hb).1, ?_⟩
            obtain ⟨nxt, _, _, _, _, rfl⟩ := remove_body_next hb
            exact h1)
          (by
            intro s r' ⟨hs, h1⟩ hb
            obtain ⟨hw, h2⟩ := removeInv_done hs hb
            exact ⟨hw, h2.trans h1⟩)
          fuel _ _ ⟨hI, rfl⟩ h

/-- On a table satisfying the invariant, `Remove` of a key that is in no
occupied slot returns and leaves the whole table as it is. -/
theorem remove_absent {P : Policy Key Value} {t : Table Value} (hwf : WF P t) (k : Key)
    (habs : ∀ i node, Occ t i node → P.m_equal k (P.keyOf node) = false) (fuel : Nat)
    (hfuel : 0 < fuel) : Remove P fuel t k = Exec.ok t := by
  obtain ⟨r, hr, hres⟩ := internalLookup_wf hwf k
  unfold Remove
  rw [hr]
  simp only
  by_cases hrM : r = UINT32_MAX
  · rw [if_pos hrM]
  · rw [if_neg hrM]
    rcases hres with h0 | ⟨node, hget, heq⟩
    · exact absurd h0 hrM
    · have hempty : node.psl = UINT32_MAX := by
        by_contra hne
        rw [habs r node ⟨hget, hne⟩] at heq
        cases heq
      obtain ⟨f, rfl⟩ : ∃ f, fuel = f + 1 := ⟨fuel - 1, by omega⟩
      rw [whileLoop, remove_body_stale hwf hget hempty]

/-- On a table satisfying the invariant the backward shift loop of `Remove`
stops within `table_size` passes. -/
theorem remove_returns {P : Policy Key Value} {t : Table Value} (hwf : WF P t) (k : Key)
    (fuel : Nat) (hfuel : t.m_table_info.table_size ≤ fuel) :
    ∃ t', Remove P fuel t k = Exec.ok t' := by
  have hnpos : 0 < t.m_table_info.table_size := by have := hwf.cap_lt; omega
  obtain ⟨r, hr, hres⟩ := internalLookup_wf hwf k
  unfold Remove
  rw [hr]
  simp only
  by_cases hrM : r = UINT32_MAX
  · rw [if_pos hrM]; exact ⟨_, rfl⟩
  · rw [if_neg hrM]
    rcases hres with h0 | ⟨node, hget, _⟩
    · exact absurd h0 hrM
    · by_cases hempty : node.psl = UINT32_MAX
      · obtain ⟨f, rfl⟩ : ∃ f, fuel = f + 1 := ⟨fuel - 1, by omega⟩
        rw [whileLoop, remove_body_stale hwf hget hempty]
        exact ⟨_, rfl⟩
      · obtain ⟨e, hI⟩ := removeInv_init hwf (show Occ t r node from ⟨hget, hempty⟩)
        refine whileLoop_term
          (I := fun s => RemoveInv P e s ∧
            s.t.m_table_info.table_size = t.m_table_info.table_size)
          (μ := fun s =>
            (e + s.t.m_table_info.table_size - s.next_slot) % s.t.m_table_info.table_size)
          ?_ ?_ fuel _ ⟨hI, rfl⟩ ?_
        · intro s s' ⟨hs, h1⟩ hb
          obtain ⟨hs', hlt⟩ := removeInv_next hs hb
          refine ⟨⟨hs', ?_⟩, hlt⟩
          obtain ⟨nxt, _, _, _, _, rfl⟩ := remove_body_next hb
          exact h1
        · intro s f ⟨hs, _⟩
          exact removeInv_fault hs f
        · exact lt_of_lt_of_le (Nat.mod_lt _ hnpos) hfuel

/-! ### Reachable tables -/

theorem initWith_get {m n : Nat} {raw : Nat → Value} {i : Nat} {node : HashNode Value}
    (h : (InitWith m n raw).m_table[i]? = some node) : node.psl = UINT32_MAX := by
  unfold InitWith at h
  simp only [List.getElem?_map] at h
  cases hr : (List.range n)[i]? with
  | none => rw [hr] at h; cases h
  | some j =>
    rw [hr] at h
    cases h
    rfl

theorem initWith_occCount (m n : Nat) (raw : Nat → Value) :
    occCount (InitWith m n raw) = 0 := by
  unfold occCount
  rw [List.countP_eq_zero]
  intro a ha
  obtain ⟨i, hi⟩ := List.mem_iff_getElem?.mp ha
  have := initWith_get hi
  simp [SlotIsEmpty, this]

theorem initWith_wf (P : Policy Key Value) {m n : Nat} (raw : Nat → Value) (hmn : m < n)
    (hn : n < 2 ^ 32) : WF P (InitWith m n raw) := by
  have hno : ∀ i node, ¬ Occ (InitWith m n raw) i node := fun i node h =>
    h.2 (initWith_get h.1)
  refine ⟨?_, hn, hmn, Nat.zero_le _, ?_, ?_, ?_, ?_, ?_⟩
  · simp [InitWith]
  · rw [initWith_occCount]; exact Nat.zero_le _
  · intro i node h; exact absurd h (hno i node)
  · intro i node h; exact absurd h (hno i node)
  · intro i node _ h; exact absurd h (hno _ node)
  · intro i j ni nj h; exact absurd h (hno i ni)

theorem tableSizeOf_lt (m : Nat) (lf : ℚ) : tableSizeOf m lf < 2 ^ 32 :=
  Nat.mod_lt _ (by norm_num)

/-- Every table reachable from an `Init` whose slot array is larger than the
capacity satisfies the invariant. -/
theorem reachable_wf {P : Policy Key Value} (hP : P.Lawful) {max_key_num : Nat} {lf : ℚ}
    {raw : Nat → Value} (hcap : max_key_num % 2 ^ 32 < tableSizeOf max_key_num lf)
    {t : Table Value} (h : Reachable P (Init max_key_num lf raw) t) : WF P t := by
  induction h with
  | init => exact initWith_wf P raw hcap (tableSizeOf_lt _ _)
  | insert _ hins ih => exact (insert_wf hP ih hins).1
  | remove _ hrem ih => exact (remove_wf ih hrem).1

theorem intSet_lawful : intSet.Lawful := by
  refine ⟨?_, ?_, ?_, ?_⟩
  · intro a; simp [intSet]
  · intro a b h; simp [intSet] at h ⊢; exact h.symm
  · intro a b c h1 h2; simp [intSet] at h1 h2 ⊢; exact h1.trans h2
  · intro a b h; simp [intSet] at h ⊢; exact h

/-! ### A full table: the probe lengths run up to the sentinel -/

theorem insert_body_swap {P : Policy Key Value} {s : InsertState Value}
    {node : HashNode Value} (hget : s.t.m_table[s.slot]? = some node)
    (hne : node.psl ≠ UINT32_MAX)
    (heq : P.m_equal (P.keyOf node) (P.keyOf s.tmp_node) = false)
    (hlt : node.psl < s.tmp_node.psl) :
    InternalInsert.body P s = Step.next (s.swapped node) := by
  unfold InternalInsert.body
  rw [hget]
  have h1 : ¬ (SlotIsEmpty node = true) := by simpa [SlotIsEmpty] using hne
  have h2 : s.tmp_node.psl > node.psl := hlt
  simp only [Policy.keyOf] at heq
  simp only [if_neg h1, heq, if_pos h2]
  rfl

theorem shift_get (d : Nat) (s : InsertState Value) (i : Nat) :
    (s.shift d).t.m_table[i]? =
      (s.t.m_table[i]?).map fun nd => { nd with psl := nd.psl + d } := by
  simp [InsertState.shift, List.getElem?_map]

/-- A pass of the insert loop that goes round again does the same on the
shifted state, as long as the shifted probe lengths stay below the sentinel. -/
theorem body_shift {P : Policy Key Value} {s s' : InsertState Value} {d : Nat}
    {node : HashNode Value} (hb : InternalInsert.body P s = Step.next s')
    (hget : s.t.m_table[s.slot]? = some node) (h1 : node.psl + d < UINT32_MAX)
    (h2 : s.tmp_node.psl + d < UINT32_MAX) :
    InternalInsert.body P (s.shift d) = Step.next (s'.shift d) := by
  obtain ⟨node', hget', hne, hkeq, hcase⟩ := insert_body_next hb
  rw [hget] at hget'
  cases hget'
  have hM : UINT32_MAX = 4294967295 := rfl
  have hgets : (s.shift d).t.m_table[(s.shift d).slot]? =
      some { node with psl := node.psl + d } := by
    rw [shift_get]
    show Option.map _ s.t.m_table[s.slot]? = _
    rw [hget]
    rfl
  have hnes : ({ node with psl := node.psl + d } : HashNode Value).psl ≠ UINT32_MAX := by
    show node.psl + d ≠ UINT32_MAX
    omega
  have hp1 : (node.psl + d + 1) % 2 ^ 32 = (node.psl + 1) % 2 ^ 32 + d := by
    rw [Nat.mod_eq_of_lt (by omega), Nat.mod_eq_of_lt (by omega)]
    omega
  have hp2 : (s.tmp_node.psl + d + 1) % 2 ^ 32 = (s.tmp_node.psl + 1) % 2 ^ 32 + d := by
    rw [Nat.mod_eq_of_lt (by omega), Nat.mod_eq_of_lt (by omega)]
    omega
  rcases hcase with ⟨hlt, rfl⟩ | ⟨hle, rfl⟩
  · rw [insert_body_swap hgets hnes hkeq (by show node.psl + d < s.tmp_node.psl + d; omega)]
    congr 1
    simp only [InsertState.swapped, InsertState.shift, List.map_set, hp1]
    congr 3
    by_cases hl : s.tmp_node.psl > s.t.m_table_info.lpsl
    · rw [if_pos hl, if_pos (by omega)]
    · rw [if_neg hl, if_neg (by omega)]
  · rw [insert_body_advance hgets hnes hkeq (by show s.tmp_node.psl + d ≤ node.psl + d; omega)]
    congr 1
    simp only [InsertState.advanced, InsertState.shift, hp2]

theorem runBounded_shift {P : Policy Key Value} {B d : Nat} (hd : d + B < UINT32_MAX) :
    ∀ k (s s' : InsertState Value), runBounded P B k s = some s' →
      ∀ f, whileLoop (InternalInsert.body P) (k + f) (s.shift d) =
        whileLoop (InternalInsert.body P) f (s'.shift d) := by
  intro k
  induction k with
  | zero =>
    intro s s' h f
    simp only [runBounded] at h
    cases h
    rw [Nat.zero_add]
  | succ k ih =>
    intro s s' h f
    rw [runBounded] at h
    split at h
    · cases h
    · rename_i node hget
      split_ifs at h with hB
      cases hb : InternalInsert.body P s with
      | next s1 =>
        rw [hb] at h
        have hstep := body_shift (d := d) hb hget (by omega) (by omega)
        rw [show k + 1 + f = (k + f) + 1 by omega, whileLoop, hstep]
        exact ih s1 s' h f
      | done r => rw [hb] at h; cases h
      | fault e => rw [hb] at h; cases h

theorem shift_zero (s : InsertState Value) : s.shift 0 = s := by
  cases s with
  | mk t tmp slot =>
    cases t with
    | mk info tab =>
      simp [InsertState.shift]

theorem shift_shift (a b : Nat) (s : InsertState Value) :
    (s.shift b).shift a = s.shift (b + a) := by
  simp [InsertState.shift, List.map_map, Function.comp_def, Nat.add_assoc]

theorem overflow_period : runBounded intSet 16 48 overflowBase = some (overflowBase.shift 12) := by
  decide

/-- After `48 * j` passes from `overflowBase` every probe length is `12 * j`
larger. -/
theorem overflow_periods :
    ∀ j, 12 * j + 5 < UINT32_MAX → ∀ f,
      whileLoop (InternalInsert.body intSet) (48 * j + f) overflowBase =
        whileLoop (InternalInsert.body intSet) f (overflowBase.shift (12 * j)) := by
  intro j
  induction j with
  | zero =>
    intro _ f
    simp only [Nat.mul_zero, Nat.zero_add, shift_zero]
  | succ j ih =>
    intro hj f
    have hM : UINT32_MAX = 4294967295 := rfl
    rw [show 48 * (j + 1) + f = 48 * j + (48 + f) by omega, ih (by omega) (48 + f)]
    have := runBounded_shift (P := intSet) (B := 16) (d := 12 * j) (by omega) 48 _ _
      overflow_period f
    rw [this, shift_shift]
    congr 2
    omega

theorem tableSizeOf_three : tableSizeOf 3 DEFAULT_MAX_LOAD_FACTOR = 3 := by
  unfold tableSizeOf DEFAULT_MAX_LOAD_FACTOR
  have h1 : roundFloat ((3 % 2 ^ 32 : Nat) : ℚ) = 3 := by
    rw [roundFloat_eq _ 1 (by norm_num) (by norm_num) (by norm_num) (by norm_num)]
    norm_num [roundHalfEven]
  rw [h1, roundFloat_eq _ 1 (by norm_num) (by norm_num) (by norm_num) (by norm_num)]
  norm_num [roundHalfEven]
  rfl

theorem fullTable_inserts :
    tableAfterInserts intSet 10 (Init 3 DEFAULT_MAX_LOAD_FACTOR zeroMem) [0, 1, 3] =
      Exec.ok fullTable := by
  simp only [Init, tableSizeOf_three]
  decide

theorem overflow_start :
    runBounded intSet 16 9
      { t := fullTable, tmp_node := { psl := 0, value := 4 }, slot := 1 } = some overflowBase := by
  decide

theorem overflow_finish :
    whileLoop (InternalInsert.body intSet) 49 (overflowBase.shift (12 * 357913940)) =
      Exec.ok (overflowTable, none, false) := by
  decide

/-- The call `Insert(4)` on `fullTable` returns `(nullptr, false)` after
`overflowFuel` passes and leaves `overflowTable`. -/
theorem overflow_insert :
    Insert intSet overflowFuel fullTable 4 = Exec.ok (overflowTable, none, false) := by
  have h1 := runBounded_shift (P := intSet) (B := 16) (d := 0) (by decide) 9 _ _ overflow_start
    (48 * 357913940 + 49)
  rw [shift_zero, shift_zero] at h1
  have h2 := overflow_periods 357913940 (by decide) 49
  have hf : overflowFuel = 9 + (48 * 357913940 + 49) := by
    unfold overflowFuel
    omega
  have hslot : intSet.m_hash (intSet.m_get_key_from_value (4 : Nat)) %
      fullTable.m_table_info.table_size = 1 := by decide
  have hnz : ¬ fullTable.m_table_info.table_size = 0 := by decide
  unfold Insert InternalInsert
  rw [if_neg hnz, hslot, hf, h1, h2, overflow_finish]

/-! ### Duplicate insert and removal of an absent key -/

theorem reachable_insertAll {P : Policy Key Value} {t0 : Table Value} {fuel : Nat} :
    ∀ (vs : List Value) (t t' : Table Value) (rs : List (Option Nat × Bool)),
      Reachable P t0 t → insertAll P fuel t vs = Exec.ok (t', rs) → Reachable P t0 t' := by
  intro vs
  induction vs with
  | nil =>
    intro t t' rs hr h
    simp only [insertAll] at h
    cases h
    exact hr
  | cons v vs ih =>
    intro t t' rs hr h
    rw [insertAll] at h
    cases h1 : Insert P fuel t v with
    | fault f => rw [h1] at h; cases h
    | ok r1 =>
      obtain ⟨t1, r⟩ := r1
      rw [h1] at h
      simp only at h
      cases h2 : insertAll P fuel t1 vs with
      | fault f => rw [h2] at h; cases h
      | ok r2 =>
        obtain ⟨t2, rs2⟩ := r2
        rw [h2] at h
        simp only at h
        cases h
        exact ih t1 _ rs2 (Reachable.insert hr h1) h2

theorem reachable_tableAfterInserts {P : Policy Key Value} {t0 t' : Table Value} {fuel : Nat}
    {vs : List Value} (h : tableAfterInserts P fuel t0 vs = Exec.ok t') : Reachable P t0 t' := by
  unfold tableAfterInserts Exec.bind at h
  cases h1 : insertAll P fuel t0 vs with
  | fault f => rw [h1] at h; cases h
  | ok r =>
    obtain ⟨t1, rs⟩ := r
    rw [h1] at h
    simp only at h
    cases h
    exact reachable_insertAll vs t0 _ rs Reachable.init h1

/-- The table `overflowTable` is reached from `Init(3)` with the default load
factor by `Insert` of 0, 1, 3 and 4. -/
theorem overflow_reachable :
    Reachable intSet (Init 3 DEFAULT_MAX_LOAD_FACTOR zeroMem) overflowTable :=
  Reachable.insert (reachable_tableAfterInserts fullTable_inserts) overflow_insert

theorem oneKeyTable_reachable :
    Reachable intSet (Init 10 DEFAULT_MAX_LOAD_FACTOR zeroMem) oneKeyTable := by
  have h : Insert intSet 1 (Init 10 DEFAULT_MAX_LOAD_FACTOR zeroMem) 12 =
      Exec.ok (oneKeyTable, some 1, true) := by
    simp only [Init, tableSizeOf_ten]
    decide
  exact Reachable.insert Reachable.init h

theorem ten_lt_tableSizeOf : 10 % 2 ^ 32 < tableSizeOf 10 DEFAULT_MAX_LOAD_FACTOR := by
  rw [tableSizeOf_ten]
  decide

theorem oneKeyTable_occ : Occ oneKeyTable 1 { psl := 0, value := 12 } :=
  ⟨by decide, by decide⟩

theorem oneKeyTable_absent_five :
    ∀ i node, Occ oneKeyTable i node → intSet.m_equal 5 (intSet.keyOf node) = false := by
  intro i node h
  have hi : i < 11 := occ_lt h
  obtain ⟨h1, h2⟩ := h
  interval_cases i <;> simp [oneKeyTable, InitWith, zeroMem] at h1 <;> subst h1 <;>
    first
      | exact absurd rfl h2
      | rfl

/-- C4, amended: in every table state reachable from an `Init` that yields
`max_key_num < table_size`, for a lawful key policy and every value `v` whose key
is stored in the occupied slot `s`, `Insert(v)` returns `(pointer into s, false)`
and leaves the whole table (header and slots) unchanged. -/
theorem C4_duplicate_insert_is_noop (P : Policy Key Value) (hP : P.Lawful)
    (max_key_num : Nat) (lf : ℚ) (raw : Nat → Value)
    (hcap : max_key_num % 2 ^ 32 < tableSizeOf max_key_num lf) (t : Table Value)
    (hreach : Reachable P (Init max_key_num lf raw) t) (v : Value) (s : Nat)
    (node : HashNode Value) (hs : Occ t s node)
    (hkey : P.m_equal (P.keyOf node) (P.m_get_key_from_value v) = true) (fuel : Nat)
    (hfuel : node.psl < fuel) :
    Insert P fuel t v = Exec.ok (t, some s, false) :=
  insert_present hP (reachable_wf hP hcap hreach) hs v hkey fuel hfuel

/-- The amended C4 on the table holding 12 after `Init(10)`: a second `Insert(12)`
returns the pointer into slot 1 and `false`. -/
theorem C4_duplicate_insert_is_noop_witness :
    Occ oneKeyTable 1 { psl := 0, value := 12 } ∧
      Insert intSet 1 oneKeyTable 12 = Exec.ok (oneKeyTable, some 1, false) :=
  ⟨oneKeyTable_occ,
    C4_duplicate_insert_is_noop intSet intSet_lawful 10 DEFAULT_MAX_LOAD_FACTOR zeroMem
      ten_lt_tableSizeOf oneKeyTable oneKeyTable_reachable 12 1 { psl := 0, value := 12 }
      oneKeyTable_occ rfl 1 (by decide)⟩

/-- C4, as stated, fails: after `Init(3)` with the default load factor (three
slots for a capacity of three) and `Insert` of 0, 1, 3, 4, the value 0 is stored
in the occupied slot 2, but `Insert(0)` returns `(nullptr, false)`: the probe
from the home slot 0 of key 0 stops at once, slot 0 being marked empty. -/
theorem C4_duplicate_insert_after_overflow :
    Reachable intSet (Init 3 DEFAULT_MAX_LOAD_FACTOR zeroMem) overflowTable ∧
      Occ overflowTable 2 { psl := UINT32_MAX - 1, value := 0 } ∧
      intSet.m_equal (intSet.keyOf { psl := UINT32_MAX - 1, value := 0 })
        (intSet.m_get_key_from_value 0) = true ∧
      ∀ fuel, Insert intSet (fuel + 1) overflowTable 0 = Exec.ok (overflowTable, none, false) :=
  ⟨overflow_reachable, ⟨by decide, by decide⟩, rfl, fun _ => rfl⟩

/-- C10, amended: in every table state reachable from an `Init` that yields
`max_key_num < table_size`, for a lawful key policy and every key `k` that is in
no occupied slot, `Remove(k)` returns and leaves the whole table (every slot and
every header field) unchanged. -/
theorem C10_remove_absent_is_noop (P : Policy Key Value) (hP : P.Lawful)
    (max_key_num : Nat) (lf : ℚ) (raw : Nat → Value)
    (hcap : max_key_num % 2 ^ 32 < tableSizeOf max_key_num lf) (t : Table Value)
    (hreach : Reachable P (Init max_key_num lf raw) t) (k : Key)
    (habs : ∀ i node, Occ t i node → P.m_equal k (P.keyOf node) = false) (fuel : Nat)
    (hfuel : 0 < fuel) :
    Remove P fuel t k = Exec.ok t :=
  remove_absent (reachable_wf hP hcap hreach) k habs fuel hfuel

/-- The amended C10 on the table holding 12 after `Init(10)`: `Remove(5)` changes
nothing. -/
theorem C10_remove_absent_is_noop_witness :
    (∀ i node, Occ oneKeyTable i node → intSet.m_equal 5 (intSet.keyOf node) = false) ∧
      Remove intSet 1 oneKeyTable 5 = Exec.ok oneKeyTable :=
  ⟨oneKeyTable_absent_five,
    C10_remove_absent_is_noop intSet intSet_lawful 10 DEFAULT_MAX_LOAD_FACTOR zeroMem
      ten_lt_tableSizeOf oneKeyTable oneKeyTable_reachable 5 oneKeyTable_absent_five 1
      (by decide)⟩

/-- C10, as stated, fails: in the table reached by `Init(3)` with the default
load factor and `Insert` of 0, 1, 3, 4, the key 1 is in no occupied slot (slot 1
is marked empty and still holds the bytes of 1), yet `Remove(1)` shifts the
value 0 from slot 2 back into slot 1 and marks slot 2 empty. -/
theorem C10_remove_absent_after_overflow :
    Reachable intSet (Init 3 DEFAULT_MAX_LOAD_FACTOR zeroMem) overflowTable ∧
      (∀ i node, Occ overflowTable i node → intSet.m_equal 1 (intSet.keyOf node) = false) ∧
      (∀ fuel, Remove intSet (fuel + 2) overflowTable 1 = Exec.ok shiftedTable) ∧
      shiftedTable ≠ overflowTable := by
  refine ⟨overflow_reachable, ?_, fun _ => rfl, by decide⟩
  intro i node h
  have hi : i < 3 := occ_lt h
  obtain ⟨h1, h2⟩ := h
  interval_cases i <;> simp [overflowTable] at h1 <;> subst h1 <;>
    first
      | exact absurd rfl h2
      | rfl

/-! ### Filling a table up to its capacity -/

theorem psl_sum_set {l : List (HashNode Value)} :
    ∀ {i : Nat} {x old : HashNode Value}, l[i]? = some old →
      ((l.set i x).map fun node => node.psl).sum + old.psl =
        (l.map fun node => node.psl).sum + x.psl := by
  induction l with
  | nil => intro i x old h; simp at h
  | cons a l ih =>
    intro i x old h
    cases i with
    | zero =>
      simp only [List.getElem?_cons_zero, Option.some.injEq] at h
      subst h
      simp only [List.set_cons_zero, List.map_cons, List.sum_cons]
      omega
    | succ i =>
      simp only [List.getElem?_cons_succ] at h
      have := ih (x := x) h
      simp only [List.set_cons_succ, List.map_cons, List.sum_cons]
      omega

theorem psl_sum_le {l : List (HashNode Value)} :
    (∀ (i : Nat) (node : HashNode Value), l[i]? = some node → node.psl ≤ UINT32_MAX) →
      (l.map fun node => node.psl).sum ≤ l.length * UINT32_MAX := by
  induction l with
  | nil => intro _; simp
  | cons a l ih =>
    intro h
    have h0 := h 0 a (by simp)
    have h1 := ih (fun i node hi => h (i + 1) node (by simpa using hi))
    simp only [List.map_cons, List.sum_cons, List.length_cons]
    rw [Nat.add_mul]
    omega

/-- Potential of the insert loop: it grows by one with every pass that goes
round again and is bounded by `(table_size + 1) * UINT32_MAX`. -/
theorem fillInv_potential {P : Policy Key Value} {S : List Value} {info : HashTableInfo}
    {s : InsertState Value} (hI : FillInv P S info s) :
    pslSum s.t + s.tmp_node.psl ≤ (info.table_size + 1) * UINT32_MAX := by
  have h1 := psl_sum_le hI.psl_le
  have h2 := hI.tmp_le
  rw [hI.length_eq, hI.size_eq] at h1
  unfold pslSum
  rw [Nat.add_mul]
  omega

theorem fillInv_next {P : Policy Key Value} (hP : P.Lawful) {S : List Value}
    {info : HashTableInfo} {s s' : InsertState Value} (hI : FillInv P S info s)
    (hb : InternalInsert.body P s = Step.next s') :
    FillInv P S info s' ∧ pslSum s'.t + s'.tmp_node.psl = pslSum s.t + s.tmp_node.psl + 1 := by
  obtain ⟨node, hget, hne, hkeq, hcase⟩ := insert_body_next hb
  have hM : UINT32_MAX = 4294967295 := rfl
  have hnle := hI.psl_le _ _ hget
  have hnpos : 0 < s.t.m_table_info.table_size := by have := hI.slot_lt; omega
  have hlen : s.slot < s.t.m_table.length := by rw [hI.length_eq]; exact hI.slot_lt
  have hoccn : Occ s.t s.slot node := ⟨hget, hne⟩
  rcases hcase with ⟨hlt, rfl⟩ | ⟨hle, rfl⟩
  · have hpsl : (node.psl + 1) % 2 ^ 32 = node.psl + 1 := Nat.mod_eq_of_lt (by omega)
    have hocc := occ_set_iff (t := s.t) (s.swapped node).t (x := s.tmp_node) rfl hlen
    refine ⟨⟨?_, hI.size_eq, hI.max_eq, hI.key_eq, Nat.mod_lt _ hnpos, ?_, ?_, ?_, ?_, ?_, ?_⟩, ?_⟩
    · show (s.t.m_table.set s.slot s.tmp_node).length = _
      rw [List.length_set]; exact hI.length_eq
    · intro i nd h
      change (s.t.m_table.set s.slot s.tmp_node)[i]? = some nd at h
      rw [List.getElem?_set] at h
      split_ifs at h with h1
      · cases h; exact hI.tmp_le
      · exact hI.psl_le i nd h
    · show (node.psl + 1) % 2 ^ 32 ≤ UINT32_MAX
      rw [hpsl]; omega
    · intro i j ni nj hi hj hij
      rcases (hocc i ni).mp hi with ⟨h1, h2, _⟩ | ⟨h1, h2⟩ <;>
        rcases (hocc j nj).mp hj with ⟨h3, h4, _⟩ | ⟨h3, h4⟩
      · exact absurd (h1.trans h3.symm) hij
      · subst h2; exact hP.ne_symm (hI.absent j nj h4)
      · subst h4; exact hI.absent i ni h2
      · exact hI.distinct i j ni nj h2 h4 hij
    · intro j nd hnd
      show P.m_equal (P.keyOf nd) (P.keyOf node) = false
      rcases (hocc j nd).mp hnd with ⟨_, h2, _⟩ | ⟨h1, h2⟩
      · subst h2; exact hP.ne_symm hkeq
      · exact hI.distinct j s.slot nd node h2 hoccn h1
    · intro j nd hnd
      rcases (hocc j nd).mp hnd with ⟨_, h2, _⟩ | ⟨_, h2⟩
      · subst h2; exact hI.tmp_mem
      · exact hI.mem j nd h2
    · exact hI.mem s.slot node hoccn
    · have := psl_sum_set (x := s.tmp_node) hget
      show ((s.t.m_table.set s.slot s.tmp_node).map fun node => node.psl).sum +
        (node.psl + 1) % 2 ^ 32 = pslSum s.t + s.tmp_node.psl + 1
      rw [hpsl]
      unfold pslSum
      omega
  · have hpsl : (s.tmp_node.psl + 1) % 2 ^ 32 = s.tmp_node.psl + 1 :=
      Nat.mod_eq_of_lt (by omega)
    refine ⟨⟨hI.length_eq, hI.size_eq, hI.max_eq, hI.key_eq, Nat.mod_lt _ hnpos, hI.psl_le, ?_,
      hI.distinct, hI.absent, hI.mem, hI.tmp_mem⟩, ?_⟩
    · show (s.tmp_node.psl + 1) % 2 ^ 32 ≤ UINT32_MAX
      rw [hpsl]; omega
    · show pslSum s.t + (s.tmp_node.psl + 1) % 2 ^ 32 = _
      rw [hpsl]; omega

theorem fillInv_fault {P : Policy Key Value} {S : List Value} {info : HashTableInfo}
    {s : InsertState Value} (hI : FillInv P S info s) (f : Fault) :
    InternalInsert.body P s ≠ Step.fault f := by
  intro hb
  have h := insert_body_fault hb
  have hlen : s.slot < s.t.m_table.length := by rw [hI.length_eq]; exact hI.slot_lt
  rw [List.getElem?_eq_getElem hlen] at h
  cases h

/-- The loop of `InternalInsert` returns whenever the key of the carried node
is in no occupied slot, also on a table without an empty slot. -/
theorem fill_returns {P : Policy Key Value} (hP : P.Lawful) {S : List Value}
    {info : HashTableInfo} {s : InsertState Value} (hI : FillInv P S info s) (fuel : Nat)
    (hfuel : (info.table_size + 1) * UINT32_MAX < fuel) :
    ∃ r, whileLoop (InternalInsert.body P) fuel s = Exec.ok r := by
  refine whileLoop_term (I := FillInv P S info)
    (μ := fun s => (info.table_size + 1) * UINT32_MAX - (pslSum s.t + s.tmp_node.psl))
    ?_ ?_ fuel s hI ?_
  · intro s1 s2 h1 hb
    obtain ⟨h2, hsum⟩ := fillInv_next hP h1 hb
    have := fillInv_potential h2
    exact ⟨h2, by show _ - _ < _ - _; omega⟩
  · intro s1 f h1
    exact fillInv_fault h1 f
  · show _ - _ < fuel
    omega

theorem fillInv_init {P : Policy Key Value} {S : List Value} {t : Table Value}
    (hF : FillState P S t) (hnz : t.m_table_info.table_size ≠ 0) (v : Value) (S' : List Value)
    (hS : ∀ a, a ∈ S → a ∈ S') (hv : v ∈ S')
    (habs : ∀ i node, Occ t i node →
      P.m_equal (P.keyOf node) (P.m_get_key_from_value v) = false) :
    FillInv P S' t.m_table_info
      { t := t, tmp_node := { psl := 0, value := v },
        slot := P.m_hash (P.m_get_key_from_value v) % t.m_table_info.table_size } :=
  ⟨hF.length_eq, rfl, rfl, rfl, Nat.mod_lt _ (Nat.pos_of_ne_zero hnz), hF.psl_le,
    Nat.zero_le _, hF.distinct, habs, fun i node h => hS _ (hF.mem i node h), hv⟩

/-- What a call of `Insert` that starts from a filled table returns: a failure
keeps `key_num`, a success stores one more of the values. -/
theorem fillInv_done {P : Policy Key Value} (hP : P.Lawful) {S : List Value}
    {info : HashTableInfo} {s : InsertState Value} (hI : FillInv P S info s)
    (hmax : info.max_key_num < 2 ^ 32) (hkey : info.key_num + 1 = S.length)
    {r : Table Value × Option Nat × Bool} (hb : InternalInsert.body P s = Step.done r) :
    (r.2 = (none, false) ∧ r.1.m_table_info.key_num = info.key_num ∧
        info.max_key_num ≤ info.key_num) ∨
      (r.2.2 = true ∧ FillState P S r.1 ∧ r.1.m_table_info.table_size = info.table_size ∧
        r.1.m_table_info.max_key_num = info.max_key_num) := by
  obtain ⟨node, hget, hcase⟩ := insert_body_done hb
  have hlen : s.slot < s.t.m_table.length := by rw [hI.length_eq]; exact hI.slot_lt
  rcases hcase with ⟨_, hfull, rfl⟩ | ⟨hem, hfree, rfl⟩ | ⟨hne, heq, rfl⟩
  · left
    refine ⟨rfl, hI.key_eq, ?_⟩
    rw [← hI.max_eq, ← hI.key_eq]
    exact hfull
  · right
    have hocc := occ_set_iff (t := s.t) s.placed (x := s.tmp_node) rfl hlen
    have hk : (s.t.m_table_info.key_num + 1) % 2 ^ 32 = s.t.m_table_info.key_num + 1 := by
      have := hI.max_eq
      exact Nat.mod_eq_of_lt (by omega)
    refine ⟨rfl, ⟨?_, ?_, ?_, ?_, ?_, ?_⟩, hI.size_eq, hI.max_eq⟩
    · show (s.t.m_table.set s.slot s.tmp_node).length = _
      rw [List.length_set]; exact hI.length_eq
    · show s.t.m_table_info.max_key_num < 2 ^ 32
      rw [hI.max_eq]; exact hmax
    · intro i nd h
      change (s.t.m_table.set s.slot s.tmp_node)[i]? = some nd at h
      rw [List.getElem?_set] at h
      split_ifs at h with h1
      · cases h; exact hI.tmp_le
      · exact hI.psl_le i nd h
    · intro i j ni nj hi hj hij
      rcases (hocc i ni).mp hi with ⟨h1, h2, _⟩ | ⟨h1, h2⟩ <;>
        rcases (hocc j nj).mp hj with ⟨h3, h4, _⟩ | ⟨h3, h4⟩
      · exact absurd (h1.trans h3.symm) hij
      · subst h2; exact hP.ne_symm (hI.absent j nj h4)
      · subst h4; exact hI.absent i ni h2
      · exact hI.distinct i j ni nj h2 h4 hij
    · intro j nd hnd
      rcases (hocc j nd).mp hnd with ⟨_, h2, _⟩ | ⟨_, h2⟩
      · subst h2; exact hI.tmp_mem
      · exact hI.mem j nd h2
    · show (s.t.m_table_info.key_num + 1) % 2 ^ 32 = S.length
      rw [hk, hI.key_eq]; exact hkey
  · have := hI.absent s.slot node ⟨hget, hne⟩
    rw [heq] at this
    cases this

theorem fill_step {P : Policy Key Value} (hP : P.Lawful) {S : List Value} {t t1 : Table Value}
    (hF : FillState P S t) {v : Value}
    (hv : ∀ a, a ∈ S → P.m_equal (P.m_get_key_from_value a) (P.m_get_key_from_value v) = false)
    {fuel : Nat} {p : Option Nat} (h : Insert P fuel t v = Exec.ok (t1, p, true)) :
    FillState P (S ++ [v]) t1 ∧ t1.m_table_info.table_size = t.m_table_info.table_size ∧
      t1.m_table_info.max_key_num = t.m_table_info.max_key_num := by
  unfold Insert InternalInsert at h
  by_cases hnz : t.m_table_info.table_size = 0
  · rw [if_pos hnz] at h; cases h
  · rw [if_neg hnz] at h
    have hI := fillInv_init hF hnz v (S ++ [v]) (fun a ha => List.mem_append_left _ ha)
      (List.mem_append_right _ (List.mem_singleton_self v))
      (fun i node hocc => hv _ (hF.mem i node hocc))
    have key := whileLoop_inv (InternalInsert.body P) (I := FillInv P (S ++ [v]) t.m_table_info)
      (Q := fun r : Table Value × Option Nat × Bool =>
        r.2.2 = true → FillState P (S ++ [v]) r.1 ∧
          r.1.m_table_info.table_size = t.m_table_info.table_size ∧
          r.1.m_table_info.max_key_num = t.m_table_info.max_key_num)
      (fun s s' hs hb => (fillInv_next hP hs hb).1)
      (by
        intro s r hs hb htrue
        rcases fillInv_done hP hs hF.max_lt
            (by rw [hF.key_num_eq, List.length_append]; rfl) hb with ⟨h1, _, _⟩ | ⟨_, h2⟩
        · rw [h1] at htrue; cases htrue
        · exact h2)
      fuel _ _ hI h
    exact key rfl

/-- A run of successful `Insert` calls of values with pairwise different keys,
none of them equal to a key inserted before, keeps `FillState`. -/
theorem fill_run {P : Policy Key Value} (hP : P.Lawful) :
    ∀ (vs S : List Value) (t t' : Table Value), FillState P S t →
      (∀ a, a ∈ S → ∀ b, b ∈ vs →
        P.m_equal (P.m_get_key_from_value a) (P.m_get_key_from_value b) = false) →
      vs.Pairwise (fun a b =>
        P.m_equal (P.m_get_key_from_value a) (P.m_get_key_from_value b) = false) →
      InsertRun P t vs t' →
      FillState P (S ++ vs) t' ∧ t'.m_table_info.table_size = t.m_table_info.table_size ∧
        t'.m_table_info.max_key_num = t.m_table_info.max_key_num := by
  intro vs
  induction vs with
  | nil =>
    intro S t t' hF _ _ hrun
    simp only [InsertRun] at hrun
    subst hrun
    rw [List.append_nil]
    exact ⟨hF, rfl, rfl⟩
  | cons v vs ih =>
    intro S t t' hF hS hpair hrun
    obtain ⟨fuel, t1, p, hins, hrest⟩ := hrun
    rw [List.pairwise_cons] at hpair
    obtain ⟨hF1, hs1, hm1⟩ := fill_step hP hF (fun a ha => hS a ha v (List.mem_cons_self v vs)) hins
    have := ih (S ++ [v]) t1 t' hF1
      (by
        intro a ha b hb
        rcases List.mem_append.mp ha with h1 | h1
        · exact hS a h1 b (List.mem_cons_of_mem v hb)
        · rw [List.mem_singleton] at h1
          subst h1
          exact hpair.1 b hb)
      hpair.2 hrest
    rw [List.append_assoc] at this
    exact ⟨this.1, this.2.1.trans hs1, this.2.2.trans hm1⟩

theorem fillState_init (P : Policy Key Value) (m n : Nat) (raw : Nat → Value)
    (hm : m < 2 ^ 32) : FillState P [] (InitWith m n raw) := by
  have hno : ∀ i node, ¬ Occ (InitWith m n raw) i node := fun i node h =>
    h.2 (initWith_get h.1)
  refine ⟨by simp [InitWith], hm, ?_, ?_, ?_, rfl⟩
  · intro i node h
    rw [initWith_get h]
  · intro i j ni nj h
    exact absurd h (hno i ni)
  · intro i node h
    exact absurd h (hno i node)

/-- On a filled table whose `key_num` has reached `max_key_num`, `Insert` of a
value whose key is in no occupied slot returns `(nullptr, false)` and keeps
`key_num`, provided the table has at least one slot. -/
theorem fill_full {P : Policy Key Value} (hP : P.Lawful) {S : List Value} {t : Table Value}
    (hF : FillState P S t) (hnz : t.m_table_info.table_size ≠ 0)
    (hfull : t.m_table_info.max_key_num ≤ t.m_table_info.key_num) (v : Value)
    (habs : ∀ i node, Occ t i node →
      P.m_equal (P.keyOf node) (P.m_get_key_from_value v) = false) (fuel : Nat)
    (hfuel : (t.m_table_info.table_size + 1) * UINT32_MAX < fuel) :
    ∃ t', Insert P fuel t v = Exec.ok (t', none, false) ∧
      t'.m_table_info.key_num = t.m_table_info.key_num := by
  have hI := fillInv_init hF hnz v (v :: S) (fun a ha => List.mem_cons_of_mem v ha)
    (List.mem_cons_self v S) habs
  obtain ⟨r, hr⟩ := fill_returns hP hI fuel hfuel
  have key := whileLoop_inv (InternalInsert.body P) (I := FillInv P (v :: S) t.m_table_info)
    (Q := fun r : Table Value × Option Nat × Bool =>
      r.2 = (none, false) ∧ r.1.m_table_info.key_num = t.m_table_info.key_num)
    (fun s s' hs hb => (fillInv_next hP hs hb).1)
    (by
      intro s r hs hb
      obtain ⟨node, hget, hcase⟩ := insert_body_done hb
      rcases hcase with ⟨_, _, rfl⟩ | ⟨_, hfree, rfl⟩ | ⟨hne, heq, rfl⟩
      · exact ⟨rfl, hs.key_eq⟩
      · have h1 := hs.key_eq
        have h2 := hs.max_eq
        omega
      · have := hs.absent s.slot node ⟨hget, hne⟩
        rw [heq] at this
        cases this)
    fuel _ _ hI hr
  obtain ⟨t', p⟩ := r
  obtain ⟨h1, h2⟩ := key
  simp only at h1 h2
  subst h1
  refine ⟨t', ?_, h2⟩
  unfold Insert InternalInsert
  rw [if_neg hnz]
  exact hr

/-! ### Capacity ceiling -/

theorem tableSizeOf_zero : tableSizeOf 0 DEFAULT_MAX_LOAD_FACTOR = 0 := by
  norm_num [tableSizeOf, roundFloat]

theorem twoKeyTable_run : InsertRun intSet (Init 2 (1 / 2) zeroMem) [0, 1] twoKeyTable := by
  have h1 : Insert intSet 1 (Init 2 (1 / 2) zeroMem) 0 =
      Exec.ok
        ({ m_table_info := { key_num := 1, lpsl := 0, max_key_num := 2, table_size := 4 },
           m_table := [{ psl := 0, value := 0 }, { psl := UINT32_MAX, value := 0 },
             { psl := UINT32_MAX, value := 0 }, { psl := UINT32_MAX, value := 0 }] },
          some 0, true) := by
    simp only [Init, tableSizeOf_two_half]
    decide
  exact ⟨1, _, some 0, h1, 1, twoKeyTable, some 1, by decide, rfl⟩

theorem twoKeyTable_absent_four :
    ∀ i node, Occ twoKeyTable i node →
      intSet.m_equal (intSet.keyOf node) (intSet.m_get_key_from_value 4) = false := by
  intro i node h
  have hi : i < 4 := occ_lt h
  obtain ⟨h1, h2⟩ := h
  interval_cases i <;> simp [twoKeyTable] at h1 <;> subst h1 <;>
    first
      | exact absurd rfl h2
      | rfl

/-- C6, amended: for every table produced by an `Init` that yields
`table_size >= 1` and a lawful key policy, after `max_key_num` successful
insertions of values with pairwise different keys, `Insert` of a further value
whose key is in no occupied slot returns `(nullptr, false)` (given enough passes
of its loop) and `key_num` is unchanged. -/
theorem C6_capacity_ceiling (P : Policy Key Value) (hP : P.Lawful) (max_key_num : Nat)
    (lf : ℚ) (raw : Nat → Value) (hsize : 0 < tableSizeOf max_key_num lf) (vs : List Value)
    (t : Table Value) (hrun : InsertRun P (Init max_key_num lf raw) vs t)
    (hlen : vs.length = max_key_num % 2 ^ 32)
    (hdist : vs.Pairwise fun a b =>
      P.m_equal (P.m_get_key_from_value a) (P.m_get_key_from_value b) = false)
    (v : Value)
    (hv : ∀ i node, Occ t i node →
      P.m_equal (P.keyOf node) (P.m_get_key_from_value v) = false)
    (fuel : Nat) (hfuel : (tableSizeOf max_key_num lf + 1) * UINT32_MAX < fuel) :
    ∃ t', Insert P fuel t v = Exec.ok (t', none, false) ∧
      t'.m_table_info.key_num = t.m_table_info.key_num := by
  obtain ⟨hF, hs, hm⟩ := fill_run hP vs [] _ t
    (fillState_init P (max_key_num % 2 ^ 32) (tableSizeOf max_key_num lf) raw
      (Nat.mod_lt _ (by norm_num)))
    (fun a ha => absurd ha (List.not_mem_nil a)) hdist hrun
  rw [List.nil_append] at hF
  have hs' : t.m_table_info.table_size = tableSizeOf max_key_num lf := hs
  have hm' : t.m_table_info.max_key_num = max_key_num % 2 ^ 32 := hm
  refine fill_full hP hF (by omega) ?_ v hv fuel (by rw [hs']; exact hfuel)
  rw [hF.key_num_eq, hm', hlen]

/-- The amended C6 on `Init(2, 0.5)` after `Insert` of 0 and 1: `Insert(4)` returns
`(nullptr, false)` and `key_num` stays 2. -/
theorem C6_capacity_ceiling_witness :
    InsertRun intSet (Init 2 (1 / 2) zeroMem) [0, 1] twoKeyTable ∧
      (∀ i node, Occ twoKeyTable i node →
        intSet.m_equal (intSet.keyOf node) (intSet.m_get_key_from_value 4) = false) ∧
      ∃ t', Insert intSet (5 * UINT32_MAX + 1) twoKeyTable 4 = Exec.ok (t', none, false) ∧
        t'.m_table_info.key_num = twoKeyTable.m_table_info.key_num :=
  ⟨twoKeyTable_run, twoKeyTable_absent_four,
    C6_capacity_ceiling intSet intSet_lawful 2 (1 / 2) zeroMem
      (by rw [tableSizeOf_two_half]; decide) [0, 1] twoKeyTable twoKeyTable_run rfl
      (by decide) 4 twoKeyTable_absent_four (5 * UINT32_MAX + 1)
      (by rw [tableSizeOf_two_half]; decide)⟩

/-- C6, as stated, fails for `Init(0)`: the table has no slot, no insertion is
needed to reach `max_key_num = 0` successful ones, and `Insert` of any value
computes `hash % table_size` with `table_size = 0`; it does not return
`(nullptr, false)`. -/
theorem C6_zero_capacity_divides_by_zero :
    InsertRun intSet (Init 0 DEFAULT_MAX_LOAD_FACTOR zeroMem) []
        (Init 0 DEFAULT_MAX_LOAD_FACTOR zeroMem) ∧
      ([] : List Nat).length = 0 % 2 ^ 32 ∧
      ∀ fuel, Insert intSet fuel (Init 0 DEFAULT_MAX_LOAD_FACTOR zeroMem) 7 =
        Exec.fault Fault.DivideByZero := by
  refine ⟨rfl, rfl, fun fuel => ?_⟩
  simp only [Init, tableSizeOf_zero]
  rfl

/-! ### Invariants that hold for every load factor -/

theorem basicInsertInv_next {P : Policy Key Value} {info : HashTableInfo}
    {s s' : InsertState Value} (hI : BasicInsertInv P info s)
    (hb : InternalInsert.body P s = Step.next s') : BasicInsertInv P info s' := by
  obtain ⟨node, hget, hne, _, hcase⟩ := insert_body_next hb
  have hB := hI.basic
  have hM : UINT32_MAX = 4294967295 := rfl
  have hnle := hB.psl_le _ _ hget
  have hnpos : 0 < s.t.m_table_info.table_size := by have := hI.slot_lt; omega
  have hlen : s.slot < s.t.m_table.length := by rw [hB.length_eq]; exact hI.slot_lt
  have hoccn : Occ s.t s.slot node := ⟨hget, hne⟩
  rcases hcase with ⟨hlt, rfl⟩ | ⟨hle, rfl⟩
  · have hpsl : (node.psl + 1) % 2 ^ 32 = node.psl + 1 := Nat.mod_eq_of_lt (by omega)
    have hocc := occ_set_iff (t := s.t) (s.swapped node).t (x := s.tmp_node) rfl hlen
    refine ⟨⟨?_, hB.max_lt, hB.key_num_le, ?_, ?_, ?_⟩, hI.size_eq, hI.max_eq, hI.key_eq,
      Nat.mod_lt _ hnpos, ?_, ?_⟩
    · show (s.t.m_table.set s.slot s.tmp_node).length = _
      rw [List.length_set]; exact hB.length_eq
    · intro i nd h
      change (s.t.m_table.set s.slot s.tmp_node)[i]? = some nd at h
      rw [List.getElem?_set] at h
      split_ifs at h with h1
      · cases h; exact hI.tmp_le
      · exact hB.psl_le i nd h
    · intro i nd h
      show nd.psl ≤ (if s.tmp_node.psl > s.t.m_table_info.lpsl then s.tmp_node.psl
        else s.t.m_table_info.lpsl)
      rcases (hocc i nd).mp h with ⟨_, h2, _⟩ | ⟨_, h2⟩
      · subst h2; split <;> omega
      · have := hB.lpsl_ge i nd h2
        split <;> omega
    · intro i nd h
      show (P.m_hash (P.keyOf nd) % s.t.m_table_info.table_size + nd.psl) %
        s.t.m_table_info.table_size = i
      rcases (hocc i nd).mp h with ⟨h1, h2, _⟩ | ⟨_, h2⟩
      · subst h1; subst h2; exact hI.tmp_disp
      · exact hB.disp i nd h2
    · show (node.psl + 1) % 2 ^ 32 ≤ UINT32_MAX
      rw [hpsl]; omega
    · show (P.m_hash (P.keyOf node) % s.t.m_table_info.table_size + (node.psl + 1) % 2 ^ 32) %
        s.t.m_table_info.table_size = (s.slot + 1) % s.t.m_table_info.table_size
      rw [hpsl]
      exact disp_succ (hB.disp _ _ hoccn)
  · have hpsl : (s.tmp_node.psl + 1) % 2 ^ 32 = s.tmp_node.psl + 1 :=
      Nat.mod_eq_of_lt (by omega)
    refine ⟨hB, hI.size_eq, hI.max_eq, hI.key_eq, Nat.mod_lt _ hnpos, ?_, ?_⟩
    · show (s.tmp_node.psl + 1) % 2 ^ 32 ≤ UINT32_MAX
      rw [hpsl]; omega
    · show (P.m_hash (P.keyOf s.tmp_node) % s.t.m_table_info.table_size +
        (s.tmp_node.psl + 1) % 2 ^ 32) % s.t.m_table_info.table_size =
        (s.slot + 1) % s.t.m_table_info.table_size
      rw [hpsl]
      exact disp_succ hI.tmp_disp

theorem basicInsertInv_done {P : Policy Key Value} {info : HashTableInfo}
    {s : InsertState Value} (hI : BasicInsertInv P info s)
    {r : Table Value × Option Nat × Bool} (hb : InternalInsert.body P s = Step.done r) :
    Basic P r.1 ∧ r.1.m_table_info.table_size = info.table_size ∧
      r.1.m_table_info.max_key_num = info.max_key_num ∧
      (r.2.2 = true → r.1.m_table_info.key_num = info.key_num + 1) ∧
      (r.2.2 = false → r.1 = s.t ∧ r.1.m_table_info.key_num = info.key_num) := by
  obtain ⟨node, hget, hcase⟩ := insert_body_done hb
  have hB := hI.basic
  have hlen : s.slot < s.t.m_table.length := by rw [hB.length_eq]; exact hI.slot_lt
  rcases hcase with ⟨_, _, rfl⟩ | ⟨hem, hfree, rfl⟩ | ⟨_, _, rfl⟩
  · exact ⟨hB, hI.size_eq, hI.max_eq, (fun h => by cases h), fun _ => ⟨rfl, hI.key_eq⟩⟩
  · have hocc := occ_set_iff (t := s.t) s.placed (x := s.tmp_node) rfl hlen
    have hmax := hB.max_lt
    have hk : (s.t.m_table_info.key_num + 1) % 2 ^ 32 = s.t.m_table_info.key_num + 1 :=
      Nat.mod_eq_of_lt (by omega)
    refine ⟨⟨?_, hmax, ?_, ?_, ?_, ?_⟩, hI.size_eq, hI.max_eq, ?_, fun h => by cases h⟩
    · show (s.t.m_table.set s.slot s.tmp_node).length = _
      rw [List.length_set]; exact hB.length_eq
    · show (s.t.m_table_info.key_num + 1) % 2 ^ 32 ≤ s.t.m_table_info.max_key_num
      rw [hk]; omega
    · intro i nd h
      change (s.t.m_table.set s.slot s.tmp_node)[i]? = some nd at h
      rw [List.getElem?_set] at h
      split_ifs at h with h1
      · cases h; exact hI.tmp_le
      · exact hB.psl_le i nd h
    · intro i nd h
      show nd.psl ≤ (if s.tmp_node.psl > s.t.m_table_info.lpsl then s.tmp_node.psl
        else s.t.m_table_info.lpsl)
      rcases (hocc i nd).mp h with ⟨_, h2, _⟩ | ⟨_, h2⟩
      · subst h2; split <;> omega
      · have := hB.lpsl_ge i nd h2
        split <;> omega
    · intro i nd h
      show (P.m_hash (P.keyOf nd) % s.t.m_table_info.table_size + nd.psl) %
        s.t.m_table_info.table_size = i
      rcases (hocc i nd).mp h with ⟨h1, h2, _⟩ | ⟨_, h2⟩
      · subst h1; subst h2; exact hI.tmp_disp
      · exact hB.disp i nd h2
    · intro _
      show (s.t.m_table_info.key_num + 1) % 2 ^ 32 = info.key_num + 1
      rw [hk, hI.key_eq]
  · exact ⟨hB, hI.size_eq, hI.max_eq, (fun h => by cases h), fun _ => ⟨rfl, hI.key_eq⟩⟩

/-- A call of `Insert` that returns keeps `Basic`, `table_size` and
`max_key_num`; it adds one to `key_num` exactly when it returns
`inserted = true`. -/
theorem insert_basic {P : Policy Key Value} {t t' : Table Value} (hB : Basic P t)
    {fuel : Nat} {v : Value} {r : Option Nat × Bool}
    (h : Insert P fuel t v = Exec.ok (t', r)) :
    Basic P t' ∧ t'.m_table_info.table_size = t.m_table_info.table_size ∧
      t'.m_table_info.max_key_num = t.m_table_info.max_key_num ∧
      (r.2 = true → t'.m_table_info.key_num = t.m_table_info.key_num + 1) ∧
      (r.2 = false → t'.m_table_info.key_num = t.m_table_info.key_num) := by
  unfold Insert InternalInsert at h
  by_cases hnz : t.m_table_info.table_size = 0
  · rw [if_pos hnz] at h; cases h
  · rw [if_neg hnz] at h
    have hnpos := Nat.pos_of_ne_zero hnz
    have hI : BasicInsertInv P t.m_table_info
        { t := t, tmp_node := { psl := 0, value := v },
          slot := P.m_hash (P.m_get_key_from_value v) % t.m_table_info.table_size } :=
      ⟨hB, rfl, rfl, rfl, Nat.mod_lt _ hnpos, Nat.zero_le _, by
        show (_ % _ + 0) % _ = _
        rw [Nat.add_zero, Nat.mod_mod]
        rfl⟩
    have key := whileLoop_inv (InternalInsert.body P) (I := BasicInsertInv P t.m_table_info)
      (Q := fun r : Table Value × Option Nat × Bool =>
        Basic P r.1 ∧ r.1.m_table_info.table_size = t.m_table_info.table_size ∧
          r.1.m_table_info.max_key_num = t.m_table_info.max_key_num ∧
          (r.2.2 = true → r.1.m_table_info.key_num = t.m_table_info.key_num + 1) ∧
          (r.2.2 = false → r.1.m_table_info.key_num = t.m_table_info.key_num))
      (fun s s' hs hb => basicInsertInv_next hs hb)
      (by
        intro s r hs hb
        obtain ⟨h1, h2, h3, h4, h5⟩ := basicInsertInv_done hs hb
        exact ⟨h1, h2, h3, h4, fun hf => (h5 hf).2⟩)
      fuel _ _ hI h
    exact key

theorem basic_markSlotEmpty {P : Policy Key Value} {t : Table Value} (hB : Basic P t)
    (slot : Nat) : Basic P (MarkSlotEmpty t slot) := by
  cases hget : t.m_table[slot]? with
  | none =>
    have : MarkSlotEmpty t slot = t := by
      unfold MarkSlotEmpty
      rw [hget]
    rw [this]; exact hB
  | some hn =>
    have hlen : slot < t.m_table.length := (List.getElem?_eq_some_iff.mp hget).1
    have heq := markSlotEmpty_eq hget
    have hocc := occ_set_iff (t := t) (MarkSlotEmpty t slot)
      (x := { psl := UINT32_MAX, value := hn.value }) (by rw [heq]) hlen
    have hinfo : (MarkSlotEmpty t slot).m_table_info = t.m_table_info := by rw [heq]
    have hsub : ∀ i node, Occ (MarkSlotEmpty t slot) i node → Occ t i node := by
      intro i node h
      rcases (hocc i node).mp h with ⟨_, _, h3⟩ | ⟨_, h2⟩
      · exact absurd rfl h3
      · exact h2
    refine ⟨?_, ?_, ?_, ?_, ?_, ?_⟩
    · rw [hinfo, heq]
      show (t.m_table.set slot _).length = _
      rw [List.length_set]; exact hB.length_eq
    · rw [hinfo]; exact hB.max_lt
    · rw [hinfo]; exact hB.key_num_le
    · intro i nd h
      rw [heq] at h
      change (t.m_table.set slot _)[i]? = some nd at h
      rw [List.getElem?_set] at h
      split_ifs at h with h1
      · cases h; exact Nat.le_refl _
      · exact hB.psl_le i nd h
    · intro i nd h
      rw [hinfo]; exact hB.lpsl_ge i nd (hsub i nd h)
    · intro i nd h
      rw [hinfo]; exact hB.disp i nd (hsub i nd h)

theorem basicRemoveInv_next {P : Policy Key Value} {info : HashTableInfo}
    {s s' : RemoveState Value} (hI : BasicRemoveInv P info s)
    (hb : Remove.body s = Step.next s') : BasicRemoveInv P info s' := by
  obtain ⟨nxt, hget, hne, hpos, hslen, rfl⟩ := remove_body_next hb
  have hB := hI.basic
  have hM : UINT32_MAX = 4294967295 := rfl
  have hnpos : 0 < s.t.m_table_info.table_size := by have := hI.slot_lt; omega
  have hnext_lt : s.next_slot < s.t.m_table_info.table_size := by
    rw [hI.next_eq]; exact Nat.mod_lt _ hnpos
  have hoccnxt : Occ s.t s.next_slot nxt := ⟨hget, hne⟩
  have hqle := hB.psl_le _ _ hget
  have hocc := occ_set_iff (t := s.t) (s.shifted nxt).t
    (x := { psl := nxt.psl - 1, value := nxt.value }) rfl hslen
  have hxdisp : (P.m_hash (P.keyOf nxt) % s.t.m_table_info.table_size + (nxt.psl - 1)) %
      s.t.m_table_info.table_size = s.slot := by
    apply succ_mod_inj (Nat.mod_lt _ hnpos) hI.slot_lt
    rw [← disp_succ rfl, ← hI.next_eq]
    have : nxt.psl - 1 + 1 = nxt.psl := by omega
    rw [this]
    exact hB.disp _ _ hoccnxt
  refine ⟨⟨?_, hB.max_lt, hB.key_num_le, ?_, ?_, ?_⟩, hI.info_eq, hnext_lt, rfl⟩
  · show (s.t.m_table.set s.slot _).length = _
    rw [List.length_set]; exact hB.length_eq
  · intro i nd h
    change (s.t.m_table.set s.slot _)[i]? = some nd at h
    rw [List.getElem?_set] at h
    split_ifs at h with h1
    · cases h
      show nxt.psl - 1 ≤ UINT32_MAX
      omega
    · exact hB.psl_le i nd h
  · intro i nd h
    show nd.psl ≤ s.t.m_table_info.lpsl
    rcases (hocc i nd).mp h with ⟨_, h2, _⟩ | ⟨_, h2⟩
    · subst h2
      have := hB.lpsl_ge _ _ hoccnxt
      show nxt.psl - 1 ≤ _
      omega
    · exact hB.lpsl_ge i nd h2
  · intro i nd h
    show (P.m_hash (P.keyOf nd) % s.t.m_table_info.table_size + nd.psl) %
      s.t.m_table_info.table_size = i
    rcases (hocc i nd).mp h with ⟨h1, h2, _⟩ | ⟨_, h2⟩
    · subst h1; subst h2; exact hxdisp
    · exact hB.disp i nd h2

/-- A call of `Remove` that returns keeps `Basic` and the whole header. -/
theorem remove_basic {P : Policy Key Value} {t t' : Table Value} (hB : Basic P t)
    {fuel : Nat} {k : Key} (h : Remove P fuel t k = Exec.ok t') :
    Basic P t' ∧ t'.m_table_info = t.m_table_info := by
  unfold Remove at h
  cases hr : InternalLookup P t k with
  | fault f => rw [hr] at h; cases h
  | ok r =>
    rw [hr] at h
    simp only at h
    by_cases hrM : r = UINT32_MAX
    · rw [if_pos hrM] at h
      cases h
      exact ⟨hB, rfl⟩
    · rw [if_neg hrM] at h
      unfold InternalLookup at hr
      by_cases hnz : t.m_table_info.table_size = 0
      · rw [if_pos hnz] at hr; cases hr
      · rw [if_neg hnz] at hr
        obtain ⟨node, hget, _, _⟩ := lookup_loop_result P t k _ _ _ r hr hrM
        have hrlt : r < t.m_table_info.table_size := by
          rw [← hB.length_eq]; exact (List.getElem?_eq_some_iff.mp hget).1
        exact whileLoop_inv Remove.body (I := BasicRemoveInv P t.m_table_info)
          (Q := fun r' : Table Value => Basic P r' ∧ r'.m_table_info = t.m_table_info)
          (fun s s' hs hb => basicRemoveInv_next hs hb)
          (by
            intro s r' hs hb
            obtain ⟨nxt, _, _, rfl⟩ := remove_body_done hb
            refine ⟨basic_markSlotEmpty hs.basic _, ?_⟩
            rw [← hs.info_eq]
            unfold MarkSlotEmpty
            split <;> rfl)
          fuel _ _ ⟨hB, rfl, hrlt, rfl⟩ h

theorem initWith_basic (P : Policy Key Value) (m n : Nat) (raw : Nat → Value)
    (hm : m < 2 ^ 32) : Basic P (InitWith m n raw) := by
  refine ⟨?_, hm, Nat.zero_le _, ?_, ?_, ?_⟩
  · simp [InitWith]
  · intro i node h
    rw [initWith_get h]
  · intro i node h
    exact absurd (initWith_get h.1) h.2
  · intro i node h
    exact absurd (initWith_get h.1) h.2

/-- Every table reachable from `Init`, for every load factor and every key
policy, satisfies `Basic` and keeps the `table_size` and `max_key_num` that
`Init` stored. -/
theorem reachable_basic (P : Policy Key Value) (m : Nat) (lf : ℚ) (raw : Nat → Value)
    {t : Table Value} (h : Reachable P (Init m lf raw) t) :
    Basic P t ∧ t.m_table_info.table_size = tableSizeOf m lf ∧
      t.m_table_info.max_key_num = m % 2 ^ 32 := by
  induction h with
  | init => exact ⟨initWith_basic P _ _ raw (Nat.mod_lt _ (by norm_num)), rfl, rfl⟩
  | insert _ hins ih =>
    obtain ⟨h1, h2, h3, _, _⟩ := insert_basic ih.1 hins
    exact ⟨h1, h2.trans ih.2.1, h3.trans ih.2.2⟩
  | remove _ hrem ih =>
    obtain ⟨h1, h2⟩ := remove_basic ih.1 hrem
    exact ⟨h1, by rw [h2]; exact ih.2.1, by rw [h2]; exact ih.2.2⟩

/-- C15: in every table state reachable from `Init`, for every load factor and
key policy, every occupied slot has `psl ≤ lpsl`. -/
theorem C15_lpsl_bounds_every_psl (P : Policy Key Value) (max_key_num : Nat) (lf : ℚ)
    (raw : Nat → Value) (t : Table Value)
    (hreach : Reachable P (Init max_key_num lf raw) t) (i : Nat) (node : HashNode Value)
    (hocc : Occ t i node) : node.psl ≤ t.m_table_info.lpsl :=
  (reachable_basic P max_key_num lf raw hreach).1.lpsl_ge i node hocc

/-- C15 on the table reached from `Init(3)` by `Insert` of 0, 1, 3, 4: the
occupied slot 2 has probe length `UINT32_MAX - 1`, and `lpsl` is
`UINT32_MAX`. -/
theorem C15_lpsl_bounds_every_psl_witness :
    Occ overflowTable 2 { psl := UINT32_MAX - 1, value := 0 } ∧
      (UINT32_MAX - 1 : Nat) ≤ overflowTable.m_table_info.lpsl :=
  ⟨⟨by decide, by decide⟩,
    C15_lpsl_bounds_every_psl intSet 3 DEFAULT_MAX_LOAD_FACTOR zeroMem overflowTable
      overflow_reachable 2 { psl := UINT32_MAX - 1, value := 0 } ⟨by decide, by decide⟩⟩

/-! ### Claim C16 -/

theorem shiftedTable_reachable :
    Reachable intSet (Init 3 DEFAULT_MAX_LOAD_FACTOR zeroMem) shiftedTable :=
  Reachable.remove overflow_reachable
    (show Remove intSet 2 overflowTable 1 = Exec.ok shiftedTable from rfl)

theorem homeTable_reachable :
    Reachable intSet (Init 3 DEFAULT_MAX_LOAD_FACTOR zeroMem) homeTable :=
  Reachable.remove shiftedTable_reachable
    (show Remove intSet 2 shiftedTable 3 = Exec.ok homeTable from rfl)

/-- C16, amended: in every table state reachable from `Init`, for every load
factor and key policy, every occupied slot `i` satisfies
`(hash(key) mod table_size + psl) mod table_size = i`, and `psl = 0` implies
that the entry sits in its home slot; an entry in its home slot has `psl = 0`
when the key policy is lawful and `Init` yields `max_key_num < table_size`. -/
theorem C16_psl_is_displacement (P : Policy Key Value) (max_key_num : Nat) (lf : ℚ)
    (raw : Nat → Value) (t : Table Value)
    (hreach : Reachable P (Init max_key_num lf raw) t) (i : Nat) (node : HashNode Value)
    (hocc : Occ t i node) :
    (P.m_hash (P.keyOf node) % t.m_table_info.table_size + node.psl) %
        t.m_table_info.table_size = i ∧
      (node.psl = 0 → i = P.m_hash (P.keyOf node) % t.m_table_info.table_size) ∧
      (P.Lawful → max_key_num % 2 ^ 32 < tableSizeOf max_key_num lf →
        i = P.m_hash (P.keyOf node) % t.m_table_info.table_size → node.psl = 0) := by
  have hB := (reachable_basic P max_key_num lf raw hreach).1
  have hd := hB.disp i node hocc
  refine ⟨hd, ?_, ?_⟩
  · intro h0
    rw [h0, Nat.add_zero, Nat.mod_mod] at hd
    exact hd.symm
  · intro hP hcap hi
    obtain ⟨hlt, hd'⟩ := (reachable_wf hP hcap hreach).disp i node hocc
    have hnpos : 0 < t.m_table_info.table_size := by omega
    have hh := Nat.mod_lt (P.m_hash (P.keyOf node)) hnpos
    rw [mod_two_cases _ _ (by omega)] at hd'
    split at hd' <;> omega

/-- The amended C16 on the table holding 12 after `Init(10)`: 12 sits in slot
`12 mod 11 = 1` with `psl = 0`. -/
theorem C16_psl_is_displacement_witness :
    Occ oneKeyTable 1 { psl := 0, value := 12 } ∧
      (12 % 11 + 0) % 11 = 1 ∧ ((0 : Nat) = 0 → 1 = 12 % 11) ∧ (1 = 12 % 11 → (0 : Nat) = 0) := by
  have h := C16_psl_is_displacement intSet 10 DEFAULT_MAX_LOAD_FACTOR zeroMem oneKeyTable
    oneKeyTable_reachable 1 { psl := 0, value := 12 } oneKeyTable_occ
  exact ⟨oneKeyTable_occ, h.1, h.2.1, h.2.2 intSet_lawful ten_lt_tableSizeOf⟩

/-- C16, as stated, fails in its second half: after `Init(3)` with the default
load factor, `Insert` of 0, 1, 3, 4, `Remove(1)` and `Remove(3)`, the value 0
sits in slot 0, the home slot of key 0, with `psl = UINT32_MAX - 3`. -/
theorem C16_home_slot_with_nonzero_psl :
    Reachable intSet (Init 3 DEFAULT_MAX_LOAD_FACTOR zeroMem) homeTable ∧
      Occ homeTable 0 { psl := UINT32_MAX - 3, value := 0 } ∧
      intSet.m_hash (intSet.keyOf { psl := UINT32_MAX - 3, value := 0 }) %
        homeTable.m_table_info.table_size = 0 ∧
      (UINT32_MAX - 3 : Nat) ≠ 0 :=
  ⟨homeTable_reachable, ⟨by decide, by decide⟩, by decide, by decide⟩

/-! ### Claim C17 -/

theorem pred_succ_mod {i n : Nat} (hi : i < n) : ((i + n - 1) % n + 1) % n = i := by
  rw [mod_two_cases (i + n - 1) n (by omega)]
  split
  · have h0 : i = 0 := by omega
    subst h0
    have : 0 + n - 1 + 1 = n := by omega
    rw [this, Nat.mod_self]
  · have : i + n - 1 - n + 1 = i := by omega
    rw [this, Nat.mod_eq_of_lt hi]

/-- On a table satisfying the invariant, the scan of `InternalLookup` for a key
stored in the occupied slot `s0`, started `d` slots before `s0` on the probe
path, returns `s0` when it is allowed more than `d` passes. -/
theorem lookup_loop_reaches {P : Policy Key Value} (hP : P.Lawful) {t : Table Value}
    (hwf : WF P t) {s0 : Nat} {node0 : HashNode Value} (h0 : Occ t s0 node0) (k : Key)
    (heq : P.m_equal k (P.keyOf node0) = true) :
    ∀ d j, j + d = node0.psl → ∀ remaining, d < remaining →
      InternalLookup.loop P t k remaining j
        ((P.m_hash k % t.m_table_info.table_size + j) % t.m_table_info.table_size) =
        Exec.ok s0 := by
  have hhash : P.m_hash k = P.m_hash (P.keyOf node0) := hP.hash_eq _ _ heq
  obtain ⟨hplt, hpdisp⟩ := hwf.disp s0 node0 h0
  intro d
  induction d with
  | zero =>
    intro j hj remaining hrem
    obtain ⟨f, rfl⟩ : ∃ f, remaining = f + 1 := ⟨remaining - 1, by omega⟩
    have hslot : (P.m_hash k % t.m_table_info.table_size + j) %
        t.m_table_info.table_size = s0 := by
      rw [hhash]
      have : j = node0.psl := by omega
      rw [this]
      exact hpdisp
    have heq' : P.m_equal k (P.m_get_key_from_value node0.value) = true := heq
    rw [InternalLookup.loop, hslot, h0.1]
    simp only
    rw [if_pos heq']
  | succ d ih =>
    intro j hj remaining hrem
    obtain ⟨f, rfl⟩ : ∃ f, remaining = f + 1 := ⟨remaining - 1, by omega⟩
    obtain ⟨nd, hocc, hle⟩ := chain_back hwf h0 (d + 1) (by omega)
    have hj' : node0.psl - (d + 1) = j := by omega
    rw [hj', ← hhash] at hocc
    obtain ⟨nd', hocc', hle'⟩ := chain_back hwf h0 d (by omega)
    have hj'' : node0.psl - d = j + 1 := by omega
    rw [hj'', ← hhash] at hocc'
    rw [hj''] at hle'
    have hneq : (P.m_hash k % t.m_table_info.table_size + j) %
        t.m_table_info.table_size ≠ s0 := by
      rw [← hpdisp, hhash]
      exact add_mod_ne (by omega) hplt
    have hkey : P.m_equal k (P.keyOf nd) = false := by
      cases hc : P.m_equal k (P.keyOf nd) with
      | false => rfl
      | true =>
        have h1 := hP.equal_trans _ _ _ (hP.equal_symm _ _ hc) heq
        rw [hwf.uniq _ s0 nd node0 hocc h0 hneq] at h1
        cases h1
    have hs : ((P.m_hash k % t.m_table_info.table_size + j) %
        t.m_table_info.table_size + 1) % t.m_table_info.table_size =
        (P.m_hash k % t.m_table_info.table_size + (j + 1)) %
          t.m_table_info.table_size := (disp_succ rfl).symm
    have hstop : (SlotIsEmpty nd' || decide (j > nd'.psl)) = false := by
      rw [Bool.or_eq_false_iff]
      exact ⟨(slotIsEmpty_false_iff nd').mpr hocc'.2, decide_eq_false (by omega)⟩
    have hkey' : P.m_equal k (P.m_get_key_from_value nd.value) = false := hkey
    rw [InternalLookup.loop, hocc.1]
    simp only
    rw [hkey', hs, hocc'.1]
    simp only [hstop]
    exact ih (j + 1) (by omega) f (by omega)

/-- C17, amended: in every table state reachable from an `Init` that yields
`max_key_num < table_size`, for a lawful key policy and every occupied slot `i`
with probe length `p`: if `p > 0` the cyclically preceding slot is occupied with
probe length at least `p - 1`; every slot at distance `d ≤ p` from the home slot
on the probe path is occupied with probe length at least `d`; and the scan of
`InternalLookup` for the stored key, allowed more than `p` passes, is not
stopped by the early-termination test and returns `i`. -/
theorem C17_probe_chain (P : Policy Key Value) (hP : P.Lawful)
    (max_key_num : Nat) (lf : ℚ) (raw : Nat → Value)
    (hcap : max_key_num % 2 ^ 32 < tableSizeOf max_key_num lf) (t : Table Value)
    (hreach : Reachable P (Init max_key_num lf raw) t) (i : Nat) (node : HashNode Value)
    (hocc : Occ t i node) :
    (0 < node.psl → ∃ prev : HashNode Value,
        Occ t ((i + t.m_table_info.table_size - 1) % t.m_table_info.table_size) prev ∧
          node.psl - 1 ≤ prev.psl) ∧
      (∀ d, d ≤ node.psl → ∃ nd : HashNode Value,
        Occ t ((P.m_hash (P.keyOf node) % t.m_table_info.table_size + d) %
          t.m_table_info.table_size) nd ∧ d ≤ nd.psl) ∧
      (∀ k, P.m_equal k (P.keyOf node) = true → ∀ remaining, node.psl < remaining →
        InternalLookup.loop P t k remaining 0 (P.m_hash k % t.m_table_info.table_size) =
          Exec.ok i) := by
  have hwf := reachable_wf hP hcap hreach
  have hi : i < t.m_table_info.table_size := by
    rw [← hwf.length_eq]; exact occ_lt hocc
  refine ⟨?_, ?_, ?_⟩
  · intro hpos
    have hpl : (i + t.m_table_info.table_size - 1) % t.m_table_info.table_size <
        t.m_table_info.table_size := Nat.mod_lt _ (by omega)
    have hocc' : Occ t (((i + t.m_table_info.table_size - 1) % t.m_table_info.table_size + 1) %
        t.m_table_info.table_size) node := by
      rw [pred_succ_mod hi]; exact hocc
    obtain ⟨prev, hp, hle⟩ := hwf.chain _ node hpl hocc' hpos
    exact ⟨prev, hp, by omega⟩
  · intro d hd
    obtain ⟨nd, h1, h2⟩ := chain_back hwf hocc (node.psl - d) (by omega)
    have : node.psl - (node.psl - d) = d := by omega
    rw [this] at h1 h2
    exact ⟨nd, h1, h2⟩
  · intro k hk remaining hrem
    have h := lookup_loop_reaches hP hwf hocc k hk node.psl 0 (by omega) remaining hrem
    rw [Nat.add_zero, Nat.mod_mod] at h
    exact h

/-! ### The overflow run with a load factor above one -/

theorem tableSizeOf_six_two : tableSizeOf 6 2 = 3 := by
  unfold tableSizeOf
  have h1 : roundFloat ((6 % 2 ^ 32 : Nat) : ℚ) = 6 := by
    rw [roundFloat_eq _ 2 (by norm_num) (by norm_num) (by norm_num) (by norm_num)]
    norm_num [roundHalfEven]
  rw [h1, roundFloat_eq _ 1 (by norm_num) (by norm_num) (by norm_num) (by norm_num)]
  norm_num [roundHalfEven]
  rfl

theorem fullTable6_inserts :
    tableAfterInserts intSet 10 (Init 6 2 zeroMem) [0, 1, 3] = Exec.ok fullTable6 := by
  simp only [Init, tableSizeOf_six_two]
  decide

theorem fullTable6_reachable : Reachable intSet (Init 6 2 zeroMem) fullTable6 :=
  reachable_tableAfterInserts fullTable6_inserts

theorem overflow6_start :
    runBounded intSet 16 9
      { t := fullTable6, tmp_node := { psl := 0, value := 4 }, slot := 1 } =
      some overflowBase6 := by
  decide

theorem overflow6_period :
    runBounded intSet 16 48 overflowBase6 = some (overflowBase6.shift 12) := by
  decide

theorem overflow6_periods :
    ∀ j, 12 * j + 5 < UINT32_MAX → ∀ f,
      whileLoop (InternalInsert.body intSet) (48 * j + f) overflowBase6 =
        whileLoop (InternalInsert.body intSet) f (overflowBase6.shift (12 * j)) := by
  intro j
  induction j with
  | zero =>
    intro _ f
    simp only [Nat.mul_zero, Nat.zero_add, shift_zero]
  | succ j ih =>
    intro hj f
    have hM : UINT32_MAX = 4294967295 := rfl
    rw [show 48 * (j + 1) + f = 48 * j + (48 + f) by omega, ih (by omega) (48 + f)]
    have := runBounded_shift (P := intSet) (B := 16) (d := 12 * j) (by omega) 48 _ _
      overflow6_period f
    rw [this, shift_shift]
    congr 2
    omega

theorem overflow6_finish :
    whileLoop (InternalInsert.body intSet) 49 (overflowBase6.shift (12 * 357913940)) =
      Exec.ok (overflowTable6, some 1, true) := by
  decide

/-- The call `Insert(4)` on `fullTable6` returns `(pointer into slot 1, true)`
after `overflowFuel` passes and leaves `overflowTable6`: the node it stores
has `psl = UINT32_MAX`, which is the mark of an empty slot. -/
theorem overflow6_insert :
    Insert intSet overflowFuel fullTable6 4 = Exec.ok (overflowTable6, some 1, true) := by
  have h1 := runBounded_shift (P := intSet) (B := 16) (d := 0) (by decide) 9 _ _ overflow6_start
    (48 * 357913940 + 49)
  rw [shift_zero, shift_zero] at h1
  have h2 := overflow6_periods 357913940 (by decide) 49
  have hf : overflowFuel = 9 + (48 * 357913940 + 49) := by
    unfold overflowFuel
    omega
  have hslot : intSet.m_hash (intSet.m_get_key_from_value (4 : Nat)) %
      fullTable6.m_table_info.table_size = 1 := by decide
  have hnz : ¬ fullTable6.m_table_info.table_size = 0 := by decide
  unfold Insert InternalInsert
  rw [if_neg hnz, hslot, hf, h1, h2, overflow6_finish]

theorem overflowTable6_reachable : Reachable intSet (Init 6 2 zeroMem) overflowTable6 :=
  Reachable.insert fullTable6_reachable overflow6_insert

theorem duplicateTable_reachable : Reachable intSet (Init 6 2 zeroMem) duplicateTable :=
  Reachable.insert overflowTable6_reachable
    (show Insert intSet 1 overflowTable6 0 = Exec.ok (duplicateTable, some 0, true) by decide)

theorem collisionTable_reachable :
    Reachable intSet (Init 10 DEFAULT_MAX_LOAD_FACTOR zeroMem) collisionTable := by
  have h : tableAfterInserts intSet 2 (Init 10 DEFAULT_MAX_LOAD_FACTOR zeroMem) [12, 1] =
      Exec.ok collisionTable := by
    simp only [Init, tableSizeOf_ten]
    decide
  exact reachable_tableAfterInserts h

/-! ### Claim C17: concrete runs -/

/-- The amended C17 on the table holding 12 and 1 after `Init(10)`: the value 1
sits in slot 2 with `psl = 1`, the preceding slot 1 is occupied, and the scan
for key 1 from its home slot 1 returns slot 2 within two passes. -/
theorem C17_probe_chain_witness :
    Occ collisionTable 2 { psl := 1, value := 1 } ∧
      (∃ prev : HashNode Nat, Occ collisionTable 1 prev ∧ 1 - 1 ≤ prev.psl) ∧
      (∃ nd : HashNode Nat, Occ collisionTable 2 nd ∧ 1 ≤ nd.psl) ∧
      InternalLookup.loop intSet collisionTable 1 2 0 1 = Exec.ok 2 := by
  have hocc : Occ collisionTable 2 { psl := 1, value := 1 } := ⟨by decide, by decide⟩
  have h := C17_probe_chain intSet intSet_lawful 10 DEFAULT_MAX_LOAD_FACTOR zeroMem
    ten_lt_tableSizeOf collisionTable collisionTable_reachable 2 { psl := 1, value := 1 } hocc
  exact ⟨hocc, h.1 (by decide), h.2.1 1 (by decide), h.2.2 1 rfl 2 (by decide)⟩

/-- C17, as stated, fails: in the table reached by `Init(3)` with the default
load factor and `Insert` of 0, 1, 3, 4, slot 2 is occupied with
`psl = UINT32_MAX - 1 > 0` while the preceding slot 1 is marked empty, and the
scan for the stored key 0 stops at once and reports the key as missing. -/
theorem C17_chain_broken_after_overflow :
    Reachable intSet (Init 3 DEFAULT_MAX_LOAD_FACTOR zeroMem) overflowTable ∧
      Occ overflowTable 2 { psl := UINT32_MAX - 1, value := 0 } ∧
      0 < (UINT32_MAX - 1 : Nat) ∧
      (2 + overflowTable.m_table_info.table_size - 1) % overflowTable.m_table_info.table_size
        = 1 ∧
      (¬ ∃ prev : HashNode Nat, Occ overflowTable 1 prev) ∧
      Lookup intSet overflowTable 0 = Exec.ok none := by
  refine ⟨overflow_reachable, ⟨by decide, by decide⟩, by decide, by decide, ?_, rfl⟩
  rintro ⟨prev, h1, h2⟩
  have : prev = { psl := UINT32_MAX, value := 1 } := by
    have h3 : overflowTable.m_table[1]? = some { psl := UINT32_MAX, value := 1 } := by decide
    rw [h3] at h1
    cases h1
    rfl
  exact h2 (by rw [this])

/-! ### The multiset of stored values -/

theorem occList_cons (a : HashNode Value) (l : List (HashNode Value)) :
    ((occList (a :: l) : List Value) : Multiset Value) = nodeValues a + (occList l : List Value) := by
  unfold occList nodeValues
  cases h : SlotIsEmpty a with
  | true => simp [List.filter_cons, h]
  | false =>
    simp only [List.filter_cons, h, Bool.not_false, if_true, List.map_cons, Bool.false_eq_true,
      if_false]
    rw [← Multiset.cons_coe, Multiset.singleton_add]

theorem occList_set (l : List (HashNode Value)) :
    ∀ (i : Nat) (old x : HashNode Value), l[i]? = some old →
      ((occList (l.set i x) : List Value) : Multiset Value) + nodeValues old =
        (occList l : List Value) + nodeValues x := by
  induction l with
  | nil => intro i old x h; simp at h
  | cons a l ih =>
    intro i old x h
    cases i with
    | zero =>
      simp only [List.getElem?_cons_zero, Option.some.injEq] at h
      subst h
      rw [List.set_cons_zero, occList_cons, occList_cons]
      abel
    | succ i =>
      simp only [List.getElem?_cons_succ] at h
      rw [List.set_cons_succ, occList_cons, occList_cons, add_assoc, ih i old x h]
      abel

theorem occValues_set {t t' : Table Value} {i : Nat} {old x : HashNode Value}
    (ht : t'.m_table = t.m_table.set i x) (hold : t.m_table[i]? = some old) :
    occValues t' + nodeValues old = occValues t + nodeValues x := by
  unfold occValues
  rw [ht]
  exact occList_set t.m_table i old x hold

theorem nodeValues_occ (nd : HashNode Value) (h : nd.psl ≠ UINT32_MAX) :
    nodeValues nd = {nd.value} := by
  unfold nodeValues
  rw [(slotIsEmpty_false_iff nd).mpr h]
  rfl

theorem nodeValues_empty (nd : HashNode Value) (h : nd.psl = UINT32_MAX) :
    nodeValues nd = 0 := by
  unfold nodeValues
  rw [(slotIsEmpty_iff nd).mpr h]
  rfl

theorem occValues_markSlotEmpty (t : Table Value) {slot : Nat} {hn : HashNode Value}
    (h : t.m_table[slot]? = some hn) :
    occValues (MarkSlotEmpty t slot) + nodeValues hn = occValues t := by
  have h1 : occValues (MarkSlotEmpty t slot) + nodeValues hn =
      occValues t + nodeValues { hn with psl := UINT32_MAX } :=
    occValues_set (by rw [markSlotEmpty_eq h]) h
  rw [nodeValues_empty { hn with psl := UINT32_MAX } rfl, add_zero] at h1
  exact h1

/-! ### Stored values under `Insert` when the table is larger than the capacity -/

/-- On a table satisfying the invariant, a call of `Insert(v)` that returns
`inserted = true` adds `v` to the multiset of stored values and changes nothing
else in it. -/
theorem insert_values {P : Policy Key Value} (hP : P.Lawful) {t t' : Table Value}
    (hwf : WF P t) {fuel : Nat} {v : Value} {r : Option Nat × Bool}
    (h : Insert P fuel t v = Exec.ok (t', r)) (hr : r.2 = true) :
    occValues t' = v ::ₘ occValues t := by
  rcases present_or_absent P t v with ⟨s0, node0, h0, heq⟩ | habs
  · have h1 := insert_present hP hwf h0 v heq (max fuel (node0.psl + 1)) (by omega)
    have hnz : t.m_table_info.table_size ≠ 0 := by
      have := (hwf.disp s0 node0 h0).1
      omega
    unfold Insert InternalInsert at h h1
    rw [if_neg hnz] at h h1
    have h2 := whileLoop_mono _ _ _ h (max fuel (node0.psl + 1)) (by omega)
    rw [h1] at h2
    cases h2
    cases hr
  · obtain ⟨e, hI⟩ := insertInv_init hwf v habs
    have hnz : t.m_table_info.table_size ≠ 0 := by
      have := hI.e_lt
      exact fun h0 => by simp [h0] at this
    unfold Insert InternalInsert at h
    rw [if_neg hnz] at h
    have hM : UINT32_MAX = 4294967295 := rfl
    have key := whileLoop_inv (InternalInsert.body P)
      (I := fun s => InsertInv P e s ∧
        occValues s.t + {s.tmp_node.value} = occValues t + {v})
      (Q := fun r : Table Value × Option Nat × Bool =>
        r.2.2 = true → occValues r.1 = v ::ₘ occValues t)
      ?_ ?_ fuel _ _ ⟨hI, rfl⟩ h
    · exact key hr
    · intro s s' ⟨hs, hinv⟩ hb
      refine ⟨(insertInv_next hP hs hb).1, ?_⟩
      obtain ⟨node, hget, hne, _, hc⟩ := insert_body_next hb
      rcases hc with ⟨_, rfl⟩ | ⟨_, rfl⟩
      · have htmp : s.tmp_node.psl ≠ UINT32_MAX := by
          have h1 := hs.ahead
          have h2 := hs.wf.size_lt
          omega
        have h1 : occValues (s.swapped node).t + nodeValues node =
            occValues s.t + nodeValues s.tmp_node := occValues_set rfl hget
        rw [nodeValues_occ node hne, nodeValues_occ s.tmp_node htmp] at h1
        exact h1.trans hinv
      · exact hinv
    · intro s r' ⟨hs, hinv⟩ hb
      obtain ⟨node, hget, hc⟩ := insert_body_done hb
      rcases hc with ⟨_, _, rfl⟩ | ⟨hem, _, rfl⟩ | ⟨_, _, rfl⟩
      · intro hf; cases hf
      · intro _
        have htmp : s.tmp_node.psl ≠ UINT32_MAX := by
          have h1 := hs.ahead
          have h2 := hs.wf.size_lt
          omega
        have h1 : occValues s.placed + nodeValues node =
            occValues s.t + nodeValues s.tmp_node := occValues_set rfl hget
        rw [nodeValues_empty node hem, add_zero, nodeValues_occ s.tmp_node htmp] at h1
        show occValues s.placed = v ::ₘ occValues t
        rw [h1, hinv, ← Multiset.singleton_add, add_comm]
      · intro hf; cases hf

/-! ### Claim C20 -/

theorem removeStep_values {s : RemoveState Value} {nxt : HashNode Value}
    (hget : s.t.m_table[s.next_slot]? = some nxt) (hne : nxt.psl ≠ UINT32_MAX)
    (hle : nxt.psl ≤ UINT32_MAX) (hpos : 0 < nxt.psl) (hslen : s.slot < s.t.m_table.length) :
    occValues (MarkSlotEmpty (s.shifted nxt).t (s.shifted nxt).slot) =
      occValues (MarkSlotEmpty s.t s.slot) := by
  have hM : UINT32_MAX = 4294967295 := rfl
  obtain ⟨hn, hhn⟩ : ∃ hn, s.t.m_table[s.slot]? = some hn :=
    ⟨_, List.getElem?_eq_getElem hslen⟩
  have hx : (nxt.psl - 1) ≠ UINT32_MAX := by omega
  have hA := occValues_markSlotEmpty s.t hhn
  have hB : occValues (s.shifted nxt).t + nodeValues hn =
      occValues s.t + nodeValues { psl := nxt.psl - 1, value := nxt.value } :=
    occValues_set rfl hhn
  rw [nodeValues_occ { psl := nxt.psl - 1, value := nxt.value } hx] at hB
  change occValues (s.shifted nxt).t + nodeValues hn = occValues s.t + {nxt.value} at hB
  show occValues (MarkSlotEmpty (s.shifted nxt).t s.next_slot) = _
  by_cases hns : s.next_slot = s.slot
  · have hy : (s.shifted nxt).t.m_table[s.next_slot]? =
        some { psl := nxt.psl - 1, value := nxt.value } := by
      show (s.t.m_table.set s.slot _)[s.next_slot]? = _
      rw [hns, List.getElem?_set_self hslen]
    have hC := occValues_markSlotEmpty (s.shifted nxt).t hy
    rw [nodeValues_occ { psl := nxt.psl - 1, value := nxt.value } hx] at hC
    change occValues (MarkSlotEmpty (s.shifted nxt).t s.next_slot) + {nxt.value} = _ at hC
    have hnn : hn = nxt := by
      rw [hns, hhn] at hget
      exact Option.some.inj hget
    rw [hnn, nodeValues_occ nxt hne] at hA hB
    have h1 : occValues (s.shifted nxt).t = occValues s.t := add_right_cancel hB
    apply add_right_cancel (b := ({nxt.value} : Multiset Value))
    rw [hC, h1, hA]
  · have hy : (s.shifted nxt).t.m_table[s.next_slot]? = some nxt := by
      show (s.t.m_table.set s.slot _)[s.next_slot]? = _
      rw [List.getElem?_set_ne (fun h => hns h.symm)]
      exact hget
    have hC := occValues_markSlotEmpty (s.shifted nxt).t hy
    rw [nodeValues_occ nxt hne] at hC
    apply add_right_cancel (b := ({nxt.value} : Multiset Value) + nodeValues hn)
    rw [← add_assoc, hC, hB, add_comm ({nxt.value} : Multiset Value) (nodeValues hn),
      ← add_assoc, hA]

/-- A call of `Remove(k)` that returns either leaves the multiset of stored
values as it is or takes out of it one value whose key equals `k`; this needs
no assumption on the load factor or on the key policy. -/
theorem remove_values {P : Policy Key Value} {t t' : Table Value} (hB : Basic P t)
    {fuel : Nat} {k : Key} (h : Remove P fuel t k = Exec.ok t') :
    occValues t' = occValues t ∨
      ∃ node : HashNode Value, P.m_equal k (P.keyOf node) = true ∧
        occValues t' + {node.value} = occValues t := by
  unfold Remove at h
  cases hr : InternalLookup P t k with
  | fault f => rw [hr] at h; cases h
  | ok r =>
    rw [hr] at h
    simp only at h
    by_cases hrM : r = UINT32_MAX
    · rw [if_pos hrM] at h
      cases h
      exact Or.inl rfl
    · rw [if_neg hrM] at h
      unfold InternalLookup at hr
      by_cases hnz : t.m_table_info.table_size = 0
      · rw [if_pos hnz] at hr; cases hr
      · rw [if_neg hnz] at hr
        obtain ⟨node, hget, heq, _⟩ := lookup_loop_result P t k _ _ _ r hr hrM
        have hrlt : r < t.m_table_info.table_size := by
          rw [← hB.length_eq]; exact (List.getElem?_eq_some_iff.mp hget).1
        have key : occValues t' = occValues (MarkSlotEmpty t r) :=
          whileLoop_inv Remove.body
            (I := fun s => BasicRemoveInv P t.m_table_info s ∧
              occValues (MarkSlotEmpty s.t s.slot) = occValues (MarkSlotEmpty t r))
            (Q := fun r' : Table Value => occValues r' = occValues (MarkSlotEmpty t r))
            (by
              intro s s' ⟨hI, hs⟩ hb
              refine ⟨basicRemoveInv_next hI hb, ?_⟩
              obtain ⟨nxt, hg, hne, hpos, hslen, rfl⟩ := remove_body_next hb
              exact (removeStep_values hg hne (hI.basic.psl_le _ _ hg) hpos hslen).trans hs)
            (by
              intro s r' ⟨_, hs⟩ hb
              obtain ⟨nxt, _, _, rfl⟩ := remove_body_done hb
              exact hs)
            fuel _ _ ⟨⟨hB, rfl, hrlt, rfl⟩, rfl⟩ h
        have hA := occValues_markSlotEmpty t hget
        rw [← key] at hA
        by_cases hempty : node.psl = UINT32_MAX
        · rw [nodeValues_empty node hempty, add_zero] at hA
          exact Or.inl hA
        · rw [nodeValues_occ node hempty] at hA
          exact Or.inr ⟨node, heq, hA⟩

/-- C20: in every table state reachable from `Init`, for every load factor,
every key policy and every key `k`, a call of `Remove(k)` that returns leaves
the multiset of the values in occupied slots whose key differs from `k` as it
was. -/
theorem C20_remove_keeps_other_keys (P : Policy Key Value) (max_key_num : Nat) (lf : ℚ)
    (raw : Nat → Value) (t : Table Value)
    (hreach : Reachable P (Init max_key_num lf raw) t) (k : Key)
    (fuel : Nat) (t' : Table Value) (hrem : Remove P fuel t k = Exec.ok t') :
    (occValues t').filter (fun v => P.m_equal k (P.m_get_key_from_value v) = false) =
      (occValues t).filter (fun v => P.m_equal k (P.m_get_key_from_value v) = false) := by
  rcases remove_values (reachable_basic P max_key_num lf raw hreach).1 hrem with
    h | ⟨node, heq, h⟩
  · rw [h]
  · rw [← h, Multiset.filter_add, Multiset.filter_singleton]
    have heq' : ¬ P.m_equal k (P.m_get_key_from_value node.value) = false := by
      have : P.m_equal k (P.m_get_key_from_value node.value) = true := heq
      rw [this]
      exact fun hc => by cases hc
    rw [if_neg heq']
    exact (add_zero _).symm

/-- C20 on the table holding 12 and 1 after `Init(10)`: `Remove(12)` shifts 1
back into slot 1, and the values with a key other than 12 are `{1}` before and
after. -/
theorem C20_remove_keeps_other_keys_witness :
    ∃ t' : Table Nat, Remove intSet 3 collisionTable 12 = Exec.ok t' ∧
      (occValues t').filter (fun v => intSet.m_equal 12 (intSet.m_get_key_from_value v) = false)
        = {1} ∧
      (occValues t').filter (fun v => intSet.m_equal 12 (intSet.m_get_key_from_value v) = false)
        = (occValues collisionTable).filter
          (fun v => intSet.m_equal 12 (intSet.m_get_key_from_value v) = false) := by
  have h : Remove intSet 3 collisionTable 12 = Exec.ok
      { m_table_info := collisionTable.m_table_info,
        m_table := ((InitWith 10 11 zeroMem).m_table.set 1 { psl := 0, value := 1 }).set 2
          { psl := UINT32_MAX, value := 1 } } := by decide
  exact ⟨_, h, by decide,
    C20_remove_keeps_other_keys intSet 10 DEFAULT_MAX_LOAD_FACTOR zeroMem collisionTable
      collisionTable_reachable 12 3 _ h⟩

/-! ### Claim C11 -/

theorem forEach_loop_eq (t : Table Value) (f : Nat → Nat → Value → Bool) :
    ∀ remaining i, i + remaining = t.m_table.length →
      ForEach.loop t f remaining i =
        Exec.ok (cutAfterFalse f
          ((((t.m_table.drop i).enumFrom i).filter fun p => !SlotIsEmpty p.2).map
            fun p => (p.1, p.2.psl, p.2.value))) := by
  intro remaining
  induction remaining with
  | zero =>
    intro i hi
    have : t.m_table.drop i = [] := List.drop_eq_nil_of_le (by omega)
    rw [this]
    rfl
  | succ remaining ih =>
    intro i hi
    have hlt : i < t.m_table.length := by omega
    have hdrop : t.m_table.drop i = t.m_table[i] :: t.m_table.drop (i + 1) :=
      List.drop_eq_getElem_cons hlt
    rw [ForEach.loop, List.getElem?_eq_getElem hlt, hdrop, List.enumFrom_cons]
    simp only
    have hrec := ih (i + 1) (by omega)
    cases hem : SlotIsEmpty t.m_table[i] with
    | true =>
      rw [if_pos rfl, hrec, List.filter_cons_of_neg (by simp [hem])]
    | false =>
      rw [if_neg (by simp), List.filter_cons_of_pos (by simp [hem]), List.map_cons, hrec]
      simp only [cutAfterFalse]
      split <;> rfl

theorem enumFrom_fst_lt {α : Type} (l : List α) :
    ∀ i, ((l.enumFrom i).map Prod.fst).Pairwise (· < ·) := by
  induction l with
  | nil => intro i; simp
  | cons a l ih =>
    intro i
    rw [List.enumFrom_cons, List.map_cons, List.pairwise_cons]
    refine ⟨?_, ih (i + 1)⟩
    intro j hj
    rw [List.mem_map] at hj
    obtain ⟨p, hp, rfl⟩ := hj
    have := List.le_fst_of_mem_enumFrom hp
    omega

theorem mem_occupiedCalls (t : Table Value) (i p : Nat) (v : Value) :
    (i, p, v) ∈ occupiedCalls t ↔ Occ t i { psl := p, value := v } := by
  unfold occupiedCalls occupied Occ
  rw [List.mem_map]
  constructor
  · rintro ⟨⟨j, nd⟩, hmem, heq⟩
    rw [List.mem_filter] at hmem
    obtain ⟨h1, h2⟩ := hmem
    simp only [Prod.mk.injEq] at heq
    obtain ⟨rfl, rfl, rfl⟩ := heq
    refine ⟨List.mem_enum_iff_getElem?.mp h1, ?_⟩
    have h3 : SlotIsEmpty nd = false := by simpa using h2
    exact (slotIsEmpty_false_iff nd).mp h3
  · rintro ⟨h1, h2⟩
    refine ⟨(i, { psl := p, value := v }), ?_, rfl⟩
    rw [List.mem_filter]
    refine ⟨List.mem_enum_iff_getElem?.mpr h1, ?_⟩
    have h3 := (slotIsEmpty_false_iff { psl := p, value := v }).mpr h2
    simp [h3]

/-- C11: for every table state and every callback `f`, `ForEach(f)` returns,
and the calls it makes are `occupiedCalls t` cut off right after the first call
for which `f` returns `false`; `occupiedCalls t` lists `(i, psl_i, value_i)` for
exactly the occupied slots, by strictly increasing `i`; when `f` always returns
`true` every occupied slot is visited. -/
theorem C11_forEach_order_and_short_circuit (t : Table Value)
    (f : Nat → Nat → Value → Bool)
    (hlen : t.m_table.length = t.m_table_info.table_size) :
    ForEach t f = Exec.ok (cutAfterFalse f (occupiedCalls t)) ∧
      ((occupiedCalls t).map fun c => c.1).Pairwise (· < ·) ∧
      (∀ i p v, (i, p, v) ∈ occupiedCalls t ↔ Occ t i { psl := p, value := v }) ∧
      ((∀ i p v, f i p v = true) → ForEach t f = Exec.ok (occupiedCalls t)) := by
  have h1 : ForEach t f = Exec.ok (cutAfterFalse f (occupiedCalls t)) := by
    unfold ForEach
    rw [forEach_loop_eq t f _ 0 (by omega)]
    rfl
  refine ⟨h1, ?_, mem_occupiedCalls t, ?_⟩
  · unfold occupiedCalls occupied
    rw [List.map_map]
    have h2 : ((fun c : Nat × Nat × Value => c.1) ∘
        fun p : Nat × HashNode Value => (p.1, p.2.psl, p.2.value)) = Prod.fst := rfl
    rw [h2]
    exact ((enumFrom_fst_lt t.m_table 0).sublist
      (List.Sublist.map _ (List.filter_sublist _)))
  · intro hf
    rw [h1]
    congr 1
    generalize occupiedCalls t = l
    induction l with
    | nil => rfl
    | cons c cs ih => rw [cutAfterFalse, if_pos (hf _ _ _), ih]

/-- C11 on the table holding 12 and 1 after `Init(10)`: a callback that
returns `false` on its first call is called once, for slot 1. -/
theorem C11_forEach_order_and_short_circuit_witness :
    occupiedCalls collisionTable = [(1, 0, 12), (2, 1, 1)] ∧
      ForEach collisionTable (fun _ _ _ => false) = Exec.ok [(1, 0, 12)] ∧
      ForEach collisionTable (fun _ _ _ => true) = Exec.ok [(1, 0, 12), (2, 1, 1)] := by
  have h := C11_forEach_order_and_short_circuit collisionTable (fun _ _ _ => false)
    (by decide)
  exact ⟨by decide, h.1, by decide⟩

/-! ### Claims C12 and C13 -/

/-- C12, amended: on an object that is not yet initialised,
`Init(buffer, size)` returns `true` exactly when
`size ≥ 16 + table_size * (4 + ValueSize)`, provided the product
`table_size * (4 + ValueSize)` is below `2 ^ 64`; and it returns `true` on a
buffer of exactly `Size()` bytes, provided `16 + table_size * (4 + ValueSize)`
is below `2 ^ 64`.  Here `table_size` is the field of the header at the start
of the buffer. -/
theorem C12_borrowed_buffer_validation (ValueSize : Nat) (self : RobinHoodHash2)
    (data : Buffer) (size : Nat) (hnew : self.m_table_info = none) :
    (data.header.table_size * sizeofHashNode ValueSize < 2 ^ 64 →
        ((RobinHoodHash2.Init ValueSize self data size).2 = true ↔
          sizeofHashTableInfo + data.header.table_size * sizeofHashNode ValueSize ≤ size)) ∧
      (sizeofHashTableInfo + data.header.table_size * sizeofHashNode ValueSize < 2 ^ 64 →
        (RobinHoodHash2.Init ValueSize self data
          (RobinHoodHash2.Size ValueSize data.header)).2 = true) := by
  have key : ∀ sz, data.header.table_size * sizeofHashNode ValueSize < 2 ^ 64 →
      ((RobinHoodHash2.Init ValueSize self data sz).2 = true ↔
        sizeofHashTableInfo + data.header.table_size * sizeofHashNode ValueSize ≤ sz) := by
    intro sz hno
    unfold RobinHoodHash2.Init
    rw [hnew, Nat.mod_eq_of_lt hno]
    simp only [Option.isSome_none, Bool.false_eq_true, if_false]
    by_cases h1 : sz < sizeofHashTableInfo
    · rw [if_pos h1]
      constructor
      · intro h; cases h
      · intro h; omega
    · rw [if_neg h1]
      by_cases h2 : sz - sizeofHashTableInfo <
          data.header.table_size * sizeofHashNode ValueSize
      · rw [if_pos h2]
        constructor
        · intro h; cases h
        · intro h; omega
      · rw [if_neg h2]
        constructor
        · intro _; omega
        · intro _; rfl
  refine ⟨key size, ?_⟩
  intro hno
  have hno' : data.header.table_size * sizeofHashNode ValueSize < 2 ^ 64 := by omega
  rw [key _ hno']
  unfold RobinHoodHash2.Size
  rw [Nat.mod_eq_of_lt hno]

/-- The amended C12 on the header of the table built by `Init(10)` with the
default load factor and `ValueSize = 4`: `Size()` is `16 + 11 * 8 = 104`, and
`Init` on a buffer of 104 bytes returns `true`, on one of 103 bytes `false`. -/
theorem C12_borrowed_buffer_validation_witness :
    RobinHoodHash2.Size 4 oneKeyTable.m_table_info = 104 ∧
      (RobinHoodHash2.Init 4 RobinHoodHash2.new
        { addr := 4096, header := oneKeyTable.m_table_info } 104).2 = true ∧
      ((RobinHoodHash2.Init 4 RobinHoodHash2.new
        { addr := 4096, header := oneKeyTable.m_table_info } 103).2 = true ↔
          sizeofHashTableInfo + 11 * sizeofHashNode 4 ≤ 103) := by
  have h := C12_borrowed_buffer_validation 4 RobinHoodHash2.new
    { addr := 4096, header := oneKeyTable.m_table_info } 103 rfl
  exact ⟨by decide, h.2 (by decide), h.1 (by decide)⟩

/-- C12, as stated, fails: with `ValueSize = 4294967295` a record takes
`4294967299` bytes, and for a header with `table_size = 4294967295` the
product wraps around `2 ^ 64` to `8589934589`; `Init(buffer, 8589934605)`
returns `true` although the header and the records need more than `2 ^ 64`
bytes. -/
theorem C12_size_product_wraps :
    (RobinHoodHash2.Init 4294967295 RobinHoodHash2.new
        { addr := 4096,
          header := { key_num := 0, lpsl := 0, max_key_num := 0, table_size := 4294967295 } }
        8589934605).2 = true ∧
      4294967295 * sizeofHashNode 4294967295 % 2 ^ 64 = 8589934589 ∧
      ¬ (sizeofHashTableInfo + 4294967295 * sizeofHashNode 4294967295 ≤ 8589934605) := by
  decide

/-- C13 fails on the code: `Init(buffer, 16)` on a fresh object, for a buffer
whose header has `table_size = 1` and `ValueSize = 4` (24 bytes needed),
returns `false` but leaves `m_table_info` pointing at the buffer.  A later
`Init` on the same object with the full 24 bytes returns `false`, and the
destructor passes the borrowed buffer to `free`.  With `size = 15` the object
is left as it was. -/
theorem C13_failed_attach_keeps_header_pointer :
    RobinHoodHash2.Init 4 RobinHoodHash2.new
        { addr := 4096,
          header := { key_num := 0, lpsl := 0, max_key_num := 1, table_size := 1 } } 16 =
        ({ m_is_mapping := false, m_table_info := some 4096, m_table := none }, false) ∧
      (RobinHoodHash2.Init 4
        { m_is_mapping := false, m_table_info := some 4096, m_table := none }
        { addr := 4096,
          header := { key_num := 0, lpsl := 0, max_key_num := 1, table_size := 1 } } 24).2 =
        false ∧
      RobinHoodHash2.destructor
        { m_is_mapping := false, m_table_info := some 4096, m_table := none } = some 4096 ∧
      RobinHoodHash2.Init 4 RobinHoodHash2.new
        { addr := 4096,
          header := { key_num := 0, lpsl := 0, max_key_num := 1, table_size := 1 } } 15 =
        (RobinHoodHash2.new, false) ∧
      (RobinHoodHash2.Init 4 RobinHoodHash2.new
        { addr := 4096,
          header := { key_num := 0, lpsl := 0, max_key_num := 1, table_size := 1 } } 24).2 =
        true := by
  decide

/-! ### Termination needs no assumption on the key equality -/

theorem neverEqual_symm (P : Policy Key Value) :
    ∀ a b : Key, P.neverEqual.m_equal a b = false → P.neverEqual.m_equal b a = false :=
  fun _ _ _ => rfl

theorem insert_body_next_neverEqual {P : Policy Key Value} {s s' : InsertState Value}
    (hb : InternalInsert.body P s = Step.next s') :
    InternalInsert.body P.neverEqual s = Step.next s' := by
  obtain ⟨node, hget, hne, _, hcase⟩ := insert_body_next hb
  rcases hcase with ⟨hlt, rfl⟩ | ⟨hle, rfl⟩
  · exact insert_body_swap hget hne rfl hlt
  · exact insert_body_advance hget hne rfl hle

theorem insert_body_done_neverEqual {P : Policy Key Value} {s : InsertState Value}
    {r : Table Value × Option Nat × Bool} (hb : InternalInsert.body P s = Step.done r) :
    InternalInsert.body P.neverEqual s = Step.done r ∨ r = (s.t, some s.slot, false) := by
  obtain ⟨node, hget, hcase⟩ := insert_body_done hb
  rcases hcase with ⟨hem, hfull, rfl⟩ | ⟨hem, hfree, rfl⟩ | ⟨_, _, rfl⟩
  · left
    unfold InternalInsert.body
    rw [hget]
    simp only
    rw [if_pos ((slotIsEmpty_iff node).mpr hem), if_pos hfull]
  · left
    unfold InternalInsert.body
    rw [hget]
    simp only
    rw [if_pos ((slotIsEmpty_iff node).mpr hem), if_neg (by omega)]
    rfl
  · exact Or.inr rfl

theorem insertInv_init_neverEqual {P : Policy Key Value} {t : Table Value}
    (hwf : WF P.neverEqual t) (v : Value) :
    ∃ e, InsertInv P.neverEqual e
      { t := t, tmp_node := { psl := 0, value := v },
        slot := P.m_hash (P.m_get_key_from_value v) % t.m_table_info.table_size } :=
  insertInv_init hwf v (fun _ _ _ => rfl)

/-- A call of `Insert` that returns keeps the part of the invariant that does
not depend on key equality, whatever the key policy. -/
theorem insert_wf_any {P : Policy Key Value} {t t' : Table Value} (hwf : WF P.neverEqual t)
    {fuel : Nat} {v : Value} {r : Option Nat × Bool}
    (h : Insert P fuel t v = Exec.ok (t', r)) :
    WF P.neverEqual t' ∧ t'.m_table_info.table_size = t.m_table_info.table_size ∧
      t'.m_table_info.max_key_num = t.m_table_info.max_key_num := by
  obtain ⟨e, hI⟩ := insertInv_init_neverEqual hwf v
  have hnz : t.m_table_info.table_size ≠ 0 := by
    have := hI.e_lt
    exact fun h0 => by simp [h0] at this
  unfold Insert InternalInsert at h
  rw [if_neg hnz] at h
  have key := whileLoop_inv (InternalInsert.body P)
    (I := fun s => InsertInv P.neverEqual e s ∧
      s.t.m_table_info.table_size = t.m_table_info.table_size ∧
      s.t.m_table_info.max_key_num = t.m_table_info.max_key_num)
    (Q := fun r : Table Value × Option Nat × Bool => WF P.neverEqual r.1 ∧
      r.1.m_table_info.table_size = t.m_table_info.table_size ∧
      r.1.m_table_info.max_key_num = t.m_table_info.max_key_num)
    ?_ ?_ fuel _ _ ⟨hI, rfl, rfl⟩ h
  · exact key
  · intro s s' ⟨hs, h1, h2⟩ hb
    refine ⟨(insertInv_next_of_symm (neverEqual_symm P) hs
      (insert_body_next_neverEqual hb)).1, ?_, ?_⟩
    · obtain ⟨node, _, _, _, hc⟩ := insert_body_next hb
      rcases hc with ⟨_, rfl⟩ | ⟨_, rfl⟩ <;> exact h1
    · obtain ⟨node, _, _, _, hc⟩ := insert_body_next hb
      rcases hc with ⟨_, rfl⟩ | ⟨_, rfl⟩ <;> exact h2
  · intro s r' ⟨hs, h1, h2⟩ hb
    rcases insert_body_done_neverEqual hb with hb' | rfl
    · obtain ⟨hw, h3, h4⟩ := insertInv_done_of_symm (neverEqual_symm P) hs hb'
      exact ⟨hw, h3.trans h1, h4.trans h2⟩
    · exact ⟨hs.wf, h1, h2⟩

/-- On a table satisfying the part of the invariant that does not depend on
key equality, the loop of `InternalInsert` returns within `table_size` passes,
whatever the key policy. -/
theorem insert_returns_any {P : Policy Key Value} {t : Table Value} (hwf : WF P.neverEqual t)
    (v : Value) (fuel : Nat) (hfuel : t.m_table_info.table_size ≤ fuel) :
    ∃ r, Insert P fuel t v = Exec.ok r := by
  obtain ⟨e, hI⟩ := insertInv_init_neverEqual hwf v
  have hnz : t.m_table_info.table_size ≠ 0 := by
    have := hI.e_lt
    exact fun h0 => by simp [h0] at this
  unfold Insert InternalInsert
  rw [if_neg hnz]
  refine whileLoop_term
    (I := fun s => InsertInv P.neverEqual e s ∧
      s.t.m_table_info.table_size = t.m_table_info.table_size)
    (μ := fun s => (e + s.t.m_table_info.table_size - s.slot) % s.t.m_table_info.table_size)
    ?_ ?_ fuel _ ⟨hI, rfl⟩ ?_
  · intro s s' ⟨hs, h1⟩ hb
    obtain ⟨hs', hlt⟩ := insertInv_next_of_symm (neverEqual_symm P) hs
      (insert_body_next_neverEqual hb)
    refine ⟨⟨hs', ?_⟩, hlt⟩
    obtain ⟨node, _, _, _, hc⟩ := insert_body_next hb
    rcases hc with ⟨_, rfl⟩ | ⟨_, rfl⟩ <;> exact h1
  · intro s f ⟨hs, _⟩ hb
    have h := insert_body_fault hb
    have hlen : s.slot < s.t.m_table.length := by rw [hs.wf.length_eq]; exact hs.slot_lt
    rw [List.getElem?_eq_getElem hlen] at h
    cases h
  · have : (e + t.m_table_info.table_size -
        P.m_hash (P.m_get_key_from_value v) % t.m_table_info.table_size) %
        t.m_table_info.table_size < t.m_table_info.table_size :=
      Nat.mod_lt _ (Nat.pos_of_ne_zero hnz)
    exact lt_of_lt_of_le this hfuel

/-- On a table satisfying the invariant for some policy, `InternalLookup`
under any policy returns `UINT32_MAX` or a slot of the table. -/
theorem internalLookup_any {P Q : Policy Key Value} {t : Table Value} (hwf : WF Q t)
    (key : Key) :
    ∃ r, InternalLookup P t key = Exec.ok r ∧
      (r = UINT32_MAX ∨ ∃ node : HashNode Value, t.m_table[r]? = some node) := by
  have hnpos : 0 < t.m_table_info.table_size := by have := hwf.cap_lt; omega
  unfold InternalLookup
  rw [if_neg (by omega)]
  obtain ⟨r, hr⟩ := lookup_loop_ok P t key hwf.length_eq hnpos t.m_table_info.lpsl 0 _
    (Nat.mod_lt (P.m_hash key) hnpos)
  refine ⟨r, hr, ?_⟩
  by_cases h : r = UINT32_MAX
  · exact Or.inl h
  · obtain ⟨node, h1, _, _⟩ := lookup_loop_result P t key _ _ _ r hr h
    exact Or.inr ⟨node, h1⟩

/-- A call of `Remove` under any policy that returns keeps the invariant. -/
theorem remove_wf_any {P Q : Policy Key Value} {t t' : Table Value} (hwf : WF Q t)
    {fuel : Nat} {k : Key} (h : Remove P fuel t k = Exec.ok t') :
    WF Q t' ∧ t'.m_table_info = t.m_table_info := by
  obtain ⟨r, hr, hres⟩ := internalLookup_any (P := P) hwf k
  unfold Remove at h
  rw [hr] at h
  simp only at h
  by_cases hrM : r = UINT32_MAX
  · rw [if_pos hrM] at h
    cases h
    exact ⟨hwf, rfl⟩
  · rw [if_neg hrM] at h
    rcases hres with h0 | ⟨node, hget⟩
    · exact absurd h0 hrM
    · by_cases hempty : node.psl = UINT32_MAX
      · cases fuel with
        | zero => simp [whileLoop] at h
        | succ f =>
          rw [whileLoop, remove_body_stale hwf hget hempty] at h
          cases h
          exact ⟨hwf, rfl⟩
      · obtain ⟨e, hI⟩ := removeInv_init hwf (show Occ t r node from ⟨hget, hempty⟩)
        exact whileLoop_inv Remove.body
          (I := fun s => RemoveInv Q e s ∧ s.t.m_table_info = t.m_table_info)
          (Q := fun r' : Table Value => WF Q r' ∧ r'.m_table_info = t.m_table_info)
          (by
            intro s s' ⟨hs, h1⟩ hb
            refine ⟨(removeInv_next hs hb).1, ?_⟩
            obtain ⟨nxt, _, _, _, _, rfl⟩ := remove_body_next hb
            exact h1)
          (by
            intro s r' ⟨hs, h1⟩ hb
            obtain ⟨hw, h2⟩ := removeInv_done hs hb
            exact ⟨hw, h2.trans h1⟩)
          fuel _ _ ⟨hI, rfl⟩ h

/-- On a table satisfying the invariant for some policy, the backward shift
loop of `Remove` under any policy stops within `table_size` passes, the last
of which makes no shift. -/
theorem remove_returns_any {P Q : Policy Key Value} {t : Table Value} (hwf : WF Q t) (k : Key)
    (fuel : Nat) (hfuel : t.m_table_info.table_size ≤ fuel) :
    ∃ t', Remove P fuel t k = Exec.ok t' := by
  have hnpos : 0 < t.m_table_info.table_size := by have := hwf.cap_lt; omega
  obtain ⟨r, hr, hres⟩ := internalLookup_any (P := P) hwf k
  unfold Remove
  rw [hr]
  simp only
  by_cases hrM : r = UINT32_MAX
  · rw [if_pos hrM]; exact ⟨_, rfl⟩
  · rw [if_neg hrM]
    rcases hres with h0 | ⟨node, hget⟩
    · exact absurd h0 hrM
    · by_cases hempty : node.psl = UINT32_MAX
      · obtain ⟨f, rfl⟩ : ∃ f, fuel = f + 1 := ⟨fuel - 1, by omega⟩
        rw [whileLoop, remove_body_stale hwf hget hempty]
        exact ⟨_, rfl⟩
      · obtain ⟨e, hI⟩ := removeInv_init hwf (show Occ t r node from ⟨hget, hempty⟩)
        refine whileLoop_term
          (I := fun s => RemoveInv Q e s ∧
            s.t.m_table_info.table_size = t.m_table_info.table_size)
          (μ := fun s =>
            (e + s.t.m_table_info.table_size - s.next_slot) % s.t.m_table_info.table_size)
          ?_ ?_ fuel _ ⟨hI, rfl⟩ ?_
        · intro s s' ⟨hs, h1⟩ hb
          obtain ⟨hs', hlt⟩ := removeInv_next hs hb
          refine ⟨⟨hs', ?_⟩, hlt⟩
          obtain ⟨nxt, _, _, _, _, rfl⟩ := remove_body_next hb
          exact h1
        · intro s f ⟨hs, _⟩
          exact removeInv_fault hs f
        · exact lt_of_lt_of_le (Nat.mod_lt _ hnpos) hfuel

/-- Every table reachable from an `Init` whose slot array is larger than the
capacity satisfies the part of the invariant that does not depend on key
equality, whatever the key policy. -/
theorem reachable_wf_any (P : Policy Key Value) {max_key_num : Nat} {lf : ℚ}
    {raw : Nat → Value} (hcap : max_key_num % 2 ^ 32 < tableSizeOf max_key_num lf)
    {t : Table Value} (h : Reachable P (Init max_key_num lf raw) t) : WF P.neverEqual t := by
  induction h with
  | init => exact initWith_wf P.neverEqual raw hcap (tableSizeOf_lt _ _)
  | insert _ hins ih => exact (insert_wf_any ih hins).1
  | remove _ hrem ih => exact (remove_wf_any ih hrem).1

/-! ### Claim C21 -/

/-- C21: in every table state reachable from an `Init` that yields
`table_size > max_key_num`, for every key policy: an empty slot exists; the
probing loop of `Insert` returns within `table_size` passes, each of which
visits one slot; and the backward shift loop of `Remove` returns within
`table_size` passes, of which every one but the last makes one shift, so it
makes at most `table_size - 1` shifts. -/
theorem C21_insert_and_remove_terminate (P : Policy Key Value) (max_key_num : Nat) (lf : ℚ)
    (raw : Nat → Value) (hcap : max_key_num % 2 ^ 32 < tableSizeOf max_key_num lf)
    (t : Table Value) (hreach : Reachable P (Init max_key_num lf raw) t) :
    (∃ (e : Nat) (node : HashNode Value),
        t.m_table[e]? = some node ∧ node.psl = UINT32_MAX) ∧
      (∀ (v : Value) (fuel : Nat), t.m_table_info.table_size ≤ fuel →
        ∃ r, Insert P fuel t v = Exec.ok r) ∧
      (∀ (k : Key) (fuel : Nat), t.m_table_info.table_size ≤ fuel →
        ∃ t', Remove P fuel t k = Exec.ok t') := by
  have hwf := reachable_wf_any P hcap hreach
  refine ⟨?_, fun v fuel hfuel => insert_returns_any hwf v fuel hfuel,
    fun k fuel hfuel => remove_returns_any hwf k fuel hfuel⟩
  have hlt : occCount t < t.m_table.length := by
    have h1 := hwf.occ_le
    have h2 := hwf.key_num_le
    have h3 := hwf.cap_lt
    rw [hwf.length_eq]
    omega
  exact exists_empty_slot hlt

/-- C21 on the table holding 12 and 1 after `Init(10)` (eleven slots): an empty
slot exists, and `Insert(23)` and `Remove(12)` return within eleven passes. -/
theorem C21_insert_and_remove_terminate_witness :
    (∃ (e : Nat) (node : HashNode Nat),
        collisionTable.m_table[e]? = some node ∧ node.psl = UINT32_MAX) ∧
      (∃ r, Insert intSet 11 collisionTable 23 = Exec.ok r) ∧
      (∃ t', Remove intSet 11 collisionTable 12 = Exec.ok t') := by
  have h := C21_insert_and_remove_terminate intSet 10 DEFAULT_MAX_LOAD_FACTOR zeroMem
    ten_lt_tableSizeOf collisionTable collisionTable_reachable
  exact ⟨h.1, h.2.1 23 11 (by decide), h.2.2 12 11 (by decide)⟩

/-! ### `Insert` keeps the path invariant -/

theorem add_dist_mod {h e n : Nat} (hh : h < n) (he : e < n) :
    (h + (e + n - h) % n) % n = e := by
  rw [mod_two_cases (e + n - h) n (by omega)]
  split
  · have : h + (e + n - h) = e + n := by omega
    rw [this, Nat.add_mod_right, Nat.mod_eq_of_lt he]
  · have : h + (e + n - h - n) = e := by omega
    rw [this, Nat.mod_eq_of_lt he]

/-- Writing a node with a larger `psl` into a slot keeps `Covers`. -/
theorem covers_set {A : Prop} {t : Table Value} (t' : Table Value) {slot : Nat}
    {old x : HashNode Value}
    (htab : t'.m_table = t.m_table.set slot x)
    (hsize : t'.m_table_info.table_size = t.m_table_info.table_size)
    (hold : t.m_table[slot]? = some old) (hle : old.psl ≤ x.psl)
    (hx : A → x.psl ≠ UINT32_MAX) {h p : Nat} (hc : Covers A t h p) : Covers A t' h p := by
  intro c hcp y hy
  rw [htab, hsize, List.getElem?_set] at hy
  split_ifs at hy with h1
  · cases hy
    have := hc c hcp old (by rw [← h1]; exact hold)
    exact ⟨le_trans this.1 hle, hx⟩
  · exact hc c hcp y hy

/-- Writing a node into an empty slot keeps a strict `Covers`: the slot lies
on no covered path. -/
theorem covers_place {A A' : Prop} (hA : A) {t : Table Value} (t' : Table Value) {slot : Nat}
    {old x : HashNode Value} (htab : t'.m_table = t.m_table.set slot x)
    (hsize : t'.m_table_info.table_size = t.m_table_info.table_size)
    (hold : t.m_table[slot]? = some old) (hem : old.psl = UINT32_MAX)
    {h p : Nat} (hc : Covers A t h p) : Covers A' t' h p := by
  intro c hcp y hy
  rw [htab, hsize, List.getElem?_set] at hy
  split_ifs at hy with h1
  · have := hc c hcp old (by rw [← h1]; exact hold)
    exact absurd hem (this.2 hA)
  · have := hc c hcp y hy
    exact ⟨this.1, fun _ => this.2 hA⟩

/-- A strictly covered path stops short of every empty slot. -/
theorem covers_le_dist {A : Prop} (hA : A) {t : Table Value} {h p e : Nat}
    {enode : HashNode Value} (hh : h < t.m_table_info.table_size)
    (he : t.m_table[e]? = some enode) (hel : e < t.m_table_info.table_size)
    (hem : enode.psl = UINT32_MAX) (hc : Covers A t h p) :
    p ≤ (e + t.m_table_info.table_size - h) % t.m_table_info.table_size := by
  by_contra hlt
  have := hc ((e + t.m_table_info.table_size - h) % t.m_table_info.table_size) (by omega)
    enode (by rw [add_dist_mod hh hel]; exact he)
  exact this.2 hA hem

/-- While `key_num < max_key_num ≤ table_size` the carried node has a probe
length below `table_size`. -/
theorem insertPathInv_tmp_lt {P : Policy Key Value} {info : HashTableInfo}
    {V : Multiset Value} {s : InsertState Value} (hI : InsertPathInv P info V s)
    (hA : s.t.m_table_info.key_num < s.t.m_table_info.max_key_num) :
    s.tmp_node.psl < s.t.m_table_info.table_size := by
  have hB := hI.basic.basic
  have hnpos : 0 < s.t.m_table_info.table_size := by have := hI.basic.slot_lt; omega
  have hcount := hI.occ_le hA
  have hlt : occCount s.t < s.t.m_table.length := by
    rw [hB.length_eq]
    have := hI.cap_le
    omega
  obtain ⟨e, enode, heget, heempty⟩ := exists_empty_slot hlt
  have helt : e < s.t.m_table_info.table_size := by
    rw [← hB.length_eq]
    exact (List.getElem?_eq_some.mp heget).1
  have h1 := covers_le_dist hA (Nat.mod_lt _ hnpos) heget helt heempty hI.tmp_path
  have h2 := Nat.mod_lt (e + s.t.m_table_info.table_size -
    P.m_hash (P.keyOf s.tmp_node) % s.t.m_table_info.table_size) hnpos
  omega

theorem insertPathInv_next {P : Policy Key Value} (hP : P.Lawful) {info : HashTableInfo}
    {V : Multiset Value} {s s' : InsertState Value} (hI : InsertPathInv P info V s)
    (hb : InternalInsert.body P s = Step.next s') : InsertPathInv P info V s' := by
  obtain ⟨node, hget, hne, hkeq, hcase⟩ := insert_body_next hb
  have hBI := hI.basic
  have hB := hBI.basic
  have hbasic' := basicInsertInv_next hBI hb
  have hM : UINT32_MAX = 4294967295 := rfl
  have hlen : s.slot < s.t.m_table.length := by rw [hB.length_eq]; exact hBI.slot_lt
  have hoccn : Occ s.t s.slot node := ⟨hget, hne⟩
  have hnle := hB.psl_le _ _ hget
  have hsz := hI.size_lt
  have htM : s.t.m_table_info.key_num < s.t.m_table_info.max_key_num →
      s.tmp_node.psl ≠ UINT32_MAX := by
    intro hA
    have := insertPathInv_tmp_lt hI hA
    omega
  rcases hcase with ⟨hlt, rfl⟩ | ⟨hle, rfl⟩
  · have hocc := occ_set_iff (t := s.t) (s.swapped node).t (x := s.tmp_node) rfl hlen
    have hpsl : (node.psl + 1) % 2 ^ 32 = node.psl + 1 := Nat.mod_eq_of_lt (by omega)
    have hcov : ∀ h p, Covers (s.t.m_table_info.key_num < s.t.m_table_info.max_key_num) s.t h p →
        Covers (s.t.m_table_info.key_num < s.t.m_table_info.max_key_num) (s.swapped node).t h p :=
      fun h p hc => covers_set (s.swapped node).t rfl rfl hget (by omega) htM hc
    refine ⟨hbasic', hsz, hI.cap_le, ?_, ?_, ?_, ?_, ?_, ?_⟩
    · intro i j ni nj hi hj hij
      rcases (hocc i ni).mp hi with ⟨h1, h2, _⟩ | ⟨h1, h2⟩ <;>
        rcases (hocc j nj).mp hj with ⟨h3, h4, _⟩ | ⟨h3, h4⟩
      · exact absurd (h1.trans h3.symm) hij
      · subst h2; exact hP.ne_symm (hI.absent j nj h4)
      · subst h4; exact hI.absent i ni h2
      · exact hI.uniq i j ni nj h2 h4 hij
    · intro j nd hnd
      show P.m_equal (P.keyOf nd) (P.keyOf node) = false
      rcases (hocc j nd).mp hnd with ⟨_, h2, _⟩ | ⟨h1, h2⟩
      · subst h2
        exact hP.ne_symm hkeq
      · exact hI.uniq j s.slot nd node h2 hoccn h1
    · intro i nd hnd
      rcases (hocc i nd).mp hnd with ⟨_, h2, _⟩ | ⟨_, h2⟩
      · subst h2
        exact hcov _ _ hI.tmp_path
      · exact hcov _ _ (hI.path i nd h2)
    · show Covers (s.t.m_table_info.key_num < s.t.m_table_info.max_key_num) (s.swapped node).t
        (P.m_hash (P.keyOf node) % s.t.m_table_info.table_size) ((node.psl + 1) % 2 ^ 32)
      rw [hpsl]
      intro c hc y hy
      by_cases hcl : c < node.psl
      · exact hcov _ _ (hI.path _ _ hoccn) c hcl y hy
      · have hcn : c = node.psl := by omega
        subst hcn
        change (s.t.m_table.set s.slot s.tmp_node)[(P.m_hash (P.keyOf node) %
          s.t.m_table_info.table_size + node.psl) % s.t.m_table_info.table_size]? = some y at hy
        rw [hB.disp _ _ hoccn, List.getElem?_set_self hlen] at hy
        cases hy
        exact ⟨by omega, htM⟩
    · intro hA
      have hc := occCount_set (t := s.t) (s.swapped node).t (x := s.tmp_node) rfl hget
      rw [if_pos hne, if_pos (htM hA)] at hc
      have := hI.occ_le hA
      show occCount (s.swapped node).t ≤ s.t.m_table_info.key_num
      omega
    · intro hA
      have h1 : occValues (s.swapped node).t + nodeValues node =
          occValues s.t + nodeValues s.tmp_node := occValues_set rfl hget
      rw [nodeValues_occ node hne, nodeValues_occ s.tmp_node (htM hA)] at h1
      exact h1.trans (hI.vals hA)
  · have hpsl : (s.tmp_node.psl + 1) % 2 ^ 32 = s.tmp_node.psl + 1 :=
      Nat.mod_eq_of_lt (by omega)
    refine ⟨hbasic', hsz, hI.cap_le, hI.uniq, hI.absent, hI.path, ?_, hI.occ_le, hI.vals⟩
    show Covers (s.t.m_table_info.key_num < s.t.m_table_info.max_key_num) s.t
      (P.m_hash (P.keyOf s.tmp_node) % s.t.m_table_info.table_size)
      ((s.tmp_node.psl + 1) % 2 ^ 32)
    rw [hpsl]
    intro c hc y hy
    by_cases hcl : c < s.tmp_node.psl
    · exact hI.tmp_path c hcl y hy
    · have hcn : c = s.tmp_node.psl := by omega
      subst hcn
      rw [hBI.tmp_disp, hget] at hy
      cases hy
      exact ⟨hle, fun _ => hne⟩

theorem insertPathInv_done {P : Policy Key Value} (hP : P.Lawful) {info : HashTableInfo}
    {V : Multiset Value} {s : InsertState Value} (hI : InsertPathInv P info V s)
    {r : Table Value × Option Nat × Bool} (hb : InternalInsert.body P s = Step.done r) :
    PathWF P r.1 ∧ (r.2.2 = true → occValues r.1 = V) := by
  obtain ⟨hB', _, _, _, _⟩ := basicInsertInv_done hI.basic hb
  obtain ⟨node, hget, hcase⟩ := insert_body_done hb
  have hBI := hI.basic
  have hB := hBI.basic
  have hM : UINT32_MAX = 4294967295 := rfl
  have hlen : s.slot < s.t.m_table.length := by rw [hB.length_eq]; exact hBI.slot_lt
  have hsame : PathWF P s.t := ⟨hB, hI.size_lt, hI.cap_le, hI.uniq, hI.path, hI.occ_le⟩
  rcases hcase with ⟨_, _, rfl⟩ | ⟨hem, hfree, rfl⟩ | ⟨_, _, rfl⟩
  · exact ⟨hsame, fun h => by cases h⟩
  · have hsz := hI.size_lt
    have hcap := hI.cap_le
    have htlt := insertPathInv_tmp_lt hI hfree
    have htM : s.tmp_node.psl ≠ UINT32_MAX := by omega
    have hk : (s.t.m_table_info.key_num + 1) % 2 ^ 32 = s.t.m_table_info.key_num + 1 :=
      Nat.mod_eq_of_lt (by omega)
    have hocc := occ_set_iff (t := s.t) s.placed (x := s.tmp_node) rfl hlen
    have hcov : ∀ h p, Covers (s.t.m_table_info.key_num < s.t.m_table_info.max_key_num) s.t h p →
        Covers (s.placed.m_table_info.key_num < s.placed.m_table_info.max_key_num) s.placed h p :=
      fun h p hc => covers_place hfree s.placed rfl rfl hget hem hc
    have hvals : occValues s.placed = V := by
      have h1 : occValues s.placed + nodeValues node =
          occValues s.t + nodeValues s.tmp_node := occValues_set rfl hget
      rw [nodeValues_empty node hem, add_zero, nodeValues_occ s.tmp_node htM] at h1
      exact h1.trans (hI.vals hfree)
    refine ⟨⟨hB', hsz, hcap, ?_, ?_, ?_⟩, fun _ => hvals⟩
    · intro i j ni nj hi hj hij
      rcases (hocc i ni).mp hi with ⟨h1, h2, _⟩ | ⟨h1, h2⟩ <;>
        rcases (hocc j nj).mp hj with ⟨h3, h4, _⟩ | ⟨h3, h4⟩
      · exact absurd (h1.trans h3.symm) hij
      · subst h2; exact hP.ne_symm (hI.absent j nj h4)
      · subst h4; exact hI.absent i ni h2
      · exact hI.uniq i j ni nj h2 h4 hij
    · intro i nd hnd
      rcases (hocc i nd).mp hnd with ⟨_, h2, _⟩ | ⟨_, h2⟩
      · subst h2
        exact hcov _ _ hI.tmp_path
      · exact hcov _ _ (hI.path i nd h2)
    · intro _
      have hc := occCount_set (t := s.t) s.placed (x := s.tmp_node) rfl hget
      rw [if_neg (by simpa using hem), if_pos htM] at hc
      have := hI.occ_le hfree
      show occCount s.placed ≤ (s.t.m_table_info.key_num + 1) % 2 ^ 32
      rw [hk]
      omega
  · exact ⟨hsame, fun h => by cases h⟩

/-! ### `Insert` on a table satisfying `PathWF` -/

/-- On a table satisfying `PathWF`, a call of `Insert` with a value whose key is
stored in an occupied slot leaves the table as it is and returns
`inserted = false`: on the way to that slot the probe never swaps. -/
theorem insert_present_path {P : Policy Key Value} (hP : P.Lawful) {t t' : Table Value}
    (hwf : PathWF P t) {s0 : Nat} {node0 : HashNode Value} (h0 : Occ t s0 node0) {v : Value}
    (heq : P.m_equal (P.keyOf node0) (P.m_get_key_from_value v) = true)
    {fuel : Nat} {r : Option Nat × Bool} (h : Insert P fuel t v = Exec.ok (t', r)) :
    t' = t ∧ r.2 = false := by
  have hB := hwf.basic
  have hM : UINT32_MAX = 4294967295 := rfl
  have hhash : P.m_hash (P.m_get_key_from_value v) = P.m_hash (P.keyOf node0) :=
    (hP.hash_eq _ _ heq).symm
  have hdisp := hB.disp s0 node0 h0
  have hp0 := hB.psl_le _ _ h0.1
  have hp0M := h0.2
  unfold Insert InternalInsert at h
  by_cases hnz : t.m_table_info.table_size = 0
  · rw [if_pos hnz] at h; cases h
  · rw [if_neg hnz] at h
    have key := whileLoop_inv (InternalInsert.body P)
      (I := fun s => s.t = t ∧ s.tmp_node.value = v ∧ s.tmp_node.psl ≤ node0.psl ∧
        s.slot = (P.m_hash (P.keyOf node0) % t.m_table_info.table_size + s.tmp_node.psl) %
          t.m_table_info.table_size)
      (Q := fun r : Table Value × Option Nat × Bool => r.1 = t ∧ r.2.2 = false)
      ?_ ?_ fuel _ _ ⟨rfl, rfl, Nat.zero_le _, by
        show P.m_hash (P.m_get_key_from_value v) % _ = _
        rw [hhash, Nat.add_zero, Nat.mod_mod]⟩ h
    · exact key
    · intro s s' ⟨ht, hv, hle, hslot⟩ hb
      obtain ⟨node, hget, hne, hkeq, hcase⟩ := insert_body_next hb
      have hkt : P.keyOf s.tmp_node = P.m_get_key_from_value v := by
        show P.m_get_key_from_value s.tmp_node.value = _
        rw [hv]
      rw [ht] at hget
      have hlt : s.tmp_node.psl < node0.psl := by
        rcases Nat.lt_or_ge s.tmp_node.psl node0.psl with h1 | h1
        · exact h1
        · have hpe : s.tmp_node.psl = node0.psl := by omega
          rw [hpe, hdisp] at hslot
          rw [hslot, h0.1] at hget
          cases hget
          rw [hkt, heq] at hkeq
          cases hkeq
      have hcov := hwf.path s0 node0 h0 s.tmp_node.psl hlt node (by rw [← hslot]; exact hget)
      rcases hcase with ⟨hsw, rfl⟩ | ⟨_, rfl⟩
      · omega
      · have hpsl : (s.tmp_node.psl + 1) % 2 ^ 32 = s.tmp_node.psl + 1 :=
          Nat.mod_eq_of_lt (by omega)
        refine ⟨ht, hv, ?_, ?_⟩
        · show (s.tmp_node.psl + 1) % 2 ^ 32 ≤ node0.psl
          rw [hpsl]
          omega
        · show (s.slot + 1) % s.t.m_table_info.table_size =
            (P.m_hash (P.keyOf node0) % t.m_table_info.table_size +
              (s.tmp_node.psl + 1) % 2 ^ 32) % t.m_table_info.table_size
          rw [hpsl, ht, hslot]
          exact (disp_succ rfl).symm
    · intro s r' ⟨ht, hv, hle, hslot⟩ hb
      obtain ⟨node, hget, hcase⟩ := insert_body_done hb
      rcases hcase with ⟨_, _, rfl⟩ | ⟨hem, hfree, rfl⟩ | ⟨_, _, rfl⟩
      · exact ⟨ht, rfl⟩
      · exfalso
        rw [ht] at hget hfree
        rcases Nat.lt_or_ge s.tmp_node.psl node0.psl with h1 | h1
        · have hcov := hwf.path s0 node0 h0 s.tmp_node.psl h1 node
            (by rw [← hslot]; exact hget)
          exact hcov.2 hfree hem
        · have hpe : s.tmp_node.psl = node0.psl := by omega
          rw [hpe, hdisp] at hslot
          rw [hslot, h0.1] at hget
          cases hget
          exact hp0M hem
      · exact ⟨ht, rfl⟩

theorem insertPathInv_init {P : Policy Key Value} {t : Table Value} (hwf : PathWF P t)
    (hnz : t.m_table_info.table_size ≠ 0) (v : Value)
    (habs : ∀ i node, Occ t i node →
      P.m_equal (P.keyOf node) (P.m_get_key_from_value v) = false) :
    InsertPathInv P t.m_table_info (occValues t + {v})
      { t := t, tmp_node := { psl := 0, value := v },
        slot := P.m_hash (P.m_get_key_from_value v) % t.m_table_info.table_size } := by
  have hnpos := Nat.pos_of_ne_zero hnz
  refine ⟨⟨hwf.basic, rfl, rfl, rfl, Nat.mod_lt _ hnpos, Nat.zero_le _, ?_⟩, hwf.size_lt,
    hwf.cap_le, hwf.uniq, habs, hwf.path, ?_, hwf.occ_le, fun _ => rfl⟩
  · show (_ % _ + 0) % _ = _
    rw [Nat.add_zero, Nat.mod_mod]
    rfl
  · intro c hc
    exact absurd hc (Nat.not_lt_zero c)

/-- A call of `Insert` that returns keeps `PathWF`; when it returns
`inserted = true` it adds the value to the multiset of stored values and
changes nothing else in it. -/
theorem insert_pathWF {P : Policy Key Value} (hP : P.Lawful) {t t' : Table Value}
    (hwf : PathWF P t) {fuel : Nat} {v : Value} {r : Option Nat × Bool}
    (h : Insert P fuel t v = Exec.ok (t', r)) :
    PathWF P t' ∧ (r.2 = true → occValues t' = v ::ₘ occValues t) := by
  rcases present_or_absent P t v with ⟨s0, node0, h0, heq⟩ | habs
  · obtain ⟨h1, h2⟩ := insert_present_path hP hwf h0 heq h
    rw [h1]
    exact ⟨hwf, fun h3 => by rw [h2] at h3; cases h3⟩
  · have h' := h
    unfold Insert InternalInsert at h'
    by_cases hnz : t.m_table_info.table_size = 0
    · rw [if_pos hnz] at h'; cases h'
    · rw [if_neg hnz] at h'
      have key := whileLoop_inv (InternalInsert.body P)
        (I := InsertPathInv P t.m_table_info (occValues t + {v}))
        (Q := fun r : Table Value × Option Nat × Bool =>
          PathWF P r.1 ∧ (r.2.2 = true → occValues r.1 = occValues t + {v}))
        (fun s s' hs hb => insertPathInv_next hP hs hb)
        (fun s r hs hb => insertPathInv_done hP hs hb)
        fuel _ _ (insertPathInv_init hwf hnz v habs) h'
      refine ⟨key.1, fun hr => ?_⟩
      rw [key.2 hr, add_comm, Multiset.singleton_add]

/-! ### `Remove` keeps the path invariant -/

theorem removePathInv_next {P : Policy Key Value} {info : HashTableInfo}
    {s s' : RemoveState Value} (hI : RemovePathInv P info s)
    (hb : Remove.body s = Step.next s') : RemovePathInv P info s' := by
  have hbasic' := basicRemoveInv_next hI.basic hb
  obtain ⟨nxt, hget, hne, hpos, hslen, rfl⟩ := remove_body_next hb
  have hBI := hI.basic
  have hB := hBI.basic
  have hM : UINT32_MAX = 4294967295 := rfl
  have hqle := hB.psl_le _ _ hget
  have hoccnxt : Occ s.t s.next_slot nxt := ⟨hget, hne⟩
  have hocc := occ_set_iff (t := s.t) (s.shifted nxt).t
    (x := { psl := nxt.psl - 1, value := nxt.value }) rfl hslen
  refine ⟨hbasic', ?_, ?_⟩
  · intro i j ni nj hi hj hij his hjs
    change i ≠ s.next_slot at his
    change j ≠ s.next_slot at hjs
    rcases (hocc i ni).mp hi with ⟨h1, h2, _⟩ | ⟨h1, h2⟩ <;>
      rcases (hocc j nj).mp hj with ⟨h3, h4, _⟩ | ⟨h3, h4⟩
    · exact absurd (h1.trans h3.symm) hij
    · subst h2
      exact hI.uniq_hole s.next_slot j nxt nj hoccnxt h4 (fun h => hjs h.symm)
        (fun h => his (h1.trans h.symm)) h3
    · subst h4
      exact hI.uniq_hole i s.next_slot ni nxt h2 hoccnxt his h1
        (fun h => hjs (h3.trans h.symm))
    · exact hI.uniq_hole i j ni nj h2 h4 hij h1 h3
  · intro i nd hnd hi
    change i ≠ s.next_slot at hi
    intro c hc hj y hy
    change (P.m_hash (P.keyOf nd) % s.t.m_table_info.table_size + c) %
      s.t.m_table_info.table_size ≠ s.next_slot at hj
    change (s.t.m_table.set s.slot { psl := nxt.psl - 1, value := nxt.value })[
      (P.m_hash (P.keyOf nd) % s.t.m_table_info.table_size + c) %
        s.t.m_table_info.table_size]? = some y at hy
    show c ≤ y.psl ∧ (s.t.m_table_info.key_num < s.t.m_table_info.max_key_num →
      y.psl ≠ UINT32_MAX)
    rcases (hocc i nd).mp hnd with ⟨h1, h2, _⟩ | ⟨h1, h2⟩
    · subst h2
      have hsn : s.next_slot ≠ s.slot := fun h => hi (h1.trans h.symm)
      change c < nxt.psl - 1 at hc
      change (P.m_hash (P.keyOf nxt) % s.t.m_table_info.table_size + c) %
        s.t.m_table_info.table_size ≠ s.next_slot at hj
      change (s.t.m_table.set s.slot { psl := nxt.psl - 1, value := nxt.value })[
        (P.m_hash (P.keyOf nxt) % s.t.m_table_info.table_size + c) %
          s.t.m_table_info.table_size]? = some y at hy
      by_cases hjs : (P.m_hash (P.keyOf nxt) % s.t.m_table_info.table_size + c) %
          s.t.m_table_info.table_size = s.slot
      · rw [hjs, List.getElem?_set_self hslen] at hy
        cases hy
        exact ⟨by show c ≤ nxt.psl - 1; omega, fun _ => by show nxt.psl - 1 ≠ _; omega⟩
      · rw [List.getElem?_set_ne (fun h => hjs h.symm)] at hy
        exact hI.path_hole s.next_slot nxt hoccnxt hsn c (by omega) hjs y hy
    · by_cases hjs : (P.m_hash (P.keyOf nd) % s.t.m_table_info.table_size + c) %
          s.t.m_table_info.table_size = s.slot
      · rw [hjs, List.getElem?_set_self hslen] at hy
        cases hy
        have hsn : s.next_slot ≠ s.slot := fun h => hj (hjs.trans h.symm)
        have hstep : (P.m_hash (P.keyOf nd) % s.t.m_table_info.table_size + (c + 1)) %
            s.t.m_table_info.table_size = s.next_slot := by
          rw [disp_succ hjs, hBI.next_eq]
        have hc1 : c + 1 < nd.psl := by
          rcases Nat.lt_or_ge (c + 1) nd.psl with h3 | h3
          · exact h3
          · exfalso
            have hpe : c + 1 = nd.psl := by omega
            have hd := hB.disp i nd h2
            rw [← hpe, hstep] at hd
            exact hi hd.symm
        have hold := hI.path_hole i nd h2 h1 (c + 1) hc1 (by rw [hstep]; exact hsn) nxt
          (by rw [hstep]; exact hget)
        exact ⟨by show c ≤ nxt.psl - 1; omega, fun _ => by show nxt.psl - 1 ≠ _; omega⟩
      · rw [List.getElem?_set_ne (fun h => hjs h.symm)] at hy
        exact hI.path_hole i nd h2 h1 c hc hjs y hy

theorem removePathInv_done {P : Policy Key Value} {info : HashTableInfo}
    {s : RemoveState Value} (hI : RemovePathInv P info s) {r : Table Value}
    (hb : Remove.body s = Step.done r) :
    r.m_table_info = s.t.m_table_info ∧
      (∀ i j ni nj, Occ r i ni → Occ r j nj → i ≠ j →
        P.m_equal (P.keyOf ni) (P.keyOf nj) = false) ∧
      (∀ i node, Occ r i node →
        Covers (r.m_table_info.key_num < r.m_table_info.max_key_num) r
          (P.m_hash (P.keyOf node) % r.m_table_info.table_size) node.psl) := by
  obtain ⟨nxt, hget, hstop, rfl⟩ := remove_body_done hb
  have hBI := hI.basic
  have hB := hBI.basic
  have hM : UINT32_MAX = 4294967295 := rfl
  have hlen : s.slot < s.t.m_table.length := by rw [hB.length_eq]; exact hBI.slot_lt
  obtain ⟨hn, hhn⟩ : ∃ hn, s.t.m_table[s.slot]? = some hn :=
    ⟨_, List.getElem?_eq_getElem hlen⟩
  have heq := markSlotEmpty_eq hhn
  have hinfo : (MarkSlotEmpty s.t s.slot).m_table_info = s.t.m_table_info := by rw [heq]
  have htab : (MarkSlotEmpty s.t s.slot).m_table =
      s.t.m_table.set s.slot { hn with psl := UINT32_MAX } := by rw [heq]
  have hocc := occ_set_iff (t := s.t) (MarkSlotEmpty s.t s.slot)
    (x := { hn with psl := UINT32_MAX }) htab hlen
  have hsub : ∀ i node, Occ (MarkSlotEmpty s.t s.slot) i node → i ≠ s.slot ∧ Occ s.t i node := by
    intro i node h
    rcases (hocc i node).mp h with ⟨_, _, h3⟩ | h2
    · exact absurd rfl h3
    · exact h2
  refine ⟨hinfo, ?_, ?_⟩
  · intro i j ni nj hi hj hij
    obtain ⟨h1, h2⟩ := hsub i ni hi
    obtain ⟨h3, h4⟩ := hsub j nj hj
    exact hI.uniq_hole i j ni nj h2 h4 hij h1 h3
  · intro i nd hnd
    obtain ⟨h1, h2⟩ := hsub i nd hnd
    rw [hinfo]
    intro c hc y hy
    rw [htab, hinfo] at hy
    by_cases hjs : (P.m_hash (P.keyOf nd) % s.t.m_table_info.table_size + c) %
        s.t.m_table_info.table_size = s.slot
    · rw [hjs, List.getElem?_set_self hlen] at hy
      cases hy
      have hndle := hB.psl_le _ _ h2.1
      refine ⟨by show c ≤ UINT32_MAX; omega, fun hA => ?_⟩
      exfalso
      have hstep : (P.m_hash (P.keyOf nd) % s.t.m_table_info.table_size + (c + 1)) %
          s.t.m_table_info.table_size = s.next_slot := by
        rw [disp_succ hjs, hBI.next_eq]
      rcases Nat.lt_or_ge (c + 1) nd.psl with h3 | h3
      · by_cases hsn : s.next_slot = s.slot
        · have hn1 := succ_mod_self hBI.slot_lt (hBI.next_eq.symm.trans hsn)
          have hilt : i < s.t.m_table_info.table_size := by
            rw [← hB.length_eq]; exact occ_lt h2
          have := hBI.slot_lt
          omega
        · have hold := hI.path_hole i nd h2 h1 (c + 1) h3 (by rw [hstep]; exact hsn) nxt
            (by rw [hstep]; exact hget)
          rcases hstop with h5 | h5
          · exact hold.2 hA h5
          · omega
      · have hpe : c + 1 = nd.psl := by omega
        have hd := hB.disp i nd h2
        rw [← hpe, hstep] at hd
        rw [← hd] at h2
        have hnn : nd = nxt := Option.some.inj (h2.1.symm.trans hget)
        rcases hstop with h5 | h5
        · exact h2.2 (by rw [hnn]; exact h5)
        · rw [hnn] at hpe
          omega
    · rw [List.getElem?_set_ne (fun h => hjs h.symm)] at hy
      exact hI.path_hole i nd h2 h1 c hc hjs y hy

theorem occCount_eq_card (t : Table Value) : occCount t = Multiset.card (occValues t) := by
  unfold occCount occValues occList
  rw [Multiset.coe_card, List.length_map, List.countP_eq_length_filter]

/-- A call of `Remove` that returns keeps `PathWF`. -/
theorem remove_pathWF {P : Policy Key Value} {t t' : Table Value} (hwf : PathWF P t)
    {fuel : Nat} {k : Key} (h : Remove P fuel t k = Exec.ok t') : PathWF P t' := by
  have hB := hwf.basic
  obtain ⟨hB', hinfo⟩ := remove_basic hB h
  have hcount : occCount t' ≤ occCount t := by
    rw [occCount_eq_card, occCount_eq_card]
    rcases remove_values hB h with h1 | ⟨node, _, h1⟩
    · rw [h1]
    · rw [← h1, Multiset.card_add]
      omega
  have hrest : (∀ i j ni nj, Occ t' i ni → Occ t' j nj → i ≠ j →
        P.m_equal (P.keyOf ni) (P.keyOf nj) = false) ∧
      (∀ i node, Occ t' i node →
        Covers (t'.m_table_info.key_num < t'.m_table_info.max_key_num) t'
          (P.m_hash (P.keyOf node) % t'.m_table_info.table_size) node.psl) := by
    unfold Remove at h
    cases hr : InternalLookup P t k with
    | fault f => rw [hr] at h; cases h
    | ok r =>
      rw [hr] at h
      simp only at h
      by_cases hrM : r = UINT32_MAX
      · rw [if_pos hrM] at h
        cases h
        exact ⟨hwf.uniq, hwf.path⟩
      · rw [if_neg hrM] at h
        unfold InternalLookup at hr
        by_cases hnz : t.m_table_info.table_size = 0
        · rw [if_pos hnz] at hr; cases hr
        · rw [if_neg hnz] at hr
          obtain ⟨node, hget, _, _⟩ := lookup_loop_result P t k _ _ _ r hr hrM
          have hrlt : r < t.m_table_info.table_size := by
            rw [← hB.length_eq]; exact (List.getElem?_eq_some_iff.mp hget).1
          have hI : RemovePathInv P t.m_table_info
              { t := t, slot := r, next_slot := (r + 1) % t.m_table_info.table_size } :=
            ⟨⟨hB, rfl, hrlt, rfl⟩,
              fun i j ni nj hi hj hij _ _ => hwf.uniq i j ni nj hi hj hij,
              fun i nd hi _ c hc _ y hy => hwf.path i nd hi c hc y hy⟩
          exact whileLoop_inv Remove.body (I := RemovePathInv P t.m_table_info)
            (Q := fun r' : Table Value =>
              (∀ i j ni nj, Occ r' i ni → Occ r' j nj → i ≠ j →
                P.m_equal (P.keyOf ni) (P.keyOf nj) = false) ∧
              (∀ i node, Occ r' i node →
                Covers (r'.m_table_info.key_num < r'.m_table_info.max_key_num) r'
                  (P.m_hash (P.keyOf node) % r'.m_table_info.table_size) node.psl))
            (fun s s' hs hb => removePathInv_next hs hb)
            (fun s r' hs hb => (removePathInv_done hs hb).2)
            fuel _ _ hI h
  refine ⟨hB', ?_, ?_, hrest.1, hrest.2, ?_⟩
  · rw [hinfo]; exact hwf.size_lt
  · rw [hinfo]; exact hwf.cap_le
  · rw [hinfo]
    intro hA
    exact le_trans hcount (hwf.occ_le hA)

theorem initWith_pathWF (P : Policy Key Value) {m n : Nat} (raw : Nat → Value) (hmn : m ≤ n)
    (hn : n < 2 ^ 32) : PathWF P (InitWith m n raw) := by
  refine ⟨initWith_basic P m n raw (by omega), hn, hmn, ?_, ?_, ?_⟩
  · intro i j ni nj hi _ _
    exact absurd (initWith_get hi.1) hi.2
  · intro i node hi
    exact absurd (initWith_get hi.1) hi.2
  · intro _
    rw [initWith_occCount]
    exact Nat.zero_le _

/-- Every table reachable from an `Init` that stores a capacity of at most the
table size satisfies `PathWF`, for a lawful key policy. -/
theorem reachable_pathWF {P : Policy Key Value} (hP : P.Lawful) {max_key_num : Nat} {lf : ℚ}
    {raw : Nat → Value} (hcap : max_key_num % 2 ^ 32 ≤ tableSizeOf max_key_num lf)
    {t : Table Value} (h : Reachable P (Init max_key_num lf raw) t) : PathWF P t := by
  induction h with
  | init => exact initWith_pathWF P raw hcap (tableSizeOf_lt _ _)
  | insert _ hins ih => exact (insert_pathWF hP ih hins).1
  | remove _ hrem ih => exact remove_pathWF ih hrem

/-! ### Claims C18 and C19 -/

theorem three_le_tableSizeOf : 3 % 2 ^ 32 ≤ tableSizeOf 3 DEFAULT_MAX_LOAD_FACTOR := by
  rw [tableSizeOf_three]
  decide

theorem fullTable_reachable :
    Reachable intSet (Init 3 DEFAULT_MAX_LOAD_FACTOR zeroMem) fullTable :=
  reachable_tableAfterInserts fullTable_inserts

theorem pairTable_reachable :
    Reachable intSet (Init 3 DEFAULT_MAX_LOAD_FACTOR zeroMem) pairTable := by
  have h : tableAfterInserts intSet 10 (Init 3 DEFAULT_MAX_LOAD_FACTOR zeroMem) [0, 1] =
      Exec.ok pairTable := by
    simp only [Init, tableSizeOf_three]
    decide
  exact reachable_tableAfterInserts h

/-- C18, amended: in every table state reachable from an `Init` that yields
`max_key_num ≤ table_size`, for a lawful key policy, no two distinct occupied
slots hold values with equal keys.  This covers the tables with
`table_size = max_key_num`, also after an `Insert` on the full table has run
the probe lengths up to `UINT32_MAX`. -/
theorem C18_keys_unique (P : Policy Key Value) (hP : P.Lawful)
    (max_key_num : Nat) (lf : ℚ) (raw : Nat → Value)
    (hcap : max_key_num % 2 ^ 32 ≤ tableSizeOf max_key_num lf) (t : Table Value)
    (hreach : Reachable P (Init max_key_num lf raw) t) (i j : Nat) (ni nj : HashNode Value)
    (hi : Occ t i ni) (hj : Occ t j nj) (hne : i ≠ j) :
    P.m_equal (P.keyOf ni) (P.keyOf nj) = false :=
  (reachable_pathWF hP hcap hreach).uniq i j ni nj hi hj hne

/-- The amended C18 on the full table after `Init(3)` with the default load
factor (three slots, capacity three) and `Insert` of 0, 1, 3: the keys in
slots 0 and 1 differ. -/
theorem C18_keys_unique_witness :
    Occ fullTable 0 { psl := 0, value := 0 } ∧
      Occ fullTable 1 { psl := 1, value := 3 } ∧
      intSet.m_equal (intSet.keyOf { psl := 0, value := 0 })
        (intSet.keyOf { psl := 1, value := 3 }) = false :=
  ⟨⟨by decide, by decide⟩, ⟨by decide, by decide⟩,
    C18_keys_unique intSet intSet_lawful 3 DEFAULT_MAX_LOAD_FACTOR zeroMem three_le_tableSizeOf
      fullTable fullTable_reachable 0 1 { psl := 0, value := 0 }
      { psl := 1, value := 3 } ⟨by decide, by decide⟩ ⟨by decide, by decide⟩ (by decide)⟩

/-- C18, as stated, fails: after `Init(6, 2.0)` (three slots for a capacity of
six) and `Insert` of 0, 1, 3, 4, the value 0 is stored in the occupied slot 2
but its home slot 0 is marked empty, so a further `Insert(0)` succeeds and
key 0 is held by the two occupied slots 0 and 2. -/
theorem C18_duplicate_key_after_overflow :
    Reachable intSet (Init 6 2 zeroMem) duplicateTable ∧
      Occ duplicateTable 0 { psl := 0, value := 0 } ∧
      Occ duplicateTable 2 { psl := UINT32_MAX - 1, value := 0 } ∧
      intSet.m_equal (intSet.keyOf { psl := 0, value := 0 })
        (intSet.keyOf { psl := UINT32_MAX - 1, value := 0 }) = true :=
  ⟨duplicateTable_reachable, ⟨by decide, by decide⟩, ⟨by decide, by decide⟩, rfl⟩

/-- C19, amended: in every table state reachable from an `Init` that yields
`max_key_num ≤ table_size`, for a lawful key policy, whenever `Insert(v)`
returns `inserted = true` the multiset of the values in occupied slots
afterwards is the multiset before plus `v`, and `key_num` has grown by exactly
one. -/
theorem C19_insert_loses_nothing (P : Policy Key Value) (hP : P.Lawful)
    (max_key_num : Nat) (lf : ℚ) (raw : Nat → Value)
    (hcap : max_key_num % 2 ^ 32 ≤ tableSizeOf max_key_num lf) (t : Table Value)
    (hreach : Reachable P (Init max_key_num lf raw) t) (fuel : Nat) (v : Value)
    (t' : Table Value) (r : Option Nat × Bool)
    (hins : Insert P fuel t v = Exec.ok (t', r)) (hr : r.2 = true) :
    occValues t' = v ::ₘ occValues t ∧
      t'.m_table_info.key_num = t.m_table_info.key_num + 1 :=
  ⟨(insert_pathWF hP (reachable_pathWF hP hcap hreach) hins).2 hr,
    (insert_basic (reachable_basic P max_key_num lf raw hreach).1 hins).2.2.2.1 hr⟩

/-- The amended C19 on the table holding 0 and 1 after `Init(3)` with the
default load factor (three slots, capacity three): `Insert(3)` displaces 1,
returns `inserted = true` and fills the table; the stored values become 0, 3
and 1, and `key_num` goes from 2 to 3. -/
theorem C19_insert_loses_nothing_witness :
    Insert intSet 3 pairTable 3 = Exec.ok (fullTable, some 2, true) ∧
      occValues fullTable = 3 ::ₘ occValues pairTable ∧
      fullTable.m_table_info.key_num = pairTable.m_table_info.key_num + 1 :=
  ⟨by decide,
    C19_insert_loses_nothing intSet intSet_lawful 3 DEFAULT_MAX_LOAD_FACTOR zeroMem
      three_le_tableSizeOf pairTable pairTable_reachable 3 3 fullTable (some 2, true)
      (by decide) rfl⟩

/-- C19, as stated, fails: after `Init(6, 2.0)` (three slots for a capacity of
six) and `Insert` of 0, 1, 3, the call `Insert(4)` returns `inserted = true`,
but of the values 0, 1, 3 and 4 only 0 is left in an occupied slot: the probe
lengths ran up to `UINT32_MAX`, the mark of an empty slot. -/
theorem C19_insert_loses_values_after_overflow :
    Reachable intSet (Init 6 2 zeroMem) fullTable6 ∧
      Insert intSet overflowFuel fullTable6 4 = Exec.ok (overflowTable6, some 1, true) ∧
      occValues fullTable6 = {0, 3, 1} ∧
      occValues overflowTable6 = {0} ∧
      occValues overflowTable6 ≠ 4 ::ₘ occValues fullTable6 :=
  ⟨fullTable6_reachable, overflow6_insert, by decide, by decide, by decide⟩

end RobinHoodHash
